import Mathlib

/-!
# The completion scheduler of `detail/impl/scheduler.ipp`

A shallow embedding of `scheduler` (the run loop, the posting interface, the
cleanup guards and shutdown) as explicit state passing over a `world`, followed
by theorems about it.

The embedding follows one thread.  The objects the scheduler only consumes
(operation queue, wake-up event, thread call stack, reactor, operations) have no
source in `scheduler.ipp`; each is given by a small definition whose comment
says so.
-/

set_option autoImplicit false

/-! ## Data model -/

/-- An `operation*` held in a queue: either the address of the scheduler's own
`task_operation_` member or a user operation, named by a number.  A queue
(`op_queue<operation>`) is the list of its operations, front first: `push`
appends, `front` and `pop` read and drop the head. -/
inductive operation where
  | task_operation_
  | handler (id : Nat)
deriving DecidableEq, Repr

/-- Calls that leave the scheduler, in the order they happen.  `post` records
that a posting function was handed the operation; `task_run usec q` records
`task_->run(usec, ...)` together with the main queue at that instant. -/
inductive event where
  | post (op : operation)
  | complete (id : Nat)
  | destroy (id : Nat)
  | task_run (usec : Int) (queue : List operation)
  | interrupt
  | wait
  | wait_for_usec (usec : Int)
deriving DecidableEq, Repr

/-- `scheduler::thread_info`: the worker's private queue and private work
count. -/
structure thread_info where
  private_op_queue : List operation
  private_outstanding_work : Int
deriving DecidableEq, Repr

/-- One answer of the reactor to `task_->run`: the completions it appends to the
queue it is given, and whether the call then raises. -/
structure reply where
  ready : List Nat
  raises : Bool
deriving DecidableEq, Repr

/-- The scheduler object together with what surrounds it on the calling thread.

Members of `scheduler`: `one_thread_`, `task_` (true when the pointer is
non-null), `task_interrupted_`, `outstanding_work_`, `op_queue_`, `stopped_`,
`shutdown_`.

Surroundings: `stack` is `thread_call_stack` restricted to this scheduler,
innermost entry first; `reactor` lists the answers the reactor will give to the
coming `task_->run` calls; `waiters` counts the other workers blocked on
`wakeup_event_`; `ec` is the `std::error_code` handed to the latest drive call
(0 is the default-constructed value); `trace` is the history of external calls,
newest first. -/
structure world where
  one_thread_ : Bool
  task_ : Bool
  task_interrupted_ : Bool
  outstanding_work_ : Int
  op_queue_ : List operation
  stopped_ : Bool
  shutdown_ : Bool
  stack : List thread_info
  reactor : List reply
  waiters : Nat
  ec : Int
  trace : List event
deriving DecidableEq, Repr

/-- How a call ends: it returns a count, it is left by an exception, the thread
blocks for ever (a wait nobody ends), or the evaluation budget ran out. -/
inductive outcome where
  | returned (w : world) (n : Nat)
  | threw (w : world)
  | blocked (w : world)
  | out_of_fuel
deriving DecidableEq, Repr

/-- The calls a test driver or a handler body can make on the scheduler.
`raise` (only meaningful in a handler) throws an exception. -/
inductive call where
  | init_task
  | shutdown
  | stop
  | restart
  | run
  | run_one
  | wait_one (usec : Int)
  | poll
  | poll_one
  | post_immediate_completion (id : Nat) (is_continuation : Bool)
  | post_deferred_completion (id : Nat)
  | post_deferred_completions (ids : List Nat)
  | do_dispatch (id : Nat)
  | work_started
  | work_finished
  | compensating_work_started
  | abandon_operations (ids : List Nat)
  | raise
deriving DecidableEq, Repr

/-- What is fixed for a whole execution: the body of every handler, whether the
build defines `NET_TS_HAS_THREADS`, and `numeric_limits<size_t>::max()`. -/
structure env where
  handlers : Nat → List call
  has_threads : Bool
  size_max : Nat

/-! ## Collaborators -/

/-- Append to the history. -/
def record (w : world) (e : event) : world :=
  { w with trace := e :: w.trace }

/-- Modelled from the spec: `wakeup_event_.maybe_unlock_and_signal_one` of
`event.hpp`, "wakes one waiter only if at least one is blocked; returns whether
a waiter was woken". -/
def maybe_unlock_and_signal_one (w : world) : world × Bool :=
  if 0 < w.waiters then ({ w with waiters := w.waiters - 1 }, true) else (w, false)

/-- Modelled from the spec: `wakeup_event_.unlock_and_signal_one` of `event.hpp`,
"releases the lock and wakes exactly one waiter". -/
def unlock_and_signal_one (w : world) : world :=
  { w with waiters := w.waiters - 1 }

/-- Modelled from the spec: `wakeup_event_.signal_all` of `event.hpp`, "wakes all
waiters". -/
def signal_all (w : world) : world :=
  { w with waiters := 0 }

/-- The `thread_info` a drive method starts with: an empty private queue and a
private work count of 0. -/
def fresh_thread : thread_info :=
  { private_op_queue := [], private_outstanding_work := 0 }

/-- Modelled from the spec: `thread_call_stack::contains(this)` of
`call_stack.hpp`, "returns the innermost ThreadInfo registered for the scheduler
on this thread, or null", followed by an update `f` of what it points to; with
no entry nothing is updated. -/
def update_this_thread (w : world) (f : thread_info → thread_info) : world :=
  match w.stack with
  | [] => w
  | t :: rest => { w with stack := f t :: rest }

/-- The `thread_info` a drive method works on: its own, which is the innermost
entry of the call stack while the drive runs (a fresh one when the stack is
empty). -/
def this_thread (w : world) : thread_info :=
  w.stack.headD fresh_thread

/-! ## Scheduler: non-recursive members -/

/-- The constructor, lines 90-108.  The two Booleans are the values of
`NET_TS_CONCURRENCY_HINT_IS_LOCKING(SCHEDULER, hint)` and
`NET_TS_CONCURRENCY_HINT_IS_LOCKING(REACTOR_IO, hint)`. -/
def scheduler_new (concurrency_hint : Int) (locking_scheduler locking_reactor : Bool)
    (reactor : List reply) : world :=
  { one_thread_ := concurrency_hint == 1 || !locking_scheduler || !locking_reactor
    task_ := false
    task_interrupted_ := true
    outstanding_work_ := 0
    op_queue_ := []
    stopped_ := false
    shutdown_ := false
    stack := []
    reactor := reactor
    waiters := 0
    ec := 0
    trace := [] }

/-- `scheduler::stop_all_threads`, lines 542-553. -/
def stop_all_threads (w : world) : world :=
  let w := signal_all { w with stopped_ := true }
  if !w.task_interrupted_ && w.task_ then
    record { w with task_interrupted_ := true } event.interrupt
  else w

/-- `scheduler::wake_one_thread_and_unlock`, lines 555-567. -/
def wake_one_thread_and_unlock (w : world) : world :=
  match maybe_unlock_and_signal_one w with
  | (w, true) => w
  | (w, false) =>
    if !w.task_interrupted_ && w.task_ then
      record { w with task_interrupted_ := true } event.interrupt
    else w

/-- `scheduler::stop`, lines 256-260. -/
def stop (w : world) : world :=
  stop_all_threads w

/-- `scheduler::restart`, lines 268-272. -/
def restart (w : world) : world :=
  { w with stopped_ := false }

/-- Modelled from the spec: `scheduler::work_started` of `scheduler.hpp`,
"increments W". -/
def work_started (w : world) : world :=
  { w with outstanding_work_ := w.outstanding_work_ + 1 }

/-- Modelled from the spec: `scheduler::work_finished` of `scheduler.hpp`,
"decrements W; when it reaches 0, the next drive-loop entry stops": the
scheduler is stopped as by `stop()`. -/
def work_finished (w : world) : world :=
  let w := { w with outstanding_work_ := w.outstanding_work_ - 1 }
  if w.outstanding_work_ == 0 then stop w else w

/-- `scheduler::compensating_work_started`, lines 274-278.  The source
dereferences the result of `contains` unchecked; with no entry the model does
nothing. -/
def compensating_work_started (w : world) : world :=
  update_this_thread w fun t =>
    { t with private_outstanding_work := t.private_outstanding_work + 1 }

/-- `scheduler::init_task`, lines 129-138. -/
def init_task (w : world) : world :=
  if !w.shutdown_ && !w.task_ then
    wake_one_thread_and_unlock
      { w with task_ := true, op_queue_ := w.op_queue_ ++ [operation.task_operation_] }
  else w

/-- The loop of `scheduler::shutdown`, lines 117-123: pop every operation and
destroy it unless it is `task_operation_`. -/
def destroy_all : List operation → List event → List event
  | [], tr => tr
  | operation.task_operation_ :: q, tr => destroy_all q tr
  | operation.handler id :: q, tr => destroy_all q (event.destroy id :: tr)

/-- `scheduler::shutdown`, lines 110-127. -/
def shutdown (w : world) : world :=
  let w := { w with shutdown_ := true }
  { w with trace := destroy_all w.op_queue_ w.trace, op_queue_ := [], task_ := false }

/-- The slow path shared by the posting functions: lock, push on the main queue,
`wake_one_thread_and_unlock`. -/
def push_and_wake (w : world) (ops : List operation) : world :=
  wake_one_thread_and_unlock { w with op_queue_ := w.op_queue_ ++ ops }

/-- `scheduler::post_immediate_completion`, lines 280-301. -/
def post_immediate_completion (e : env) (w : world) (op : operation)
    (is_continuation : Bool) : world :=
  let w := record w (event.post op)
  if e.has_threads && (w.one_thread_ || is_continuation) then
    match w.stack with
    | t :: rest =>
      { w with stack :=
          { private_op_queue := t.private_op_queue ++ [op]
            private_outstanding_work := t.private_outstanding_work + 1 } :: rest }
    | [] => push_and_wake (work_started w) [op]
  else push_and_wake (work_started w) [op]

/-- `scheduler::post_deferred_completion`, lines 303-319. -/
def post_deferred_completion (e : env) (w : world) (op : operation) : world :=
  let w := record w (event.post op)
  if e.has_threads && w.one_thread_ then
    match w.stack with
    | t :: rest =>
      { w with stack := { t with private_op_queue := t.private_op_queue ++ [op] } :: rest }
    | [] => push_and_wake w [op]
  else push_and_wake w [op]

/-- Record one `post` per operation of a queue, first operation first. -/
def record_posts (w : world) (ops : List operation) : world :=
  { w with trace := (ops.map event.post).reverse ++ w.trace }

/-- `scheduler::post_deferred_completions`, lines 321-341. -/
def post_deferred_completions (e : env) (w : world) (ops : List operation) : world :=
  if ops.isEmpty then w
  else
    let w := record_posts w ops
    if e.has_threads && w.one_thread_ then
      match w.stack with
      | t :: rest =>
        { w with stack := { t with private_op_queue := t.private_op_queue ++ ops } :: rest }
      | [] => push_and_wake w ops
    else push_and_wake w ops

/-- `scheduler::do_dispatch`, lines 343-350. -/
def do_dispatch (w : world) (op : operation) : world :=
  push_and_wake (work_started (record w (event.post op))) [op]

/-- Modelled from the spec: `op_queue::push(other_queue)` of `op_queue.hpp`, "O(1)
splice of an entire queue (leaves source empty)".  The result is the target and
the source after the call. -/
def push_queue (target source : List operation) : List operation × List operation :=
  (target ++ source, [])

/-- Modelled from the spec: the end of the local `op_queue` of
`abandon_operations`, whose destructor is in `op_queue.hpp`: the queue "is then
discarded", "without invoking or destroying handlers".  The result is the
history after it. -/
def op_queue_discard (_q : List operation) (tr : List event) : List event :=
  tr

/-- `scheduler::abandon_operations`, lines 352-357: the operations move to the
local queue `ops2`, which is discarded when the function returns.  The result
is the world and the caller's queue `ops` after the call. -/
def abandon_operations (w : world) (ops : List operation) : world × List operation :=
  let ops2 : List operation := []
  let (ops2, ops) := push_queue ops2 ops
  ({ w with trace := op_queue_discard ops2 w.trace }, ops)

/-- The destructor of `task_cleanup`, lines 37-53. -/
def task_cleanup (w : world) : world :=
  let t := this_thread w
  let w :=
    if 0 < t.private_outstanding_work then
      { w with outstanding_work_ := w.outstanding_work_ + t.private_outstanding_work }
    else w
  let w := update_this_thread w fun t => { t with private_outstanding_work := 0 }
  let w := { w with task_interrupted_ := true }
  let w := { w with op_queue_ := w.op_queue_ ++ (this_thread w).private_op_queue }
  let w := update_this_thread w fun t => { t with private_op_queue := [] }
  { w with op_queue_ := w.op_queue_ ++ [operation.task_operation_] }

/-- Lines 64-73 of `work_cleanup`, for the private work count `p`: more than one
unit is added to `outstanding_work_` less the one of the finished operation,
none calls `work_finished()`, exactly one changes nothing. -/
def settle_work (w : world) (p : Int) : world :=
  if 1 < p then { w with outstanding_work_ := w.outstanding_work_ + (p - 1) }
  else if p < 1 then work_finished w
  else w

/-- The destructor of `work_cleanup`, lines 62-83. -/
def work_cleanup (e : env) (w : world) : world :=
  let w := settle_work w (this_thread w).private_outstanding_work
  let w := update_this_thread w fun t => { t with private_outstanding_work := 0 }
  if e.has_threads && !(this_thread w).private_op_queue.isEmpty then
    let w := { w with op_queue_ := w.op_queue_ ++ (this_thread w).private_op_queue }
    update_this_thread w fun t => { t with private_op_queue := [] }
  else w

/-! ## The reactor and the scope guards -/

/-- Modelled from the spec: `task_->run(usec, this_thread.private_op_queue)` of
`reactor.hpp`, "blocks up to the given microseconds (0 = non-blocking poll,
negative = unbounded), appending newly-ready completions to the queue".  The
next scripted answer is consumed; with no answer left the reactor has nothing to
deliver, so it returns empty-handed when the wait is bounded and never returns
when it is unbounded. -/
def task_run (w : world) (usec : Int) : outcome :=
  let w := record w (event.task_run usec w.op_queue_)
  match w.reactor with
  | [] => if usec < 0 then outcome.blocked w else outcome.returned w 0
  | r :: rest =>
    let w := { w with reactor := rest }
    let w := update_this_thread w fun t =>
      { t with private_op_queue := t.private_op_queue ++ r.ready.map operation.handler }
    if r.raises then outcome.threw w else outcome.returned w 0

/-- A scope guard: `cleanup` runs when the guarded block is left, by return or
by exception. -/
def on_exit (cleanup : world → world) : outcome → outcome
  | outcome.returned w n => outcome.returned (cleanup w) n
  | outcome.threw w => outcome.threw (cleanup w)
  | o => o

/-! ## The worker steps

`complete w id` stands for `o->complete(this, ec, task_result)` on the user
operation `id`: whatever the handler does, as a function of the world. -/

/-- Lines 374-388 (and 439-454): `task_operation_` has just been popped.
`task_interrupted_` is set to `more_handlers`, a waiter is signalled when there
are more handlers and several threads, and the reactor is run under a
`task_cleanup` guard. -/
def run_task (w : world) (more_handlers : Bool) (usec : Int) : outcome :=
  let w := { w with task_interrupted_ := more_handlers }
  let w := if more_handlers && !w.one_thread_ then unlock_and_signal_one w else w
  on_exit task_cleanup (task_run w usec)

/-- Lines 393-396 (and 473-476, 527-530): `wake_one_thread_and_unlock` when there
are more handlers and several threads, else a plain unlock. -/
def before_complete (w : world) (more_handlers : Bool) : world :=
  if more_handlers && !w.one_thread_ then wake_one_thread_and_unlock w else w

/-- Lines 391-405 (and 471-485, 525-539): the user operation `id` has just been
popped.  Another thread is woken when there are more handlers and several
threads, then the operation is completed under a `work_cleanup` guard and 1 is
returned. -/
def complete_op (e : env) (complete : world → Nat → outcome) (w : world)
    (more_handlers : Bool) (id : Nat) : outcome :=
  match on_exit (work_cleanup e) (complete (before_complete w more_handlers) id) with
  | outcome.returned w _ => outcome.returned w 1
  | o => o

/-- `scheduler::do_run_one`, lines 359-416.  The budget bounds the turns of the
`while` loop.  An unbounded `wait` on an empty queue is never ended on a single
thread. -/
def do_run_one (e : env) (complete : world → Nat → outcome) : Nat → world → outcome
  | 0, _ => outcome.out_of_fuel
  | fuel + 1, w =>
    if w.stopped_ then outcome.returned w 0
    else
      match w.op_queue_ with
      | [] => outcome.blocked (record w event.wait)
      | operation.task_operation_ :: q =>
        let more_handlers := !q.isEmpty
        match run_task { w with op_queue_ := q } more_handlers (if more_handlers then 0 else -1) with
        | outcome.returned w _ => do_run_one e complete fuel w
        | o => o
      | operation.handler id :: q =>
        complete_op e complete { w with op_queue_ := q } (!q.isEmpty) id

/-- Lines 465-485 and 519-539, shared by `do_wait_one` and `do_poll_one`: with
`o` the front of the main queue, return 0 when there is none, else pop it and
complete it.  Both callers have returned before this point when the front is
`task_operation_`; the model returns 0 there. -/
def complete_front (e : env) (complete : world → Nat → outcome) (w : world) : outcome :=
  match w.op_queue_ with
  | [] => outcome.returned w 0
  | operation.task_operation_ :: _ => outcome.returned w 0
  | operation.handler id :: q =>
    complete_op e complete { w with op_queue_ := q } (!q.isEmpty) id

/-- `scheduler::do_wait_one`, lines 418-486.  On a single thread the queue found
after the timed wait is the queue left before it. -/
def do_wait_one (e : env) (complete : world → Nat → outcome) (w : world) (usec : Int) :
    outcome :=
  if w.stopped_ then outcome.returned w 0
  else
    let (w, usec) :=
      if w.op_queue_.isEmpty then (record w (event.wait_for_usec usec), (0 : Int))
      else (w, usec)
    match w.op_queue_ with
    | operation.task_operation_ :: q =>
      let more_handlers := !q.isEmpty
      match run_task { w with op_queue_ := q } more_handlers (if more_handlers then 0 else usec) with
      | outcome.returned w _ =>
        match w.op_queue_ with
        | operation.task_operation_ :: _ =>
          outcome.returned (if !w.one_thread_ then (maybe_unlock_and_signal_one w).1 else w) 0
        | _ => complete_front e complete w
      | o => o
    | _ => complete_front e complete w

/-- `scheduler::do_wait_one`, lines 418-486, on a thread that has company.  The
timed wait gives up the lock, and `found` is the main queue this thread finds
when the wait is over, after whatever other threads pushed on it and popped
from it; the rest is `do_wait_one`. -/
def do_wait_one_among (e : env) (complete : world → Nat → outcome) (found : List operation)
    (w : world) (usec : Int) : outcome :=
  if w.stopped_ then outcome.returned w 0
  else
    let (w, usec) :=
      if w.op_queue_.isEmpty then
        ({ record w (event.wait_for_usec usec) with op_queue_ := found }, (0 : Int))
      else (w, usec)
    match w.op_queue_ with
    | operation.task_operation_ :: q =>
      let more_handlers := !q.isEmpty
      match run_task { w with op_queue_ := q } more_handlers (if more_handlers then 0 else usec) with
      | outcome.returned w _ =>
        match w.op_queue_ with
        | operation.task_operation_ :: _ =>
          outcome.returned (if !w.one_thread_ then (maybe_unlock_and_signal_one w).1 else w) 0
        | _ => complete_front e complete w
      | o => o
    | _ => complete_front e complete w

/-- `scheduler::do_poll_one`, lines 488-540. -/
def do_poll_one (e : env) (complete : world → Nat → outcome) (w : world) : outcome :=
  if w.stopped_ then outcome.returned w 0
  else
    match w.op_queue_ with
    | operation.task_operation_ :: q =>
      match on_exit task_cleanup (task_run { w with op_queue_ := q } 0) with
      | outcome.returned w _ =>
        match w.op_queue_ with
        | operation.task_operation_ :: _ =>
          outcome.returned (maybe_unlock_and_signal_one w).1 0
        | _ => complete_front e complete w
      | o => o
    | _ => complete_front e complete w

/-! ## The drive methods -/

/-- Modelled from the spec: the constructor of `thread_call_stack::context` of
`call_stack.hpp`, a node "installed by a scope guard at the top of each drive
call", as used in `thread_info this_thread;
this_thread.private_outstanding_work = 0;
thread_call_stack::context ctx(this, this_thread);`. -/
def enter (w : world) : world :=
  { w with stack := fresh_thread :: w.stack }

/-- Modelled from the spec: the destructor of `thread_call_stack::context`, which
removes the node when the drive method is left; `this_thread` goes with it. -/
def leave (w : world) : world :=
  { w with stack := w.stack.tail }

/-- `if (n != numeric_limits<size_t>::max()) ++n;` -/
def count_up (e : env) (n : Nat) : Nat :=
  if n ≠ e.size_max then n + 1 else n

/-- The `for` loop of `scheduler::run`, lines 155-159. -/
def run_loop (e : env) (complete : world → Nat → outcome) : Nat → world → Nat → outcome
  | 0, _, _ => outcome.out_of_fuel
  | fuel + 1, w, n =>
    match do_run_one e complete fuel w with
    | outcome.returned w r => if r = 0 then outcome.returned w n
                              else run_loop e complete fuel w (count_up e n)
    | o => o

/-- `scheduler::run`, lines 140-160. -/
def run (e : env) (complete : world → Nat → outcome) (fuel : Nat) (w : world) : outcome :=
  let w := { w with ec := 0 }
  if w.outstanding_work_ == 0 then outcome.returned (stop w) 0
  else on_exit leave (run_loop e complete fuel (enter w) 0)

/-- `scheduler::run_one`, lines 162-178. -/
def run_one (e : env) (complete : world → Nat → outcome) (fuel : Nat) (w : world) : outcome :=
  let w := { w with ec := 0 }
  if w.outstanding_work_ == 0 then outcome.returned (stop w) 0
  else on_exit leave (do_run_one e complete fuel (enter w))

/-- `scheduler::wait_one`, lines 180-196. -/
def wait_one (e : env) (complete : world → Nat → outcome) (w : world) (usec : Int) : outcome :=
  let w := { w with ec := 0 }
  if w.outstanding_work_ == 0 then outcome.returned (stop w) 0
  else on_exit leave (do_wait_one e complete (enter w) usec)

/-- Lines 213-220 and 244-251: with `one_thread_`, the private queue of the next
outer entry of the call stack (`ctx.next_by_key()`, "the next-outer ThreadInfo
for the same scheduler") is pushed on the main queue. -/
def splice_outer (e : env) (w : world) : world :=
  if e.has_threads && w.one_thread_ then
    match w.stack with
    | t :: outer :: rest =>
      { w with op_queue_ := w.op_queue_ ++ outer.private_op_queue
               stack := t :: { outer with private_op_queue := [] } :: rest }
    | _ => w
  else w

/-- The `for` loop of `scheduler::poll`, lines 222-226. -/
def poll_loop (e : env) (complete : world → Nat → outcome) : Nat → world → Nat → outcome
  | 0, _, _ => outcome.out_of_fuel
  | fuel + 1, w, n =>
    match do_poll_one e complete w with
    | outcome.returned w r => if r = 0 then outcome.returned w n
                              else poll_loop e complete fuel w (count_up e n)
    | o => o

/-- `scheduler::poll`, lines 198-227. -/
def poll (e : env) (complete : world → Nat → outcome) (fuel : Nat) (w : world) : outcome :=
  let w := { w with ec := 0 }
  if w.outstanding_work_ == 0 then outcome.returned (stop w) 0
  else on_exit leave (poll_loop e complete fuel (splice_outer e (enter w)) 0)

/-- `scheduler::poll_one`, lines 229-254. -/
def poll_one (e : env) (complete : world → Nat → outcome) (w : world) : outcome :=
  let w := { w with ec := 0 }
  if w.outstanding_work_ == 0 then outcome.returned (stop w) 0
  else on_exit leave (do_poll_one e complete (splice_outer e (enter w)))

/-! ## Handlers and scripts -/

/-- One call on the scheduler.  The drive methods get `complete` for the
handlers they invoke and `fuel` for their loops. -/
def perform (e : env) (complete : world → Nat → outcome) (fuel : Nat) (w : world) :
    call → outcome
  | call.init_task => outcome.returned (init_task w) 0
  | call.shutdown => outcome.returned (shutdown w) 0
  | call.stop => outcome.returned (stop w) 0
  | call.restart => outcome.returned (restart w) 0
  | call.run => run e complete fuel w
  | call.run_one => run_one e complete fuel w
  | call.wait_one usec => wait_one e complete w usec
  | call.poll => poll e complete fuel w
  | call.poll_one => poll_one e complete w
  | call.post_immediate_completion id c =>
    outcome.returned (post_immediate_completion e w (operation.handler id) c) 0
  | call.post_deferred_completion id =>
    outcome.returned (post_deferred_completion e w (operation.handler id)) 0
  | call.post_deferred_completions ids =>
    outcome.returned (post_deferred_completions e w (ids.map operation.handler)) 0
  | call.do_dispatch id => outcome.returned (do_dispatch w (operation.handler id)) 0
  | call.work_started => outcome.returned (work_started w) 0
  | call.work_finished => outcome.returned (work_finished w) 0
  | call.compensating_work_started => outcome.returned (compensating_work_started w) 0
  | call.abandon_operations ids =>
    outcome.returned (abandon_operations w (ids.map operation.handler)).1 0
  | call.raise => outcome.threw w

/-- Run a list of calls in order, as a test driver or a handler body does; an
exception ends the list.  Completing operation `id` records the call and runs
the body `e.handlers id`. -/
def exec (e : env) : Nat → world → List call → outcome
  | 0, _, _ => outcome.out_of_fuel
  | _ + 1, w, [] => outcome.returned w 0
  | fuel + 1, w, c :: cs =>
    match perform e
        (fun w id => exec e fuel (record w (event.complete id)) (e.handlers id)) fuel w c with
    | outcome.returned w _ => exec e fuel w cs
    | o => o

/-- The meaning of `o->complete(...)` for the operation `id`, with budget
`fuel` for the handler body. -/
def complete (e : env) (fuel : Nat) (w : world) (id : Nat) : outcome :=
  exec e fuel (record w (event.complete id)) (e.handlers id)

/-- A test driver: like a handler body, except that an exception leaving a call
is caught and the driver goes on with its next call. -/
def script (e : env) : Nat → world → List call → outcome
  | 0, _, _ => outcome.out_of_fuel
  | _ + 1, w, [] => outcome.returned w 0
  | fuel + 1, w, c :: cs =>
    match perform e (complete e fuel) fuel w c with
    | outcome.returned w _ => script e fuel w cs
    | outcome.threw w => script e fuel w cs
    | o => o

/-! ## Reading queues and histories -/

/-- The user operations of a queue, in queue order. -/
def handler_ids : List operation → List Nat
  | [] => []
  | operation.task_operation_ :: q => handler_ids q
  | operation.handler id :: q => id :: handler_ids q

/-- A post made by a test driver: `post_immediate_completion(id, c)` for
`(id, some c)`, `do_dispatch(id)` for `(id, none)`. -/
def post_call : Nat × Option Bool → call
  | (id, some c) => call.post_immediate_completion id c
  | (id, none) => call.do_dispatch id

/-! ## Invariants of executions -/

/-- A predicate on worlds, read on the world a call leaves behind when it
returns or throws. -/
def sat (P : world → Prop) : outcome → Prop
  | outcome.returned w _ => P w
  | outcome.threw w => P w
  | _ => True

/-- Without `NET_TS_HAS_THREADS` no private queue holds anything while a handler
or a driver runs. -/
def quiet (e : env) (w : world) : Prop :=
  e.has_threads = false → ∀ t ∈ w.stack, t.private_op_queue = []

/-- The call stack between two steps of a drive method: the drive's own
`thread_info` is innermost, with nothing in it. -/
def at_drive (e : env) (w : world) : Prop :=
  quiet e w ∧ ∃ rest, w.stack = fresh_thread :: rest

/-- The drive methods among the calls. -/
def is_drive : call → Bool
  | call.run => true
  | call.run_one => true
  | call.wait_one _ => true
  | call.poll => true
  | call.poll_one => true
  | _ => false

/-- What it takes for a pair of predicates to be kept by every execution built
from the calls allowed by `A`: `H` holds wherever a handler body or a driver
runs, `D` between the steps of a drive method. -/
structure preserved (e : env) (A : call → Prop) (H D : world → Prop) : Prop where
  on_prim : ∀ (cmp : world → Nat → outcome) (fuel : Nat) (w : world) (c : call),
    A c → is_drive c = false → quiet e w → H w → sat H (perform e cmp fuel w c)
  on_gate : ∀ w, quiet e w → H w → H (stop { w with ec := 0 })
  on_enter : ∀ w, quiet e w → H w → D (enter { w with ec := 0 })
  on_leave : ∀ w, at_drive e w → D w → H (leave w)
  on_splice : ∀ w, at_drive e w → D w → D (splice_outer e w)
  on_begin : ∀ w id q, at_drive e w → D w → w.op_queue_ = operation.handler id :: q →
    H (record (before_complete { w with op_queue_ := q } (!q.isEmpty)) (event.complete id))
  on_finish : ∀ w, quiet e w → w.stack ≠ [] → H w → D (work_cleanup e w)
  on_task : ∀ w q more usec, at_drive e w → D w →
    w.op_queue_ = operation.task_operation_ :: q →
    sat D (run_task { w with op_queue_ := q } more usec)
  on_task_poll : ∀ w q, at_drive e w → D w →
    w.op_queue_ = operation.task_operation_ :: q →
    sat D (on_exit task_cleanup (task_run { w with op_queue_ := q } 0))
  on_timed_wait : ∀ w usec, at_drive e w → D w → D (record w (event.wait_for_usec usec))
  on_signal : ∀ w, at_drive e w → D w → D (maybe_unlock_and_signal_one w).1

/-- The call left a world where `H` holds, with the call stack as high as in
`w0` and the private queues empty in a build without threads. -/
def keeps_h (e : env) (H : world → Prop) (w0 : world) (o : outcome) : Prop :=
  sat (fun w1 => quiet e w1 ∧ H w1 ∧ w1.stack.length = w0.stack.length) o

/-- The step of a drive method left a world where `D` holds, with the call stack
as high as in `w0` and the drive's own `thread_info` empty. -/
def keeps_d (e : env) (D : world → Prop) (w0 : world) (o : outcome) : Prop :=
  sat (fun w1 => at_drive e w1 ∧ D w1 ∧ w1.stack.length = w0.stack.length) o

/-- What is assumed of `o->complete`: started where `H` holds once the call is
recorded, the handler keeps `H`. -/
def handler_ok (e : env) (H : world → Prop) (cmp : world → Nat → outcome) : Prop :=
  ∀ w id, quiet e w → H (record w (event.complete id)) → keeps_h e H w (cmp w id)

/-! ## Reading the history -/

/-- The operations on which `complete` was invoked, newest first. -/
def completions : List event → List Nat
  | [] => []
  | event.complete id :: tr => id :: completions tr
  | _ :: tr => completions tr

/-- The operations on which `destroy` was invoked, newest first. -/
def destroyed : List event → List Nat
  | [] => []
  | event.destroy id :: tr => id :: destroyed tr
  | _ :: tr => destroyed tr

/-- The operations handed to a posting function, newest first. -/
def posted : List event → List operation
  | [] => []
  | event.post op :: tr => op :: posted tr
  | _ :: tr => posted tr

/-- The number of waits made on the wake-up event, bounded or not. -/
def waits : List event → Nat
  | [] => 0
  | event.wait :: tr => waits tr + 1
  | event.wait_for_usec _ :: tr => waits tr + 1
  | _ :: tr => waits tr

/-- The block time of each `task_->run`, newest first. -/
def run_times : List event → List Int
  | [] => []
  | event.task_run usec _ :: tr => usec :: run_times tr
  | _ :: tr => run_times tr

/-- The number of `task_->interrupt()` calls. -/
def interrupts : List event → Nat
  | [] => 0
  | event.interrupt :: tr => interrupts tr + 1
  | _ :: tr => interrupts tr

/-- The main queue as it stood at each `task_->run`, newest first. -/
def task_runs : List event → List (List operation)
  | [] => []
  | event.task_run _ q :: tr => q :: task_runs tr
  | _ :: tr => task_runs tr

/-- From `w` to `w1` nothing was completed, the reactor was not run and the
wake-up event was not waited on, and `w1` is stopped. -/
def idle_since (w w1 : world) : Prop :=
  w1.stopped_ = true
  ∧ completions w1.trace = completions w.trace
  ∧ task_runs w1.trace = task_runs w.trace
  ∧ waits w1.trace = waits w.trace

/-! ## The invariant of `task_operation_` -/

/-- `task_operation_` is in no private queue; it stands in the main queue once
when a task is installed and not at all otherwise; and no `task_->run` was ever
made with `task_operation_` in the main queue. -/
def sentinel_inv (w : world) : Prop :=
  (∀ t ∈ w.stack, operation.task_operation_ ∉ t.private_op_queue)
  ∧ w.op_queue_.count operation.task_operation_ = (if w.task_ then 1 else 0)
  ∧ (∀ q ∈ task_runs w.trace, operation.task_operation_ ∉ q)

/-- The world `w1` that a guarded reactor call leaves when made in `w`: the call
is recorded with the main queue of that instant, the reactor's next answer (if
any) is consumed, and its completions, then `task_operation_`, are appended to
the main queue; `task_interrupted_` is set. -/
def task_step (w w1 : world) (usec : Int) : Prop :=
  ∃ (ready : List Nat) (rs : List reply) (wt : Nat),
    ((w.reactor = [] ∧ ready = [] ∧ rs = []) ∨ ∃ r, w.reactor = r :: rs ∧ ready = r.ready)
    ∧ w1 = { w with
        trace := event.task_run usec w.op_queue_ :: w.trace
        reactor := rs
        task_interrupted_ := true
        waiters := wt
        op_queue_ := w.op_queue_ ++ ready.map operation.handler ++ [operation.task_operation_] }

/-! ## The ledger of operations -/

/-- How often the user operation `x` stands in the private queues of the call
stack. -/
def pending_private (x : Nat) (stack : List thread_info) : Nat :=
  (stack.map fun t => t.private_op_queue.count (operation.handler x)).sum

/-- How often the reactor is still going to deliver the user operation `x`. -/
def pending_reactor (x : Nat) (r : List reply) : Nat :=
  (r.map fun a => a.ready.count x).sum

/-- Every place the user operation `x` can be: waiting in the main queue, in a
private queue or in the reactor, or gone through `complete` or `destroy`. -/
def ledger (w : world) (x : Nat) : Nat :=
  w.op_queue_.count (operation.handler x) + pending_private x w.stack
    + pending_reactor x w.reactor + (completions w.trace).count x + (destroyed w.trace).count x

/-- Each operation is accounted for as often as it was posted, plus the `c x`
times the reactor held it at the start; the reactor holds it no more often than
then. -/
def ledger_inv (c : Nat → Nat) (w : world) : Prop :=
  ∀ x, ledger w x = (posted w.trace).count (operation.handler x) + c x
    ∧ pending_reactor x w.reactor ≤ c x

/-! ## The count of outstanding work -/

/-- The private work counts of the call stack, added up. -/
def private_work (stack : List thread_info) : Int :=
  (stack.map fun t => t.private_outstanding_work).sum

/-- The number of user operations waiting in the main queue or in a private
queue. -/
def waiting (w : world) : Nat :=
  (handler_ids w.op_queue_).length
    + (w.stack.map fun t => (handler_ids t.private_op_queue).length).sum

/-- `outstanding_work_` and the private counts together stand for the waiting
operations, the destroyed ones, and one unit per operation being completed: all
the entries of the call stack while a handler runs (`off = 0`), all but the
innermost between the steps of a drive (`off = 1`).  No private count is
negative, the reactor delivers nothing, and every posted operation is waiting,
completed or destroyed. -/
def work_inv (off : Int) (w : world) : Prop :=
  w.outstanding_work_ + private_work w.stack + off
      = (waiting w : Int) + ((destroyed w.trace).length : Int) + (w.stack.length : Int)
  ∧ (∀ t ∈ w.stack, 0 ≤ t.private_outstanding_work)
  ∧ (∀ a ∈ w.reactor, a.ready = [])
  ∧ waiting w + (completions w.trace).length + (destroyed w.trace).length
      = (posted w.trace).length

/-- The calls of an execution in which operations are posted only through
`post_immediate_completion` and `do_dispatch` and work is counted by nobody
else. -/
def counted_call : call → Prop
  | call.post_deferred_completion _ => False
  | call.post_deferred_completions _ => False
  | call.work_started => False
  | call.work_finished => False
  | call.compensating_work_started => False
  | _ => True

/-! ## First in, first out -/

/-- The user operations a call hands to the scheduler. -/
def posts_of : call → List Nat
  | call.post_immediate_completion id _ => [id]
  | call.post_deferred_completion id => [id]
  | call.post_deferred_completions ids => ids
  | call.do_dispatch id => [id]
  | _ => []

/-- A call that hands `A` or `B` to the scheduler only as `do_dispatch`, and
does not shut the scheduler down. -/
def order_call (A B : Nat) (c : call) : Prop :=
  (c = call.do_dispatch B ∨ B ∉ posts_of c)
  ∧ (c = call.do_dispatch A ∨ A ∉ posts_of c)
  ∧ c ≠ call.shutdown

/-- A call that posts the one operation `id`: `do_dispatch`,
`post_immediate_completion` or `post_deferred_completion`. -/
def is_post_of (id : Nat) (c : call) : Prop :=
  c = call.do_dispatch id ∨ c = call.post_deferred_completion id
    ∨ ∃ b, c = call.post_immediate_completion id b

/-- What a test driver may call: an `order_call`, or any of the three posting
functions on `A` or on `B` (outside a drive all three take the slow path). -/
def driver_call (A B : Nat) (c : call) : Prop :=
  order_call A B c ∨ is_post_of A c ∨ is_post_of B c

/-- In a history `pnew` of posts (newest first), a post of `A` comes before the
first post of `B`. -/
def posted_before (A B : Nat) (pnew : List operation) : Prop :=
  ∀ l1 l2, pnew = l2 ++ operation.handler B :: l1 → operation.handler B ∉ l1 →
    operation.handler A ∈ l1

/-- In a history `cnew` of completions (newest first), `A` is completed at a
point before which `B` was not. -/
def completed_before (A B : Nat) (cnew : List Nat) : Prop :=
  ∃ older newer, cnew = newer ++ A :: older ∧ B ∉ older

/-- The order invariant.  `B` is in no private queue and the reactor does not
hold it.  With `pnew` and `cnew` the posts and completions made since the start
(on top of the older `p0` and `c0`), one of four holds: `B` has not been posted,
is not queued and has not been completed, while `A`, if posted, is queued or
completed; or `B` was first posted with no post of `A` before it; or `B` has not
been completed and `A` stands in the main queue with no `B` before it; or `A`
has been completed before any completion of `B`. -/
def order_inv (A B : Nat) (p0 : List operation) (c0 : List Nat) (w : world) : Prop :=
  (∀ t ∈ w.stack, operation.handler B ∉ t.private_op_queue)
  ∧ (∀ a ∈ w.reactor, B ∉ a.ready)
  ∧ ∃ pnew cnew, posted w.trace = pnew ++ p0 ∧ completions w.trace = cnew ++ c0
    ∧ ((operation.handler B ∉ pnew ∧ operation.handler B ∉ w.op_queue_ ∧ B ∉ cnew
          ∧ (operation.handler A ∈ pnew → operation.handler A ∈ w.op_queue_ ∨ A ∈ cnew))
       ∨ ¬ posted_before A B pnew
       ∨ (B ∉ cnew ∧ ∃ pre rest, w.op_queue_ = pre ++ operation.handler A :: rest
            ∧ operation.handler B ∉ pre)
       ∨ completed_before A B cnew)

/-! ## Readers and relations for the worker steps -/

/-- The user operations a list of calls hands to the scheduler, in order. -/
def posts_of_all : List call → List Nat
  | [] => []
  | c :: cs => posts_of c ++ posts_of_all cs

/-- A call that raises the private work count of the worker it is made on by
one: `compensating_work_started()`, or a `post_immediate_completion` that takes
the fast path inside a drive (`one_thread_` or `is_continuation`). -/
def counts_privately (one_thread : Bool) : call → Prop
  | call.post_immediate_completion _ c => (one_thread || c) = true
  | call.compensating_work_started => True
  | _ => False

/-- A predicate on worlds, read on the world in which a call ends, however it
ends: by return, by exception, or blocked for ever. -/
def along (P : world → Prop) : outcome → Prop
  | outcome.returned w _ => P w
  | outcome.threw w => P w
  | outcome.blocked w => P w
  | outcome.out_of_fuel => True

/-- Two ways a call can end that leave the same world behind: the same way, or
the first by an exception where the second returns. -/
def raised_instead (o1 o2 : outcome) : Prop :=
  o1 = o2 ∨ ∃ w n, o1 = outcome.threw w ∧ o2 = outcome.returned w n

/-- How a worker step ends, seen from the handlers: in `w1` without having
invoked any (it returns 0, or the reactor raised or never returned), or by
completing exactly one operation, `id`, popped in `w1`. -/
def ends_at (e : env) (cmp : world → Nat → outcome) (o : outcome) (w1 : world) : Prop :=
  o = outcome.returned w1 0 ∨ o = outcome.threw w1 ∨ o = outcome.blocked w1
    ∨ ∃ more id, o = complete_op e cmp w1 more id

/-- From `w` to `w1` the wake-up event was not waited on, and every `task_->run`
made had block time 0. -/
def polled (w w1 : world) : Prop :=
  waits w1.trace = waits w.trace
  ∧ ∃ k, run_times w1.trace = List.replicate k 0 ++ run_times w.trace


/-! ## Unfolding the worker steps -/

theorem do_run_one_handler (e : env) (cmp : world → Nat → outcome) (fuel : Nat) (w : world)
    (id : Nat) (q : List operation) (hs : w.stopped_ = false)
    (hq : w.op_queue_ = operation.handler id :: q) :
    do_run_one e cmp (fuel + 1) w = complete_op e cmp { w with op_queue_ := q } (!q.isEmpty) id := by
  simp only [do_run_one, hs, hq]
  rfl

theorem do_run_one_task (e : env) (cmp : world → Nat → outcome) (fuel : Nat) (w : world)
    (q : List operation) (hs : w.stopped_ = false)
    (hq : w.op_queue_ = operation.task_operation_ :: q) :
    do_run_one e cmp (fuel + 1) w =
      match run_task { w with op_queue_ := q } (!q.isEmpty) (if !q.isEmpty then 0 else -1) with
      | outcome.returned w _ => do_run_one e cmp fuel w
      | o => o := by
  simp only [do_run_one, hs, hq]
  rfl

theorem do_run_one_stopped (e : env) (cmp : world → Nat → outcome) (fuel : Nat) (w : world)
    (hs : w.stopped_ = true) :
    do_run_one e cmp (fuel + 1) w = outcome.returned w 0 := by
  simp [do_run_one, hs]

theorem do_run_one_empty (e : env) (cmp : world → Nat → outcome) (fuel : Nat) (w : world)
    (hs : w.stopped_ = false) (hq : w.op_queue_ = []) :
    do_run_one e cmp (fuel + 1) w = outcome.blocked (record w event.wait) := by
  simp [do_run_one, hs, hq]

theorem complete_op_returned (e : env) (cmp : world → Nat → outcome) (w w1 : world)
    (more : Bool) (id n : Nat)
    (h : cmp (before_complete w more) id = outcome.returned w1 n) :
    complete_op e cmp w more id = outcome.returned (work_cleanup e w1) 1 := by
  simp only [complete_op, h, on_exit]


/-- The result of `stop()` on a world, written out. -/
theorem stop_eq (w : world) :
    stop w =
      { w with
        stopped_ := true
        waiters := 0
        task_interrupted_ := w.task_interrupted_ || w.task_
        trace := if !w.task_interrupted_ && w.task_ then event.interrupt :: w.trace
                 else w.trace } := by
  cases w with
  | mk ot t ti W q st sh stack reactor waiters ec tr =>
    cases ti <;> cases t <;> simp [stop, stop_all_threads, signal_all, record]

/-- The result of `wake_one_thread_and_unlock` on a world, written out. -/
theorem wake_eq (w : world) :
    wake_one_thread_and_unlock w =
      { w with
        waiters := w.waiters - 1
        task_interrupted_ := w.task_interrupted_ || (decide (w.waiters = 0) && w.task_)
        trace := if w.waiters = 0 ∧ w.task_interrupted_ = false ∧ w.task_ = true then
                   event.interrupt :: w.trace
                 else w.trace } := by
  cases w with
  | mk ot t ti W q st sh stack reactor waiters ec tr =>
    cases waiters with
    | zero =>
      cases ti <;> cases t <;>
        simp [wake_one_thread_and_unlock, maybe_unlock_and_signal_one, record]
    | succ n =>
      cases ti <;> cases t <;>
        simp [wake_one_thread_and_unlock, maybe_unlock_and_signal_one, record]


theorem do_wait_one_stopped (e : env) (cmp : world → Nat → outcome) (w : world) (usec : Int)
    (hs : w.stopped_ = true) : do_wait_one e cmp w usec = outcome.returned w 0 := by
  simp [do_wait_one, hs]

theorem do_wait_one_empty (e : env) (cmp : world → Nat → outcome) (w : world) (usec : Int)
    (hs : w.stopped_ = false) (hq : w.op_queue_ = []) :
    do_wait_one e cmp w usec = outcome.returned (record w (event.wait_for_usec usec)) 0 := by
  simp [do_wait_one, hs, hq, record, complete_front]

theorem do_wait_one_handler (e : env) (cmp : world → Nat → outcome) (w : world) (usec : Int)
    (id : Nat) (q : List operation) (hs : w.stopped_ = false)
    (hq : w.op_queue_ = operation.handler id :: q) :
    do_wait_one e cmp w usec = complete_op e cmp { w with op_queue_ := q } (!q.isEmpty) id := by
  simp [do_wait_one, hs, hq, complete_front]

theorem do_wait_one_task (e : env) (cmp : world → Nat → outcome) (w : world) (usec : Int)
    (q : List operation) (hs : w.stopped_ = false)
    (hq : w.op_queue_ = operation.task_operation_ :: q) :
    do_wait_one e cmp w usec =
      match run_task { w with op_queue_ := q } (!q.isEmpty) (if !q.isEmpty then 0 else usec) with
      | outcome.returned w _ =>
        match w.op_queue_ with
        | operation.task_operation_ :: _ =>
          outcome.returned (if !w.one_thread_ then (maybe_unlock_and_signal_one w).1 else w) 0
        | _ => complete_front e cmp w
      | o => o := by
  unfold do_wait_one
  simp only [hs, hq, List.isEmpty_cons, Bool.false_eq_true, if_false]

theorem do_poll_one_stopped (e : env) (cmp : world → Nat → outcome) (w : world)
    (hs : w.stopped_ = true) : do_poll_one e cmp w = outcome.returned w 0 := by
  simp [do_poll_one, hs]

theorem do_poll_one_empty (e : env) (cmp : world → Nat → outcome) (w : world)
    (hs : w.stopped_ = false) (hq : w.op_queue_ = []) :
    do_poll_one e cmp w = outcome.returned w 0 := by
  simp [do_poll_one, hs, hq, complete_front]

theorem do_poll_one_handler (e : env) (cmp : world → Nat → outcome) (w : world)
    (id : Nat) (q : List operation) (hs : w.stopped_ = false)
    (hq : w.op_queue_ = operation.handler id :: q) :
    do_poll_one e cmp w = complete_op e cmp { w with op_queue_ := q } (!q.isEmpty) id := by
  simp [do_poll_one, hs, hq, complete_front]

theorem do_poll_one_task (e : env) (cmp : world → Nat → outcome) (w : world)
    (q : List operation) (hs : w.stopped_ = false)
    (hq : w.op_queue_ = operation.task_operation_ :: q) :
    do_poll_one e cmp w =
      match on_exit task_cleanup (task_run { w with op_queue_ := q } 0) with
      | outcome.returned w _ =>
        match w.op_queue_ with
        | operation.task_operation_ :: _ =>
          outcome.returned (maybe_unlock_and_signal_one w).1 0
        | _ => complete_front e cmp w
      | o => o := by
  simp only [do_poll_one, hs, hq]
  rfl

theorem destroy_all_eq (q : List operation) (tr : List event) :
    destroy_all q tr = ((handler_ids q).map event.destroy).reverse ++ tr := by
  induction q generalizing tr with
  | nil => simp [destroy_all, handler_ids]
  | cons o q ih =>
    cases o with
    | task_operation_ => simp [destroy_all, handler_ids, ih]
    | handler id => simp [destroy_all, handler_ids, ih]


/-! ## The call stack across the scheduler's members -/

@[simp]
theorem stop_stack (w : world) : (stop w).stack = w.stack := by
  rw [stop_eq]

@[simp]
theorem wake_stack (w : world) : (wake_one_thread_and_unlock w).stack = w.stack := by
  rw [wake_eq]

@[simp]
theorem work_finished_stack (w : world) : (work_finished w).stack = w.stack := by
  unfold work_finished
  simp only []
  split
  · rw [stop_eq]
  · rfl

@[simp]
theorem before_complete_stack (w : world) (more : Bool) :
    (before_complete w more).stack = w.stack := by
  unfold before_complete
  split
  · exact wake_stack w
  · rfl

@[simp]
theorem push_and_wake_stack (w : world) (ops : List operation) :
    (push_and_wake w ops).stack = w.stack := by
  unfold push_and_wake
  rw [wake_stack]

@[simp]
theorem init_task_stack (w : world) : (init_task w).stack = w.stack := by
  unfold init_task
  split
  · rw [wake_stack]
  · rfl

theorem quiet_of_stack (e : env) (w w1 : world) (h : w1.stack = w.stack) (hq : quiet e w) :
    quiet e w1 := by
  intro ht t hm
  rw [h] at hm
  exact hq ht t hm

theorem at_drive_of_stack (e : env) (w w1 : world) (h : w1.stack = w.stack)
    (hd : at_drive e w) : at_drive e w1 := by
  obtain ⟨hq, rest, hr⟩ := hd
  exact ⟨quiet_of_stack e w w1 h hq, rest, by rw [h, hr]⟩

theorem post_immediate_completion_shape (e : env) (w : world) (op : operation) (c : Bool)
    (hq : quiet e w) :
    quiet e (post_immediate_completion e w op c)
    ∧ (post_immediate_completion e w op c).stack.length = w.stack.length := by
  unfold post_immediate_completion
  simp only []
  split
  · rename_i hc
    cases hst : w.stack with
    | nil =>
      have h : (record w (event.post op)).stack = [] := hst
      simp only [h, push_and_wake_stack, work_started, record, hst, List.length_nil, and_true]
      intro _ t hm
      rw [push_and_wake_stack] at hm
      simp [hst] at hm
    | cons t rest =>
      have h : (record w (event.post op)).stack = t :: rest := hst
      simp only [h, List.length_cons, and_true]
      intro hf
      simp [hf] at hc
  · have h : (push_and_wake (work_started (record w (event.post op))) [op]).stack = w.stack := by
      rw [push_and_wake_stack]; rfl
    exact ⟨quiet_of_stack e w _ h hq, by rw [h]⟩

theorem post_deferred_completion_shape (e : env) (w : world) (op : operation)
    (hq : quiet e w) :
    quiet e (post_deferred_completion e w op)
    ∧ (post_deferred_completion e w op).stack.length = w.stack.length := by
  unfold post_deferred_completion
  simp only []
  split
  · rename_i hc
    cases hst : w.stack with
    | nil =>
      have h : (record w (event.post op)).stack = [] := hst
      simp only [h, push_and_wake_stack, record, hst, List.length_nil, and_true]
      intro _ t hm
      rw [push_and_wake_stack] at hm
      simp [hst] at hm
    | cons t rest =>
      have h : (record w (event.post op)).stack = t :: rest := hst
      simp only [h, List.length_cons, and_true]
      intro hf
      simp [hf] at hc
  · have h : (push_and_wake (record w (event.post op)) [op]).stack = w.stack := by
      rw [push_and_wake_stack]; rfl
    exact ⟨quiet_of_stack e w _ h hq, by rw [h]⟩

theorem post_deferred_completions_shape (e : env) (w : world) (ops : List operation)
    (hq : quiet e w) :
    quiet e (post_deferred_completions e w ops)
    ∧ (post_deferred_completions e w ops).stack.length = w.stack.length := by
  unfold post_deferred_completions
  split
  · exact ⟨hq, rfl⟩
  · simp only []
    split
    · rename_i hc
      cases hst : w.stack with
      | nil =>
        have h : (record_posts w ops).stack = [] := hst
        simp only [h, push_and_wake_stack, record_posts, hst, List.length_nil, and_true]
        intro _ t hm
        rw [push_and_wake_stack] at hm
        simp [hst] at hm
      | cons t rest =>
        have h : (record_posts w ops).stack = t :: rest := hst
        simp only [h, List.length_cons, and_true]
        intro hf
        simp [hf] at hc
    · have h : (push_and_wake (record_posts w ops) ops).stack = w.stack := by
        rw [push_and_wake_stack]; rfl
      exact ⟨quiet_of_stack e w _ h hq, by rw [h]⟩

theorem compensating_work_started_shape (e : env) (w : world) (hq : quiet e w) :
    quiet e (compensating_work_started w)
    ∧ (compensating_work_started w).stack.length = w.stack.length := by
  unfold compensating_work_started update_this_thread
  split
  · exact ⟨hq, rfl⟩
  · rename_i t rest hst
    simp only [List.length_cons, hst, and_true]
    intro hf u hu
    have := hq hf
    rw [hst] at this
    simp only [List.mem_cons] at hu this
    rcases hu with rfl | hu
    · exact this t (Or.inl rfl)
    · exact this u (Or.inr hu)

/-- Every call that is not a drive method keeps the height of the call stack and
keeps the private queues empty in a build without threads. -/
theorem perform_shape (e : env) (cmp : world → Nat → outcome) (fuel : Nat) (w : world)
    (c : call) (hc : is_drive c = false) (hq : quiet e w) :
    sat (fun w1 => quiet e w1 ∧ w1.stack.length = w.stack.length) (perform e cmp fuel w c) := by
  cases c with
  | init_task => exact ⟨quiet_of_stack e w _ (init_task_stack w) hq, by rw [init_task_stack]⟩
  | shutdown => exact ⟨quiet_of_stack e w _ rfl hq, rfl⟩
  | stop => exact ⟨quiet_of_stack e w _ (stop_stack w) hq, by rw [stop_stack]⟩
  | restart => exact ⟨quiet_of_stack e w _ rfl hq, rfl⟩
  | run => simp [is_drive] at hc
  | run_one => simp [is_drive] at hc
  | wait_one usec => simp [is_drive] at hc
  | poll => simp [is_drive] at hc
  | poll_one => simp [is_drive] at hc
  | post_immediate_completion id b => exact post_immediate_completion_shape e w _ b hq
  | post_deferred_completion id => exact post_deferred_completion_shape e w _ hq
  | post_deferred_completions ids => exact post_deferred_completions_shape e w _ hq
  | do_dispatch id =>
    have h : (do_dispatch w (operation.handler id)).stack = w.stack := by
      unfold do_dispatch; rw [push_and_wake_stack]; rfl
    exact ⟨quiet_of_stack e w _ h hq, by rw [h]⟩
  | work_started => exact ⟨quiet_of_stack e w _ rfl hq, rfl⟩
  | work_finished =>
    exact ⟨quiet_of_stack e w _ (work_finished_stack w) hq, by rw [work_finished_stack]⟩
  | compensating_work_started => exact compensating_work_started_shape e w hq
  | abandon_operations ids => exact ⟨hq, rfl⟩
  | raise => exact ⟨hq, rfl⟩


/-! ## The scope guards, written out -/

theorem settle_work_stack (w : world) (p : Int) : (settle_work w p).stack = w.stack := by
  unfold settle_work
  split
  · rfl
  · split
    · exact work_finished_stack w
    · rfl

theorem work_cleanup_eq (e : env) (w : world) (t : thread_info) (rest : List thread_info)
    (h : w.stack = t :: rest) :
    work_cleanup e w =
      { settle_work w t.private_outstanding_work with
        op_queue_ := (settle_work w t.private_outstanding_work).op_queue_
          ++ (if e.has_threads then t.private_op_queue else [])
        stack := { private_op_queue := if e.has_threads then [] else t.private_op_queue
                   private_outstanding_work := 0 } :: rest } := by
  have hth : this_thread w = t := by simp [this_thread, h]
  have h1 : (settle_work w t.private_outstanding_work).stack = t :: rest := by
    rw [settle_work_stack, h]
  unfold work_cleanup
  rw [hth]
  generalize settle_work w t.private_outstanding_work = w1 at h1 ⊢
  cases w1 with
  | mk ot tk ti W q st sh stack reactor waiters ec tr =>
    simp only at h1
    subst h1
    cases hth : e.has_threads
    · simp [update_this_thread, this_thread]
    · cases hp : t.private_op_queue with
      | nil => simp [update_this_thread, this_thread, hp]
      | cons o os => simp [update_this_thread, this_thread, hp]

theorem task_cleanup_eq (w : world) (t : thread_info) (rest : List thread_info)
    (h : w.stack = t :: rest) :
    task_cleanup w =
      { w with
        outstanding_work_ := if 0 < t.private_outstanding_work then
            w.outstanding_work_ + t.private_outstanding_work else w.outstanding_work_
        task_interrupted_ := true
        op_queue_ := w.op_queue_ ++ t.private_op_queue ++ [operation.task_operation_]
        stack := fresh_thread :: rest } := by
  cases w with
  | mk ot tk ti W q st sh stack reactor waiters ec tr =>
    simp only at h
    subst h
    by_cases hp : 0 < t.private_outstanding_work
    · simp [task_cleanup, this_thread, update_this_thread, hp, fresh_thread]
    · simp [task_cleanup, this_thread, update_this_thread, hp, fresh_thread]

theorem task_run_eq (w : world) (usec : Int) (t : thread_info) (rest : List thread_info)
    (h : w.stack = t :: rest) :
    task_run w usec =
      match w.reactor with
      | [] =>
        if usec < 0 then outcome.blocked (record w (event.task_run usec w.op_queue_))
        else outcome.returned (record w (event.task_run usec w.op_queue_)) 0
      | r :: rs =>
        if r.raises then
          outcome.threw
            { w with
              trace := event.task_run usec w.op_queue_ :: w.trace
              reactor := rs
              stack := { t with private_op_queue :=
                t.private_op_queue ++ r.ready.map operation.handler } :: rest }
        else
          outcome.returned
            { w with
              trace := event.task_run usec w.op_queue_ :: w.trace
              reactor := rs
              stack := { t with private_op_queue :=
                t.private_op_queue ++ r.ready.map operation.handler } :: rest } 0 := by
  cases w with
  | mk ot tk ti W q st sh stack reactor waiters ec tr =>
    simp only at h
    subst h
    cases reactor with
    | nil => simp [task_run, record]
    | cons r rs => simp [task_run, record, update_this_thread]

/-- The guarded reactor call, for a drive's own fresh `thread_info`: the
completions the reactor delivers reach the tail of the main queue, followed by
`task_operation_`. -/
theorem guarded_task_run_eq (w : world) (usec : Int) (rest : List thread_info)
    (h : w.stack = fresh_thread :: rest) :
    on_exit task_cleanup (task_run w usec) =
      match w.reactor with
      | [] =>
        if usec < 0 then outcome.blocked (record w (event.task_run usec w.op_queue_))
        else
          outcome.returned
            { w with
              trace := event.task_run usec w.op_queue_ :: w.trace
              task_interrupted_ := true
              op_queue_ := w.op_queue_ ++ [operation.task_operation_] } 0
      | r :: rs =>
        if r.raises then
          outcome.threw
            { w with
              trace := event.task_run usec w.op_queue_ :: w.trace
              reactor := rs
              task_interrupted_ := true
              op_queue_ := w.op_queue_ ++ r.ready.map operation.handler
                ++ [operation.task_operation_] }
        else
          outcome.returned
            { w with
              trace := event.task_run usec w.op_queue_ :: w.trace
              reactor := rs
              task_interrupted_ := true
              op_queue_ := w.op_queue_ ++ r.ready.map operation.handler
                ++ [operation.task_operation_] } 0 := by
  rw [task_run_eq w usec fresh_thread rest h]
  cases w with
  | mk ot tk ti W q st sh stack reactor waiters ec tr =>
    simp only at h
    subst h
    cases reactor with
    | nil =>
      simp only []
      split
      · rfl
      · simp only [on_exit]
        rw [task_cleanup_eq _ fresh_thread rest rfl]
        simp [record, fresh_thread]
    | cons r rs =>
      simp only []
      split
      · simp only [on_exit]
        rw [task_cleanup_eq _ _ rest rfl]
        simp [fresh_thread]
      · simp only [on_exit]
        rw [task_cleanup_eq _ _ rest rfl]
        simp [fresh_thread]


theorem task_step_of_guarded (w : world) (usec : Int) (rest : List thread_info)
    (h : w.stack = fresh_thread :: rest) :
    sat (fun w1 => task_step w w1 usec) (on_exit task_cleanup (task_run w usec)) := by
  rw [guarded_task_run_eq w usec rest h]
  cases hr : w.reactor with
  | nil =>
    simp only []
    split
    · trivial
    · refine ⟨[], [], w.waiters, Or.inl ⟨hr, rfl, rfl⟩, ?_⟩
      cases w
      simp_all
  | cons r rs =>
    simp only []
    split
    · refine ⟨r.ready, rs, w.waiters, Or.inr ⟨r, hr, rfl⟩, ?_⟩
      cases w
      simp_all
    · refine ⟨r.ready, rs, w.waiters, Or.inr ⟨r, hr, rfl⟩, ?_⟩
      cases w
      simp_all

theorem task_step_of_run_task (w : world) (more : Bool) (usec : Int) (rest : List thread_info)
    (h : w.stack = fresh_thread :: rest) :
    sat (fun w1 => task_step w w1 usec) (run_task w more usec) := by
  unfold run_task
  have key : ∀ w0 : world, w0.stack = w.stack → w0.op_queue_ = w.op_queue_ →
      w0.reactor = w.reactor → w0.trace = w.trace →
      w0.one_thread_ = w.one_thread_ → w0.task_ = w.task_ →
      w0.outstanding_work_ = w.outstanding_work_ → w0.stopped_ = w.stopped_ →
      w0.shutdown_ = w.shutdown_ → w0.ec = w.ec →
      sat (fun w1 => task_step w w1 usec) (on_exit task_cleanup (task_run w0 usec)) := by
    intro w0 h1 h2 h3 h4 h5 h6 h7 h8 h9 h10
    have hg := task_step_of_guarded w0 usec rest (by rw [h1, h])
    cases ho : on_exit task_cleanup (task_run w0 usec) with
    | returned w1 n =>
      rw [ho] at hg
      obtain ⟨ready, rs, wt, hcase, heq⟩ := hg
      refine ⟨ready, rs, wt, by rw [← h3]; exact hcase, ?_⟩
      rw [heq]
      cases w0
      cases w
      simp_all
    | threw w1 =>
      rw [ho] at hg
      obtain ⟨ready, rs, wt, hcase, heq⟩ := hg
      refine ⟨ready, rs, wt, by rw [← h3]; exact hcase, ?_⟩
      rw [heq]
      cases w0
      cases w
      simp_all
    | blocked w1 => trivial
    | out_of_fuel => trivial
  simp only []
  split
  · exact key _ rfl rfl rfl rfl rfl rfl rfl rfl rfl rfl
  · exact key _ rfl rfl rfl rfl rfl rfl rfl rfl rfl rfl

/-! ## Executions keep what every step keeps -/

theorem work_cleanup_shape (e : env) (w : world) (hq : quiet e w) (hne : w.stack ≠ []) :
    at_drive e (work_cleanup e w) ∧ (work_cleanup e w).stack.length = w.stack.length := by
  cases hst : w.stack with
  | nil => exact absurd hst hne
  | cons t rest =>
    rw [work_cleanup_eq e w t rest hst]
    simp only [List.length_cons, and_true]
    cases hth : e.has_threads with
    | true =>
      refine ⟨fun hf => by simp [hth] at hf, rest, ?_⟩
      simp [fresh_thread]
    | false =>
      have hall := hq hth
      rw [hst] at hall
      have ht : t.private_op_queue = [] := hall t (by simp)
      refine ⟨?_, rest, by simp [fresh_thread, ht]⟩
      intro _ u hu
      simp only [List.mem_cons] at hu
      rcases hu with rfl | hu
      · simp [ht]
      · exact hall u (by simp [hu])

theorem guarded_task_run_shape (e : env) (w : world) (usec : Int) (hd : at_drive e w) :
    sat (fun w1 => at_drive e w1 ∧ w1.stack.length = w.stack.length)
      (on_exit task_cleanup (task_run w usec)) := by
  obtain ⟨hq, rest, hr⟩ := hd
  rw [guarded_task_run_eq w usec rest hr]
  cases w.reactor with
  | nil =>
    simp only []
    split
    · trivial
    · exact ⟨⟨hq, rest, hr⟩, rfl⟩
  | cons r rs =>
    simp only []
    split
    · exact ⟨⟨hq, rest, hr⟩, rfl⟩
    · exact ⟨⟨hq, rest, hr⟩, rfl⟩

theorem run_task_stack_arg (w : world) (more : Bool) :
    (if (more && !({ w with task_interrupted_ := more } : world).one_thread_) = true then
        unlock_and_signal_one { w with task_interrupted_ := more }
      else { w with task_interrupted_ := more }).stack = w.stack := by
  split <;> rfl

theorem run_task_shape (e : env) (w : world) (more : Bool) (usec : Int) (hd : at_drive e w) :
    sat (fun w1 => at_drive e w1 ∧ w1.stack.length = w.stack.length)
      (run_task w more usec) := by
  unfold run_task
  have h := guarded_task_run_shape e _ usec
    (at_drive_of_stack e w _ (run_task_stack_arg w more) hd)
  rw [run_task_stack_arg w more] at h
  exact h

theorem keeps_d_of (e : env) (D : world → Prop) (w0 : world) (o : outcome)
    (h1 : sat D o) (h2 : sat (fun w1 => at_drive e w1 ∧ w1.stack.length = w0.stack.length) o) :
    keeps_d e D w0 o := by
  cases o with
  | returned w n => exact ⟨h2.1, h1, h2.2⟩
  | threw w => exact ⟨h2.1, h1, h2.2⟩
  | blocked w => trivial
  | out_of_fuel => trivial

theorem complete_op_keeps (e : env) (A : call → Prop) (H D : world → Prop)
    (hp : preserved e A H D) (cmp : world → Nat → outcome) (hc : handler_ok e H cmp)
    (w : world) (id : Nat) (q : List operation) (hd : at_drive e w) (hD : D w)
    (hq : w.op_queue_ = operation.handler id :: q) :
    keeps_d e D w (complete_op e cmp { w with op_queue_ := q } (!q.isEmpty) id) := by
  have hst : (before_complete { w with op_queue_ := q } (!q.isEmpty)).stack = w.stack :=
    before_complete_stack _ _
  have hqt : quiet e (before_complete { w with op_queue_ := q } (!q.isEmpty)) :=
    quiet_of_stack e w _ hst hd.1
  have hne : w.stack ≠ [] := by
    obtain ⟨_, rest, hr⟩ := hd
    rw [hr]; simp
  have h := hc _ id hqt (hp.on_begin w id q hd hD hq)
  unfold complete_op
  cases hcmp : cmp (before_complete { w with op_queue_ := q } (!q.isEmpty)) id with
  | returned w1 n =>
    rw [hcmp] at h
    obtain ⟨h1, h2, h3⟩ := h
    have hne1 : w1.stack ≠ [] := by
      intro h0
      rw [h0, hst] at h3
      exact hne (List.length_eq_zero.mp h3.symm)
    have hs := work_cleanup_shape e w1 h1 hne1
    exact ⟨hs.1, hp.on_finish w1 h1 hne1 h2, by rw [hs.2, h3, hst]⟩
  | threw w1 =>
    rw [hcmp] at h
    obtain ⟨h1, h2, h3⟩ := h
    have hne1 : w1.stack ≠ [] := by
      intro h0
      rw [h0, hst] at h3
      exact hne (List.length_eq_zero.mp h3.symm)
    have hs := work_cleanup_shape e w1 h1 hne1
    exact ⟨hs.1, hp.on_finish w1 h1 hne1 h2, by rw [hs.2, h3, hst]⟩
  | blocked w1 => trivial
  | out_of_fuel => trivial

theorem complete_front_keeps (e : env) (A : call → Prop) (H D : world → Prop)
    (hp : preserved e A H D) (cmp : world → Nat → outcome) (hc : handler_ok e H cmp)
    (w : world) (hd : at_drive e w) (hD : D w) :
    keeps_d e D w (complete_front e cmp w) := by
  unfold complete_front
  split
  · exact ⟨hd, hD, rfl⟩
  · exact ⟨hd, hD, rfl⟩
  · rename_i id q hq
    exact complete_op_keeps e A H D hp cmp hc w id q hd hD hq

theorem keeps_d_trans (e : env) (D : world → Prop) (w0 w1 : world) (o : outcome)
    (h : w1.stack.length = w0.stack.length) (ho : keeps_d e D w1 o) : keeps_d e D w0 o := by
  cases o with
  | returned w n => exact ⟨ho.1, ho.2.1, by rw [ho.2.2, h]⟩
  | threw w => exact ⟨ho.1, ho.2.1, by rw [ho.2.2, h]⟩
  | blocked w => trivial
  | out_of_fuel => trivial

theorem do_run_one_keeps (e : env) (A : call → Prop) (H D : world → Prop)
    (hp : preserved e A H D) (cmp : world → Nat → outcome) (hc : handler_ok e H cmp) :
    ∀ (fuel : Nat) (w : world), at_drive e w → D w →
      keeps_d e D w (do_run_one e cmp fuel w) := by
  intro fuel
  induction fuel with
  | zero => intro w _ _; trivial
  | succ fuel ih =>
    intro w hd hD
    cases hs : w.stopped_ with
    | true => rw [do_run_one_stopped e cmp fuel w hs]; exact ⟨hd, hD, rfl⟩
    | false =>
      cases hq : w.op_queue_ with
      | nil => rw [do_run_one_empty e cmp fuel w hs hq]; trivial
      | cons o q =>
        cases o with
        | handler id =>
          rw [do_run_one_handler e cmp fuel w id q hs hq]
          exact complete_op_keeps e A H D hp cmp hc w id q hd hD hq
        | task_operation_ =>
          rw [do_run_one_task e cmp fuel w q hs hq]
          have h := keeps_d_of e D w _ (hp.on_task w q (!q.isEmpty)
            (if (!q.isEmpty) = true then 0 else -1) hd hD hq)
            (run_task_shape e { w with op_queue_ := q } _ _ hd)
          cases hr : run_task { w with op_queue_ := q } (!q.isEmpty)
              (if (!q.isEmpty) = true then 0 else -1) with
          | returned w1 n =>
            rw [hr] at h
            exact keeps_d_trans e D w w1 _ h.2.2 (ih w1 h.1 h.2.1)
          | threw w1 => rw [hr] at h; exact h
          | blocked w1 => trivial
          | out_of_fuel => trivial


theorem after_task_keeps (e : env) (A : call → Prop) (H D : world → Prop)
    (hp : preserved e A H D) (cmp : world → Nat → outcome) (hc : handler_ok e H cmp)
    (w0 : world) (f : world → world)
    (hf : ∀ w1, at_drive e w1 → D w1 → at_drive e (f w1) ∧ D (f w1) ∧ (f w1).stack = w1.stack) :
    ∀ o : outcome, keeps_d e D w0 o →
      keeps_d e D w0
        (match o with
         | outcome.returned w _ =>
           match w.op_queue_ with
           | operation.task_operation_ :: _ => outcome.returned (f w) 0
           | _ => complete_front e cmp w
         | o => o) := by
  intro o ho
  cases o with
  | returned w1 n =>
    simp only []
    split
    · have h := hf w1 ho.1 ho.2.1
      exact ⟨h.1, h.2.1, by rw [h.2.2, ho.2.2]⟩
    · exact keeps_d_trans e D w0 w1 _ ho.2.2
        (complete_front_keeps e A H D hp cmp hc w1 ho.1 ho.2.1)
  | threw w1 => exact ho
  | blocked w1 => trivial
  | out_of_fuel => trivial

@[simp]
theorem maybe_signal_stack (w : world) : (maybe_unlock_and_signal_one w).1.stack = w.stack := by
  unfold maybe_unlock_and_signal_one
  split <;> rfl

theorem do_wait_one_keeps (e : env) (A : call → Prop) (H D : world → Prop)
    (hp : preserved e A H D) (cmp : world → Nat → outcome) (hc : handler_ok e H cmp)
    (w : world) (usec : Int) (hd : at_drive e w) (hD : D w) :
    keeps_d e D w (do_wait_one e cmp w usec) := by
  cases hs : w.stopped_ with
  | true => rw [do_wait_one_stopped e cmp w usec hs]; exact ⟨hd, hD, rfl⟩
  | false =>
    cases hq : w.op_queue_ with
    | nil =>
      rw [do_wait_one_empty e cmp w usec hs hq]
      exact ⟨at_drive_of_stack e w _ rfl hd, hp.on_timed_wait w usec hd hD, rfl⟩
    | cons o q =>
      cases o with
      | handler id =>
        rw [do_wait_one_handler e cmp w usec id q hs hq]
        exact complete_op_keeps e A H D hp cmp hc w id q hd hD hq
      | task_operation_ =>
        rw [do_wait_one_task e cmp w usec q hs hq]
        have hf : ∀ w1, at_drive e w1 → D w1 →
            at_drive e (if (!w1.one_thread_) = true then (maybe_unlock_and_signal_one w1).1 else w1)
            ∧ D (if (!w1.one_thread_) = true then (maybe_unlock_and_signal_one w1).1 else w1)
            ∧ (if (!w1.one_thread_) = true then (maybe_unlock_and_signal_one w1).1 else w1).stack
                = w1.stack := by
          intro w1 h1 h2
          split
          · exact ⟨at_drive_of_stack e w1 _ (maybe_signal_stack w1) h1, hp.on_signal w1 h1 h2,
              maybe_signal_stack w1⟩
          · exact ⟨h1, h2, rfl⟩
        exact after_task_keeps e A H D hp cmp hc w
          (fun w1 => if (!w1.one_thread_) = true then (maybe_unlock_and_signal_one w1).1 else w1) hf
          (run_task { w with op_queue_ := q } (!q.isEmpty) (if (!q.isEmpty) = true then 0 else usec))
          (keeps_d_of e D w _ (hp.on_task w q _ _ hd hD hq)
            (run_task_shape e { w with op_queue_ := q } _ _ hd))

theorem do_poll_one_keeps (e : env) (A : call → Prop) (H D : world → Prop)
    (hp : preserved e A H D) (cmp : world → Nat → outcome) (hc : handler_ok e H cmp)
    (w : world) (hd : at_drive e w) (hD : D w) :
    keeps_d e D w (do_poll_one e cmp w) := by
  cases hs : w.stopped_ with
  | true => rw [do_poll_one_stopped e cmp w hs]; exact ⟨hd, hD, rfl⟩
  | false =>
    cases hq : w.op_queue_ with
    | nil =>
      rw [do_poll_one_empty e cmp w hs hq]
      exact ⟨hd, hD, rfl⟩
    | cons o q =>
      cases o with
      | handler id =>
        rw [do_poll_one_handler e cmp w id q hs hq]
        exact complete_op_keeps e A H D hp cmp hc w id q hd hD hq
      | task_operation_ =>
        rw [do_poll_one_task e cmp w q hs hq]
        exact after_task_keeps e A H D hp cmp hc w
          (fun w1 => (maybe_unlock_and_signal_one w1).1)
          (fun w1 h1 h2 => ⟨at_drive_of_stack e w1 _ (maybe_signal_stack w1) h1,
            hp.on_signal w1 h1 h2, maybe_signal_stack w1⟩)
          (on_exit task_cleanup (task_run { w with op_queue_ := q } 0))
          (keeps_d_of e D w _ (hp.on_task_poll w q hd hD hq)
            (guarded_task_run_shape e { w with op_queue_ := q } _ hd))

theorem run_loop_keeps (e : env) (A : call → Prop) (H D : world → Prop)
    (hp : preserved e A H D) (cmp : world → Nat → outcome) (hc : handler_ok e H cmp) :
    ∀ (fuel : Nat) (w : world) (n : Nat), at_drive e w → D w →
      keeps_d e D w (run_loop e cmp fuel w n) := by
  intro fuel
  induction fuel with
  | zero => intro w n _ _; trivial
  | succ fuel ih =>
    intro w n hd hD
    have h := do_run_one_keeps e A H D hp cmp hc fuel w hd hD
    unfold run_loop
    cases hr : do_run_one e cmp fuel w with
    | returned w1 r =>
      rw [hr] at h
      simp only []
      split
      · exact h
      · exact keeps_d_trans e D w w1 _ h.2.2 (ih w1 _ h.1 h.2.1)
    | threw w1 => rw [hr] at h; exact h
    | blocked w1 => trivial
    | out_of_fuel => trivial

theorem poll_loop_keeps (e : env) (A : call → Prop) (H D : world → Prop)
    (hp : preserved e A H D) (cmp : world → Nat → outcome) (hc : handler_ok e H cmp) :
    ∀ (fuel : Nat) (w : world) (n : Nat), at_drive e w → D w →
      keeps_d e D w (poll_loop e cmp fuel w n) := by
  intro fuel
  induction fuel with
  | zero => intro w n _ _; trivial
  | succ fuel ih =>
    intro w n hd hD
    have h := do_poll_one_keeps e A H D hp cmp hc w hd hD
    unfold poll_loop
    cases hr : do_poll_one e cmp w with
    | returned w1 r =>
      rw [hr] at h
      simp only []
      split
      · exact h
      · exact keeps_d_trans e D w w1 _ h.2.2 (ih w1 _ h.1 h.2.1)
    | threw w1 => rw [hr] at h; exact h
    | blocked w1 => trivial
    | out_of_fuel => trivial

theorem enter_shape (e : env) (w : world) (hq : quiet e w) : at_drive e (enter w) := by
  refine ⟨?_, w.stack, rfl⟩
  intro hf t ht
  simp only [enter, List.mem_cons] at ht
  rcases ht with rfl | ht
  · rfl
  · exact hq hf t ht

theorem leave_shape (e : env) (w : world) (hd : at_drive e w) :
    quiet e (leave w) ∧ (leave w).stack.length + 1 = w.stack.length := by
  obtain ⟨hq, rest, hr⟩ := hd
  constructor
  · intro hf t ht
    simp only [leave, hr, List.tail_cons] at ht
    exact hq hf t (by rw [hr]; simp [ht])
  · simp [leave, hr]

theorem splice_outer_shape (e : env) (w : world) (hd : at_drive e w) :
    at_drive e (splice_outer e w) ∧ (splice_outer e w).stack.length = w.stack.length := by
  obtain ⟨hq, rest, hr⟩ := hd
  unfold splice_outer
  split
  · rename_i hc
    split
    · rename_i t outer rest2 hst
      rw [hr] at hst
      simp only [List.cons.injEq] at hst
      obtain ⟨rfl, rfl⟩ := hst
      refine ⟨⟨fun hf => by simp [hf] at hc, _, rfl⟩, by simp [hr]⟩
    · exact ⟨⟨hq, rest, hr⟩, rfl⟩
  · exact ⟨⟨hq, rest, hr⟩, rfl⟩

/-- A drive method, from its gate on `outstanding_work_` to the destructor of its
call-stack entry, around the body `body` that runs between the two. -/
theorem drive_keeps (e : env) (A : call → Prop) (H D : world → Prop)
    (hp : preserved e A H D) (w : world) (body : world → outcome) (hq : quiet e w) (hH : H w)
    (hb : ∀ w1, at_drive e w1 → D w1 → keeps_d e D w1 (body w1)) :
    keeps_h e H w
      (if ({ w with ec := 0 } : world).outstanding_work_ == 0 then
        outcome.returned (stop { w with ec := 0 }) 0
       else on_exit leave (body (enter { w with ec := 0 }))) := by
  split
  · exact ⟨quiet_of_stack e w _ (stop_stack _) hq, hp.on_gate w hq hH, by rw [stop_stack]⟩
  · have hd : at_drive e (enter { w with ec := 0 }) := enter_shape e _ hq
    have h := hb _ hd (hp.on_enter w hq hH)
    cases hr : body (enter { w with ec := 0 }) with
    | returned w1 n =>
      rw [hr] at h
      have hl := leave_shape e w1 h.1
      refine ⟨hl.1, hp.on_leave w1 h.1 h.2.1, ?_⟩
      have := h.2.2
      simp only [enter, List.length_cons] at this
      omega
    | threw w1 =>
      rw [hr] at h
      have hl := leave_shape e w1 h.1
      refine ⟨hl.1, hp.on_leave w1 h.1 h.2.1, ?_⟩
      have := h.2.2
      simp only [enter, List.length_cons] at this
      omega
    | blocked w1 => trivial
    | out_of_fuel => trivial

theorem perform_keeps (e : env) (A : call → Prop) (H D : world → Prop)
    (hp : preserved e A H D) (cmp : world → Nat → outcome) (hc : handler_ok e H cmp)
    (fuel : Nat) (w : world) (c : call) (hA : A c) (hq : quiet e w) (hH : H w) :
    keeps_h e H w (perform e cmp fuel w c) := by
  have hsplice : ∀ (body : world → outcome),
      (∀ w1, at_drive e w1 → D w1 → keeps_d e D w1 (body w1)) →
      ∀ w1, at_drive e w1 → D w1 → keeps_d e D w1 (body (splice_outer e w1)) := by
    intro body hb w1 h1 h2
    have hs := splice_outer_shape e w1 h1
    exact keeps_d_trans e D w1 _ _ hs.2 (hb _ hs.1 (hp.on_splice w1 h1 h2))
  cases hdr : is_drive c with
  | false =>
    have h1 := hp.on_prim cmp fuel w c hA hdr hq hH
    have h2 := perform_shape e cmp fuel w c hdr hq
    cases hr : perform e cmp fuel w c with
    | returned w1 n => rw [hr] at h1 h2; exact ⟨h2.1, h1, h2.2⟩
    | threw w1 => rw [hr] at h1 h2; exact ⟨h2.1, h1, h2.2⟩
    | blocked w1 => trivial
    | out_of_fuel => trivial
  | true =>
    cases c with
    | run =>
      exact drive_keeps e A H D hp w (fun w1 => run_loop e cmp fuel w1 0) hq hH
        (fun w1 h1 h2 => run_loop_keeps e A H D hp cmp hc fuel w1 0 h1 h2)
    | run_one =>
      exact drive_keeps e A H D hp w (fun w1 => do_run_one e cmp fuel w1) hq hH
        (fun w1 h1 h2 => do_run_one_keeps e A H D hp cmp hc fuel w1 h1 h2)
    | wait_one usec =>
      exact drive_keeps e A H D hp w (fun w1 => do_wait_one e cmp w1 usec) hq hH
        (fun w1 h1 h2 => do_wait_one_keeps e A H D hp cmp hc w1 usec h1 h2)
    | poll =>
      exact drive_keeps e A H D hp w (fun w1 => poll_loop e cmp fuel (splice_outer e w1) 0) hq hH
        (hsplice (fun w1 => poll_loop e cmp fuel w1 0)
          (fun w1 h1 h2 => poll_loop_keeps e A H D hp cmp hc fuel w1 0 h1 h2))
    | poll_one =>
      exact drive_keeps e A H D hp w (fun w1 => do_poll_one e cmp (splice_outer e w1)) hq hH
        (hsplice (fun w1 => do_poll_one e cmp w1)
          (fun w1 h1 h2 => do_poll_one_keeps e A H D hp cmp hc w1 h1 h2))
    | _ => simp [is_drive] at hdr

theorem keeps_h_trans (e : env) (H : world → Prop) (w0 w1 : world) (o : outcome)
    (h : w1.stack.length = w0.stack.length) (ho : keeps_h e H w1 o) : keeps_h e H w0 o := by
  cases o with
  | returned w n => exact ⟨ho.1, ho.2.1, by rw [ho.2.2, h]⟩
  | threw w => exact ⟨ho.1, ho.2.1, by rw [ho.2.2, h]⟩
  | blocked w => trivial
  | out_of_fuel => trivial

/-- A handler body or any list of allowed calls keeps `H`, provided every handler
body is made of allowed calls. -/
theorem exec_keeps (e : env) (A : call → Prop) (H D : world → Prop)
    (hp : preserved e A H D) (hh : ∀ id, ∀ c ∈ e.handlers id, A c) :
    ∀ (fuel : Nat) (w : world) (cs : List call), (∀ c ∈ cs, A c) → quiet e w → H w →
      keeps_h e H w (exec e fuel w cs) := by
  intro fuel
  induction fuel with
  | zero => intro w cs _ _ _; trivial
  | succ fuel ih =>
    intro w cs hcs hq hH
    cases cs with
    | nil => exact ⟨hq, hH, rfl⟩
    | cons c cs =>
      have hc : handler_ok e H
          (fun w id => exec e fuel (record w (event.complete id)) (e.handlers id)) := by
        intro w1 id h1 h2
        exact keeps_h_trans e H w1 _ _ rfl
          (ih (record w1 (event.complete id)) (e.handlers id) (hh id)
            (quiet_of_stack e w1 _ rfl h1) h2)
      have h := perform_keeps e A H D hp _ hc fuel w c (hcs c (by simp)) hq hH
      unfold exec
      cases hr : perform e
          (fun w id => exec e fuel (record w (event.complete id)) (e.handlers id)) fuel w c with
      | returned w1 n =>
        rw [hr] at h
        exact keeps_h_trans e H w w1 _ h.2.2
          (ih w1 cs (fun c hc => hcs c (by simp [hc])) h.1 h.2.1)
      | threw w1 => rw [hr] at h; exact h
      | blocked w1 => trivial
      | out_of_fuel => trivial

theorem complete_ok (e : env) (A : call → Prop) (H D : world → Prop)
    (hp : preserved e A H D) (hh : ∀ id, ∀ c ∈ e.handlers id, A c) (fuel : Nat) :
    handler_ok e H (complete e fuel) := by
  intro w id h1 h2
  exact keeps_h_trans e H w _ _ rfl
    (exec_keeps e A H D hp hh fuel (record w (event.complete id)) (e.handlers id) (hh id)
      (quiet_of_stack e w _ rfl h1) h2)

/-- A test driver keeps `H` over any list of allowed calls. -/
theorem script_keeps (e : env) (A : call → Prop) (H D : world → Prop)
    (hp : preserved e A H D) (hh : ∀ id, ∀ c ∈ e.handlers id, A c) :
    ∀ (fuel : Nat) (w : world) (cs : List call), (∀ c ∈ cs, A c) → quiet e w → H w →
      keeps_h e H w (script e fuel w cs) := by
  intro fuel
  induction fuel with
  | zero => intro w cs _ _ _; trivial
  | succ fuel ih =>
    intro w cs hcs hq hH
    cases cs with
    | nil => exact ⟨hq, hH, rfl⟩
    | cons c cs =>
      have h := perform_keeps e A H D hp _ (complete_ok e A H D hp hh fuel) fuel w c
        (hcs c (by simp)) hq hH
      unfold script
      cases hr : perform e (complete e fuel) fuel w c with
      | returned w1 n =>
        rw [hr] at h
        exact keeps_h_trans e H w w1 _ h.2.2
          (ih w1 cs (fun c hc => hcs c (by simp [hc])) h.1 h.2.1)
      | threw w1 =>
        rw [hr] at h
        exact keeps_h_trans e H w w1 _ h.2.2
          (ih w1 cs (fun c hc => hcs c (by simp [hc])) h.1 h.2.1)
      | blocked w1 => trivial
      | out_of_fuel => trivial


/-! ## What the wake-up and stop paths leave alone -/

@[simp]
theorem wake_one_thread (w : world) :
    (wake_one_thread_and_unlock w).one_thread_ = w.one_thread_ := by
  rw [wake_eq]

@[simp]
theorem wake_task (w : world) :
    (wake_one_thread_and_unlock w).task_ = w.task_ := by
  rw [wake_eq]

@[simp]
theorem wake_outstanding_work (w : world) :
    (wake_one_thread_and_unlock w).outstanding_work_ = w.outstanding_work_ := by
  rw [wake_eq]

@[simp]
theorem wake_op_queue (w : world) :
    (wake_one_thread_and_unlock w).op_queue_ = w.op_queue_ := by
  rw [wake_eq]

@[simp]
theorem wake_stopped (w : world) :
    (wake_one_thread_and_unlock w).stopped_ = w.stopped_ := by
  rw [wake_eq]

@[simp]
theorem wake_shutdown (w : world) :
    (wake_one_thread_and_unlock w).shutdown_ = w.shutdown_ := by
  rw [wake_eq]

@[simp]
theorem wake_reactor (w : world) :
    (wake_one_thread_and_unlock w).reactor = w.reactor := by
  rw [wake_eq]

@[simp]
theorem wake_ec (w : world) :
    (wake_one_thread_and_unlock w).ec = w.ec := by
  rw [wake_eq]

@[simp]
theorem wake_completions (w : world) :
    completions (wake_one_thread_and_unlock w).trace = completions w.trace := by
  rw [wake_eq]; simp only []; split <;> simp [completions]

@[simp]
theorem wake_destroyed (w : world) :
    destroyed (wake_one_thread_and_unlock w).trace = destroyed w.trace := by
  rw [wake_eq]; simp only []; split <;> simp [destroyed]

@[simp]
theorem wake_posted (w : world) :
    posted (wake_one_thread_and_unlock w).trace = posted w.trace := by
  rw [wake_eq]; simp only []; split <;> simp [posted]

@[simp]
theorem wake_task_runs (w : world) :
    task_runs (wake_one_thread_and_unlock w).trace = task_runs w.trace := by
  rw [wake_eq]; simp only []; split <;> simp [task_runs]

@[simp]
theorem wake_waits (w : world) :
    waits (wake_one_thread_and_unlock w).trace = waits w.trace := by
  rw [wake_eq]; simp only []; split <;> simp [waits]

@[simp]
theorem stop_one_thread (w : world) :
    (stop w).one_thread_ = w.one_thread_ := by
  rw [stop_eq]

@[simp]
theorem stop_task (w : world) :
    (stop w).task_ = w.task_ := by
  rw [stop_eq]

@[simp]
theorem stop_outstanding_work (w : world) :
    (stop w).outstanding_work_ = w.outstanding_work_ := by
  rw [stop_eq]

@[simp]
theorem stop_op_queue (w : world) :
    (stop w).op_queue_ = w.op_queue_ := by
  rw [stop_eq]

@[simp]
theorem stop_shutdown (w : world) :
    (stop w).shutdown_ = w.shutdown_ := by
  rw [stop_eq]

@[simp]
theorem stop_reactor (w : world) :
    (stop w).reactor = w.reactor := by
  rw [stop_eq]

@[simp]
theorem stop_ec (w : world) :
    (stop w).ec = w.ec := by
  rw [stop_eq]

@[simp]
theorem stop_completions (w : world) :
    completions (stop w).trace = completions w.trace := by
  rw [stop_eq]; simp only []; split <;> simp [completions]

@[simp]
theorem stop_destroyed (w : world) :
    destroyed (stop w).trace = destroyed w.trace := by
  rw [stop_eq]; simp only []; split <;> simp [destroyed]

@[simp]
theorem stop_posted (w : world) :
    posted (stop w).trace = posted w.trace := by
  rw [stop_eq]; simp only []; split <;> simp [posted]

@[simp]
theorem stop_task_runs (w : world) :
    task_runs (stop w).trace = task_runs w.trace := by
  rw [stop_eq]; simp only []; split <;> simp [task_runs]

@[simp]
theorem stop_waits (w : world) :
    waits (stop w).trace = waits w.trace := by
  rw [stop_eq]; simp only []; split <;> simp [waits]

@[simp]
theorem work_finished_one_thread (w : world) :
    (work_finished w).one_thread_ = w.one_thread_ := by
  unfold work_finished; simp only []; split <;> simp

@[simp]
theorem work_finished_task (w : world) :
    (work_finished w).task_ = w.task_ := by
  unfold work_finished; simp only []; split <;> simp

@[simp]
theorem work_finished_op_queue (w : world) :
    (work_finished w).op_queue_ = w.op_queue_ := by
  unfold work_finished; simp only []; split <;> simp

@[simp]
theorem work_finished_shutdown (w : world) :
    (work_finished w).shutdown_ = w.shutdown_ := by
  unfold work_finished; simp only []; split <;> simp

@[simp]
theorem work_finished_reactor (w : world) :
    (work_finished w).reactor = w.reactor := by
  unfold work_finished; simp only []; split <;> simp

@[simp]
theorem work_finished_ec (w : world) :
    (work_finished w).ec = w.ec := by
  unfold work_finished; simp only []; split <;> simp

@[simp]
theorem work_finished_completions (w : world) :
    completions (work_finished w).trace = completions w.trace := by
  unfold work_finished; simp only []; split <;> simp

@[simp]
theorem work_finished_destroyed (w : world) :
    destroyed (work_finished w).trace = destroyed w.trace := by
  unfold work_finished; simp only []; split <;> simp

@[simp]
theorem work_finished_posted (w : world) :
    posted (work_finished w).trace = posted w.trace := by
  unfold work_finished; simp only []; split <;> simp

@[simp]
theorem work_finished_task_runs (w : world) :
    task_runs (work_finished w).trace = task_runs w.trace := by
  unfold work_finished; simp only []; split <;> simp

@[simp]
theorem work_finished_waits (w : world) :
    waits (work_finished w).trace = waits w.trace := by
  unfold work_finished; simp only []; split <;> simp

@[simp]
theorem work_finished_outstanding_work (w : world) :
    (work_finished w).outstanding_work_ = w.outstanding_work_ - 1 := by
  unfold work_finished; simp only []; split <;> simp

@[simp]
theorem before_complete_one_thread (w : world) (more : Bool) :
    (before_complete w more).one_thread_ = w.one_thread_ := by
  unfold before_complete; split <;> simp

@[simp]
theorem before_complete_task (w : world) (more : Bool) :
    (before_complete w more).task_ = w.task_ := by
  unfold before_complete; split <;> simp

@[simp]
theorem before_complete_outstanding_work (w : world) (more : Bool) :
    (before_complete w more).outstanding_work_ = w.outstanding_work_ := by
  unfold before_complete; split <;> simp

@[simp]
theorem before_complete_op_queue (w : world) (more : Bool) :
    (before_complete w more).op_queue_ = w.op_queue_ := by
  unfold before_complete; split <;> simp

@[simp]
theorem before_complete_stopped (w : world) (more : Bool) :
    (before_complete w more).stopped_ = w.stopped_ := by
  unfold before_complete; split <;> simp

@[simp]
theorem before_complete_shutdown (w : world) (more : Bool) :
    (before_complete w more).shutdown_ = w.shutdown_ := by
  unfold before_complete; split <;> simp

@[simp]
theorem before_complete_reactor (w : world) (more : Bool) :
    (before_complete w more).reactor = w.reactor := by
  unfold before_complete; split <;> simp

@[simp]
theorem before_complete_ec (w : world) (more : Bool) :
    (before_complete w more).ec = w.ec := by
  unfold before_complete; split <;> simp

@[simp]
theorem before_complete_completions (w : world) (more : Bool) :
    completions (before_complete w more).trace = completions w.trace := by
  unfold before_complete; split <;> simp

@[simp]
theorem before_complete_destroyed (w : world) (more : Bool) :
    destroyed (before_complete w more).trace = destroyed w.trace := by
  unfold before_complete; split <;> simp

@[simp]
theorem before_complete_posted (w : world) (more : Bool) :
    posted (before_complete w more).trace = posted w.trace := by
  unfold before_complete; split <;> simp

@[simp]
theorem before_complete_task_runs (w : world) (more : Bool) :
    task_runs (before_complete w more).trace = task_runs w.trace := by
  unfold before_complete; split <;> simp

@[simp]
theorem before_complete_waits (w : world) (more : Bool) :
    waits (before_complete w more).trace = waits w.trace := by
  unfold before_complete; split <;> simp

@[simp]
theorem maybe_signal_one_thread (w : world) :
    (maybe_unlock_and_signal_one w).1.one_thread_ = w.one_thread_ := by
  unfold maybe_unlock_and_signal_one; split <;> rfl

@[simp]
theorem maybe_signal_task (w : world) :
    (maybe_unlock_and_signal_one w).1.task_ = w.task_ := by
  unfold maybe_unlock_and_signal_one; split <;> rfl

@[simp]
theorem maybe_signal_task_interrupted (w : world) :
    (maybe_unlock_and_signal_one w).1.task_interrupted_ = w.task_interrupted_ := by
  unfold maybe_unlock_and_signal_one; split <;> rfl

@[simp]
theorem maybe_signal_outstanding_work (w : world) :
    (maybe_unlock_and_signal_one w).1.outstanding_work_ = w.outstanding_work_ := by
  unfold maybe_unlock_and_signal_one; split <;> rfl

@[simp]
theorem maybe_signal_op_queue (w : world) :
    (maybe_unlock_and_signal_one w).1.op_queue_ = w.op_queue_ := by
  unfold maybe_unlock_and_signal_one; split <;> rfl

@[simp]
theorem maybe_signal_stopped (w : world) :
    (maybe_unlock_and_signal_one w).1.stopped_ = w.stopped_ := by
  unfold maybe_unlock_and_signal_one; split <;> rfl

@[simp]
theorem maybe_signal_shutdown (w : world) :
    (maybe_unlock_and_signal_one w).1.shutdown_ = w.shutdown_ := by
  unfold maybe_unlock_and_signal_one; split <;> rfl

@[simp]
theorem maybe_signal_reactor (w : world) :
    (maybe_unlock_and_signal_one w).1.reactor = w.reactor := by
  unfold maybe_unlock_and_signal_one; split <;> rfl

@[simp]
theorem maybe_signal_ec (w : world) :
    (maybe_unlock_and_signal_one w).1.ec = w.ec := by
  unfold maybe_unlock_and_signal_one; split <;> rfl

@[simp]
theorem maybe_signal_trace (w : world) :
    (maybe_unlock_and_signal_one w).1.trace = w.trace := by
  unfold maybe_unlock_and_signal_one; split <;> rfl

@[simp]
theorem settle_work_one_thread (w : world) (p : Int) :
    (settle_work w p).one_thread_ = w.one_thread_ := by
  unfold settle_work; split
  · rfl
  · split <;> simp

@[simp]
theorem settle_work_task (w : world) (p : Int) :
    (settle_work w p).task_ = w.task_ := by
  unfold settle_work; split
  · rfl
  · split <;> simp

@[simp]
theorem settle_work_op_queue (w : world) (p : Int) :
    (settle_work w p).op_queue_ = w.op_queue_ := by
  unfold settle_work; split
  · rfl
  · split <;> simp

@[simp]
theorem settle_work_shutdown (w : world) (p : Int) :
    (settle_work w p).shutdown_ = w.shutdown_ := by
  unfold settle_work; split
  · rfl
  · split <;> simp

@[simp]
theorem settle_work_reactor (w : world) (p : Int) :
    (settle_work w p).reactor = w.reactor := by
  unfold settle_work; split
  · rfl
  · split <;> simp

@[simp]
theorem settle_work_ec (w : world) (p : Int) :
    (settle_work w p).ec = w.ec := by
  unfold settle_work; split
  · rfl
  · split <;> simp

@[simp]
theorem settle_work_completions (w : world) (p : Int) :
    completions (settle_work w p).trace = completions w.trace := by
  unfold settle_work; split
  · rfl
  · split <;> simp

@[simp]
theorem settle_work_destroyed (w : world) (p : Int) :
    destroyed (settle_work w p).trace = destroyed w.trace := by
  unfold settle_work; split
  · rfl
  · split <;> simp

@[simp]
theorem settle_work_posted (w : world) (p : Int) :
    posted (settle_work w p).trace = posted w.trace := by
  unfold settle_work; split
  · rfl
  · split <;> simp

@[simp]
theorem settle_work_task_runs (w : world) (p : Int) :
    task_runs (settle_work w p).trace = task_runs w.trace := by
  unfold settle_work; split
  · rfl
  · split <;> simp

@[simp]
theorem settle_work_waits (w : world) (p : Int) :
    waits (settle_work w p).trace = waits w.trace := by
  unfold settle_work; split
  · rfl
  · split <;> simp

theorem settle_work_outstanding_work (w : world) (p : Int) (hp : 0 ≤ p) :
    (settle_work w p).outstanding_work_ = w.outstanding_work_ + p - 1 := by
  unfold settle_work
  split
  · simp only []; omega
  · split
    · rw [work_finished_outstanding_work]; omega
    · omega

/-! ## The two paths of the posting functions -/

theorem post_immediate_completion_cases (e : env) (w : world) (op : operation) (c : Bool) :
    (∃ t rest, e.has_threads = true ∧ w.stack = t :: rest
      ∧ post_immediate_completion e w op c =
        { w with
          trace := event.post op :: w.trace
          stack := { private_op_queue := t.private_op_queue ++ [op]
                     private_outstanding_work := t.private_outstanding_work + 1 } :: rest })
    ∨ post_immediate_completion e w op c =
        wake_one_thread_and_unlock
          { w with
            trace := event.post op :: w.trace
            outstanding_work_ := w.outstanding_work_ + 1
            op_queue_ := w.op_queue_ ++ [op] } := by
  unfold post_immediate_completion
  simp only []
  split
  · rename_i hc
    cases hst : w.stack with
    | nil =>
      right
      have h : (record w (event.post op)).stack = [] := hst
      rw [h]
      simp only [push_and_wake, work_started, record, record_posts, hst]
    | cons t rest =>
      left
      have h : (record w (event.post op)).stack = t :: rest := hst
      refine ⟨t, rest, ?_, rfl, ?_⟩
      · simp only [Bool.and_eq_true] at hc
        exact hc.1
      · rw [h]
        rfl
  · right
    rfl

theorem post_deferred_completion_cases (e : env) (w : world) (op : operation) :
    (∃ t rest, e.has_threads = true ∧ w.stack = t :: rest
      ∧ post_deferred_completion e w op =
        { w with
          trace := event.post op :: w.trace
          stack := { t with private_op_queue := t.private_op_queue ++ [op] } :: rest })
    ∨ post_deferred_completion e w op =
        wake_one_thread_and_unlock
          { w with
            trace := event.post op :: w.trace
            op_queue_ := w.op_queue_ ++ [op] } := by
  unfold post_deferred_completion
  simp only []
  split
  · rename_i hc
    cases hst : w.stack with
    | nil =>
      right
      have h : (record w (event.post op)).stack = [] := hst
      rw [h]
      simp only [push_and_wake, work_started, record, record_posts, hst]
    | cons t rest =>
      left
      have h : (record w (event.post op)).stack = t :: rest := hst
      refine ⟨t, rest, ?_, rfl, ?_⟩
      · simp only [Bool.and_eq_true] at hc
        exact hc.1
      · rw [h]
        rfl
  · right
    rfl

theorem post_deferred_completions_cases (e : env) (w : world) (ops : List operation) :
    post_deferred_completions e w ops = w ∧ ops = []
    ∨ (∃ t rest, e.has_threads = true ∧ w.stack = t :: rest
      ∧ post_deferred_completions e w ops =
        { w with
          trace := (ops.map event.post).reverse ++ w.trace
          stack := { t with private_op_queue := t.private_op_queue ++ ops } :: rest })
    ∨ post_deferred_completions e w ops =
        wake_one_thread_and_unlock
          { w with
            trace := (ops.map event.post).reverse ++ w.trace
            op_queue_ := w.op_queue_ ++ ops } := by
  unfold post_deferred_completions
  split
  · rename_i he
    left
    exact ⟨rfl, by simpa using he⟩
  · right
    simp only []
    split
    · rename_i hc
      cases hst : w.stack with
      | nil =>
        right
        have h : (record_posts w ops).stack = [] := hst
        rw [h]
        simp only [push_and_wake, work_started, record, record_posts, hst]
      | cons t rest =>
        left
        have h : (record_posts w ops).stack = t :: rest := hst
        refine ⟨t, rest, ?_, rfl, ?_⟩
        · simp only [Bool.and_eq_true] at hc
          exact hc.1
        · rw [h]
          rfl
    · right
      rfl

theorem do_dispatch_eq (w : world) (op : operation) :
    do_dispatch w op =
      wake_one_thread_and_unlock
        { w with
          trace := event.post op :: w.trace
          outstanding_work_ := w.outstanding_work_ + 1
          op_queue_ := w.op_queue_ ++ [op] } := rfl

theorem shutdown_eq (w : world) :
    shutdown w =
      { w with
        shutdown_ := true
        trace := ((handler_ids w.op_queue_).map event.destroy).reverse ++ w.trace
        op_queue_ := []
        task_ := false } := by
  simp [shutdown, destroy_all_eq]

theorem completions_append (a b : List event) :
    completions (a ++ b) = completions a ++ completions b := by
  induction a with
  | nil => rfl
  | cons x a ih => cases x <;> simp [completions, ih]

theorem destroyed_append (a b : List event) :
    destroyed (a ++ b) = destroyed a ++ destroyed b := by
  induction a with
  | nil => rfl
  | cons x a ih => cases x <;> simp [destroyed, ih]

theorem posted_append (a b : List event) : posted (a ++ b) = posted a ++ posted b := by
  induction a with
  | nil => rfl
  | cons x a ih => cases x <;> simp [posted, ih]

theorem task_runs_append (a b : List event) :
    task_runs (a ++ b) = task_runs a ++ task_runs b := by
  induction a with
  | nil => rfl
  | cons x a ih => cases x <;> simp [task_runs, ih]

@[simp]
theorem completions_destroys (ids : List Nat) :
    completions (ids.map event.destroy) = [] := by
  induction ids with
  | nil => rfl
  | cons x a ih => simp [completions, ih]

@[simp]
theorem posted_destroys (ids : List Nat) : posted (ids.map event.destroy) = [] := by
  induction ids with
  | nil => rfl
  | cons x a ih => simp [posted, ih]

@[simp]
theorem task_runs_destroys (ids : List Nat) :
    task_runs (ids.map event.destroy) = [] := by
  induction ids with
  | nil => rfl
  | cons x a ih => simp [task_runs, ih]

@[simp]
theorem destroyed_destroys (ids : List Nat) :
    destroyed (ids.map event.destroy) = ids := by
  induction ids with
  | nil => rfl
  | cons x a ih => simp [destroyed, ih]

@[simp]
theorem completions_posts (ops : List operation) :
    completions (ops.map event.post) = [] := by
  induction ops with
  | nil => rfl
  | cons x a ih => simp [completions, ih]

@[simp]
theorem destroyed_posts (ops : List operation) :
    destroyed (ops.map event.post) = [] := by
  induction ops with
  | nil => rfl
  | cons x a ih => simp [destroyed, ih]

@[simp]
theorem task_runs_posts (ops : List operation) :
    task_runs (ops.map event.post) = [] := by
  induction ops with
  | nil => rfl
  | cons x a ih => simp [task_runs, ih]

@[simp]
theorem posted_posts (ops : List operation) : posted (ops.map event.post) = ops := by
  induction ops with
  | nil => rfl
  | cons x a ih => simp [posted, ih]

theorem completions_reverse (a : List event) :
    completions a.reverse = (completions a).reverse := by
  induction a with
  | nil => rfl
  | cons x a ih => cases x <;> simp [completions, completions_append, ih]

theorem destroyed_reverse (a : List event) : destroyed a.reverse = (destroyed a).reverse := by
  induction a with
  | nil => rfl
  | cons x a ih => cases x <;> simp [destroyed, destroyed_append, ih]

theorem posted_reverse (a : List event) : posted a.reverse = (posted a).reverse := by
  induction a with
  | nil => rfl
  | cons x a ih => cases x <;> simp [posted, posted_append, ih]

theorem task_runs_reverse (a : List event) : task_runs a.reverse = (task_runs a).reverse := by
  induction a with
  | nil => rfl
  | cons x a ih => cases x <;> simp [task_runs, task_runs_append, ih]


@[simp]
theorem completions_post_handlers (ids : List Nat) :
    completions (ids.map (event.post ∘ operation.handler)) = [] := by
  induction ids with
  | nil => rfl
  | cons x a ih => simp [completions, ih]

@[simp]
theorem destroyed_post_handlers (ids : List Nat) :
    destroyed (ids.map (event.post ∘ operation.handler)) = [] := by
  induction ids with
  | nil => rfl
  | cons x a ih => simp [destroyed, ih]

@[simp]
theorem task_runs_post_handlers (ids : List Nat) :
    task_runs (ids.map (event.post ∘ operation.handler)) = [] := by
  induction ids with
  | nil => rfl
  | cons x a ih => simp [task_runs, ih]

@[simp]
theorem posted_post_handlers (ids : List Nat) :
    posted (ids.map (event.post ∘ operation.handler)) = ids.map operation.handler := by
  induction ids with
  | nil => rfl
  | cons x a ih => simp [posted, ih]

@[simp]
theorem count_sentinel_handlers (ids : List Nat) :
    List.count operation.task_operation_ (ids.map operation.handler) = 0 := by
  apply List.count_eq_zero_of_not_mem
  simp

theorem waits_append (a b : List event) : waits (a ++ b) = waits a + waits b := by
  induction a with
  | nil => simp [waits]
  | cons x a ih => cases x <;> simp [waits, ih] <;> omega

@[simp]
theorem waits_destroys (ids : List Nat) : waits (ids.map event.destroy) = 0 := by
  induction ids with
  | nil => rfl
  | cons x a ih => simp [waits, ih]

@[simp]
theorem waits_posts (ops : List operation) : waits (ops.map event.post) = 0 := by
  induction ops with
  | nil => rfl
  | cons x a ih => simp [waits, ih]

theorem waits_reverse (a : List event) : waits a.reverse = waits a := by
  induction a with
  | nil => rfl
  | cons x a ih => cases x <;> simp [waits, waits_append, ih]

@[simp]
theorem waits_post_handlers (ids : List Nat) :
    waits (ids.map (event.post ∘ operation.handler)) = 0 := by
  induction ids with
  | nil => rfl
  | cons x a ih => simp [waits, ih]

/-! ## Shutdown -/

/-- C4. `shutdown()` adds to the history exactly one `destroy` per user operation
of the main queue, in queue order, and nothing else (no `complete`, nothing for
`task_operation_`); it leaves the main queue empty, `shutdown_` set and the task
handle null. -/
theorem shutdown_destroys_queue (w : world) :
    (shutdown w).trace = ((handler_ids w.op_queue_).map event.destroy).reverse ++ w.trace
    ∧ (shutdown w).op_queue_ = []
    ∧ (shutdown w).shutdown_ = true
    ∧ (shutdown w).task_ = false := by
  simp [shutdown, destroy_all_eq]

/-! ## The gate on `outstanding_work_` and the stopped scheduler -/

/-- C5, as stated, fails: with no outstanding work, a task installed and
`task_interrupted_` false (the reactor is inside `task_->run` on another thread,
`task_operation_` popped), `run` reaches `stop()`, which calls
`task_->interrupt()` on the reactor. -/
theorem idle_run_interrupts_reactor :
    run { handlers := fun _ => [], has_threads := true, size_max := 1 } (fun w _ => outcome.blocked w) 0
        { one_thread_ := false, task_ := true, task_interrupted_ := false,
          outstanding_work_ := 0, op_queue_ := [], stopped_ := false, shutdown_ := false,
          stack := [], reactor := [], waiters := 0, ec := 0, trace := [] }
      = outcome.returned
        { one_thread_ := false, task_ := true, task_interrupted_ := true,
          outstanding_work_ := 0, op_queue_ := [], stopped_ := true, shutdown_ := false,
          stack := [], reactor := [], waiters := 0, ec := 0, trace := [event.interrupt] } 0 := by
  decide

/-- C5, amended. With `outstanding_work_ == 0`, each of `run`, `run_one`,
`wait_one`, `poll` and `poll_one` returns 0 in the same world `w1`, whatever the
handlers would do: `stopped_` is true, the error code is reset, the main queue,
the work count and the call stack are as before, and the history gains nothing
(no handler, no `task_->run`, no wait) except one `task_->interrupt()`, made
exactly when a task is installed and `task_interrupted_` was false. -/
theorem idle_drive_returns_zero (e : env) (cmp : world → Nat → outcome) (fuel : Nat)
    (usec : Int) (w : world) (h : w.outstanding_work_ = 0) :
    ∃ w1,
      run e cmp fuel w = outcome.returned w1 0
      ∧ run_one e cmp fuel w = outcome.returned w1 0
      ∧ wait_one e cmp w usec = outcome.returned w1 0
      ∧ poll e cmp fuel w = outcome.returned w1 0
      ∧ poll_one e cmp w = outcome.returned w1 0
      ∧ w1.stopped_ = true
      ∧ w1.ec = 0
      ∧ w1.op_queue_ = w.op_queue_
      ∧ w1.outstanding_work_ = 0
      ∧ w1.stack = w.stack
      ∧ w1.trace = (if w.task_ = true ∧ w.task_interrupted_ = false then [event.interrupt]
                    else []) ++ w.trace := by
  refine ⟨stop { w with ec := 0 }, ?_, ?_, ?_, ?_, ?_, ?_⟩
  · simp [run, h]
  · simp [run_one, h]
  · simp [wait_one, h]
  · simp [poll, h]
  · simp [poll_one, h]
  · rw [stop_eq]
    cases ht : w.task_ <;> cases hi : w.task_interrupted_ <;> simp [h, ht, hi]

theorem idle_drive_returns_zero_witness :
    ∃ w1,
      run { handlers := fun _ => [], has_threads := true, size_max := 1 }
          (fun w _ => outcome.blocked w) 0 (scheduler_new 0 true true []) = outcome.returned w1 0
      ∧ w1.stopped_ = true :=
  let ⟨w1, h1, _, _, _, _, h2, _⟩ :=
    idle_drive_returns_zero { handlers := fun _ => [], has_threads := true, size_max := 1 }
      (fun w _ => outcome.blocked w) 0 0 (scheduler_new 0 true true []) rfl
  ⟨w1, h1, h2⟩

/-! ## A stopped scheduler -/

theorem stop_stopped (w : world) : (stop w).stopped_ = true := by
  simp [stop_eq]

theorem idle_since_refl (w : world) (h : w.stopped_ = true) : idle_since w w :=
  ⟨h, rfl, rfl, rfl⟩

theorem idle_since_trans (w w1 w2 : world) (h1 : idle_since w w1) (h2 : idle_since w1 w2) :
    idle_since w w2 :=
  ⟨h2.1, h2.2.1.trans h1.2.1, h2.2.2.1.trans h1.2.2.1, h2.2.2.2.trans h1.2.2.2⟩

theorem idle_since_of_trace (w w1 : world) (h : w1.stopped_ = true)
    (ht : w1.trace = w.trace ∨ w1.trace = event.interrupt :: w.trace) : idle_since w w1 := by
  rcases ht with ht | ht <;> simp [idle_since, h, ht, completions, task_runs, waits]

theorem drive_when_stopped (e : env) (cmp : world → Nat → outcome) (fuel : Nat)
    (usec : Int) (w : world) (h : w.stopped_ = true) :
    ∀ d ∈ [run e cmp (fuel + 2) w, run_one e cmp (fuel + 1) w, wait_one e cmp w usec,
            poll e cmp (fuel + 1) w, poll_one e cmp w],
      ∃ w1, d = outcome.returned w1 0
        ∧ w1.stopped_ = true
        ∧ (w1.trace = w.trace ∨ w1.trace = event.interrupt :: w.trace) := by
  have hs : ∀ w0 : world, (stop w0).stopped_ = true
      ∧ ((stop w0).trace = w0.trace ∨ (stop w0).trace = event.interrupt :: w0.trace) := by
    intro w0
    rw [stop_eq]
    cases w0.task_ <;> cases w0.task_interrupted_ <;> simp
  have hso : ∀ w0 : world, (splice_outer e w0).stopped_ = w0.stopped_
      ∧ (splice_outer e w0).trace = w0.trace := by
    intro w0
    unfold splice_outer
    split
    · split <;> simp
    · simp
  intro d hd
  simp only [List.mem_cons, List.mem_singleton, List.mem_nil_iff, or_false] at hd
  by_cases hW : w.outstanding_work_ = 0
  · rcases hd with rfl | rfl | rfl | rfl | rfl <;>
      exact ⟨stop { w with ec := 0 }, by simp [run, run_one, wait_one, poll, poll_one, hW],
        (hs _).1, (hs _).2⟩
  · rcases hd with rfl | rfl | rfl | rfl | rfl
    · exact ⟨leave (enter { w with ec := 0 }),
        by simp [run, hW, run_loop, do_run_one, enter, h, on_exit], by simp [leave, enter, h],
        by simp [leave, enter]⟩
    · exact ⟨leave (enter { w with ec := 0 }),
        by simp [run_one, hW, do_run_one, enter, h, on_exit], by simp [leave, enter, h],
        by simp [leave, enter]⟩
    · exact ⟨leave (enter { w with ec := 0 }),
        by simp [wait_one, hW, do_wait_one, enter, h, on_exit], by simp [leave, enter, h],
        by simp [leave, enter]⟩
    · refine ⟨leave (splice_outer e (enter { w with ec := 0 })), ?_, ?_, ?_⟩
      · simp [poll, hW, poll_loop, do_poll_one, on_exit, (hso _).1, enter, h]
      · simp [leave, (hso _).1, enter, h]
      · simp [leave, (hso _).2, enter]
    · refine ⟨leave (splice_outer e (enter { w with ec := 0 })), ?_, ?_, ?_⟩
      · simp [poll_one, hW, do_poll_one, on_exit, (hso _).1, enter, h]
      · simp [leave, (hso _).1, enter, h]
      · simp [leave, (hso _).2, enter]

/-- In a stopped scheduler every call but `restart` returns (or, for `raise`,
throws) with the scheduler still stopped and nothing completed, waited for or
polled. -/
theorem perform_when_stopped (e : env) (cmp : world → Nat → outcome) (fuel : Nat) (w : world)
    (c : call) (hc : c ≠ call.restart) (h : w.stopped_ = true) :
    ∃ w1, (perform e cmp (fuel + 2) w c = outcome.returned w1 0
        ∨ perform e cmp (fuel + 2) w c = outcome.threw w1) ∧ idle_since w w1 := by
  have hd := drive_when_stopped e cmp fuel
  cases c with
  | init_task =>
    refine ⟨init_task w, Or.inl rfl, ?_⟩
    unfold init_task
    split <;> simp [idle_since, h]
  | shutdown =>
    refine ⟨shutdown w, Or.inl rfl, ?_⟩
    rw [shutdown_eq]
    simp [idle_since, h, completions_append, task_runs_append, waits_append,
      completions_reverse, task_runs_reverse, waits_reverse]
  | stop => exact ⟨stop w, Or.inl rfl, by simp [idle_since, stop_stopped]⟩
  | restart => exact absurd rfl hc
  | run =>
    obtain ⟨w1, h1, h2, h3⟩ := hd 0 w h _ (List.mem_cons_self _ _)
    exact ⟨w1, Or.inl h1, idle_since_of_trace w w1 h2 h3⟩
  | run_one =>
    obtain ⟨w1, h1, h2, h3⟩ := drive_when_stopped e cmp (fuel + 1) 0 w h (run_one e cmp (fuel + 2) w)
      (by simp)
    exact ⟨w1, Or.inl h1, idle_since_of_trace w w1 h2 h3⟩
  | wait_one usec =>
    obtain ⟨w1, h1, h2, h3⟩ := hd usec w h (wait_one e cmp w usec) (by simp)
    exact ⟨w1, Or.inl h1, idle_since_of_trace w w1 h2 h3⟩
  | poll =>
    obtain ⟨w1, h1, h2, h3⟩ := drive_when_stopped e cmp (fuel + 1) 0 w h (poll e cmp (fuel + 2) w)
      (by simp)
    exact ⟨w1, Or.inl h1, idle_since_of_trace w w1 h2 h3⟩
  | poll_one =>
    obtain ⟨w1, h1, h2, h3⟩ := hd 0 w h (poll_one e cmp w) (by simp)
    exact ⟨w1, Or.inl h1, idle_since_of_trace w w1 h2 h3⟩
  | post_immediate_completion id c =>
    refine ⟨_, Or.inl rfl, ?_⟩
    rcases post_immediate_completion_cases e w (operation.handler id) c with
      ⟨t, rest, -, -, heq⟩ | heq <;>
      rw [heq] <;> simp [idle_since, h, completions, task_runs, waits]
  | post_deferred_completion id =>
    refine ⟨_, Or.inl rfl, ?_⟩
    rcases post_deferred_completion_cases e w (operation.handler id) with
      ⟨t, rest, -, -, heq⟩ | heq <;>
      rw [heq] <;> simp [idle_since, h, completions, task_runs, waits]
  | post_deferred_completions ids =>
    refine ⟨_, Or.inl rfl, ?_⟩
    rcases post_deferred_completions_cases e w (ids.map operation.handler) with
      ⟨heq, -⟩ | ⟨t, rest, -, -, heq⟩ | heq <;>
      rw [heq] <;>
      simp [idle_since, h, completions_append, task_runs_append, waits_append,
        completions_reverse, task_runs_reverse, waits_reverse]
  | do_dispatch id =>
    refine ⟨_, Or.inl rfl, ?_⟩
    rw [do_dispatch_eq]
    simp [idle_since, h, completions, task_runs, waits]
  | work_started =>
    exact ⟨work_started w, Or.inl rfl, by simp [idle_since, work_started, h]⟩
  | work_finished =>
    refine ⟨work_finished w, Or.inl rfl, ?_⟩
    refine ⟨?_, by simp, by simp, by simp⟩
    unfold work_finished
    simp only []
    split
    · exact stop_stopped _
    · exact h
  | compensating_work_started =>
    refine ⟨compensating_work_started w, Or.inl rfl, ?_⟩
    unfold compensating_work_started update_this_thread
    cases w.stack <;> simp [idle_since, h]
  | abandon_operations ids =>
    exact ⟨w, Or.inl rfl, idle_since_refl w h⟩
  | raise => exact ⟨w, Or.inr rfl, idle_since_refl w h⟩

/-- A driver that never calls `restart` leaves a stopped scheduler stopped, and
none of its calls completes an operation, waits or polls the reactor. -/
theorem script_when_stopped (e : env) (cs : List call) :
    ∀ (fuel : Nat) (w : world), (∀ c ∈ cs, c ≠ call.restart) → w.stopped_ = true →
      ∃ wf, script e (cs.length + 2 + fuel) w cs = outcome.returned wf 0 ∧ idle_since w wf := by
  induction cs with
  | nil =>
    intro fuel w _ h
    have e0 : ([] : List call).length + 2 + fuel = (fuel + 1) + 1 := by
      simp only [List.length_nil]; omega
    rw [e0]
    exact ⟨w, rfl, idle_since_refl w h⟩
  | cons c cs ih =>
    intro fuel w hcs h
    obtain ⟨w1, h1, h2⟩ := perform_when_stopped e (complete e (cs.length + fuel + 2))
      (cs.length + fuel) w c (hcs c (List.mem_cons_self _ _)) h
    obtain ⟨wf, h3, h4⟩ := ih fuel w1 (fun c hc => hcs c (List.mem_cons_of_mem _ hc)) h2.1
    refine ⟨wf, ?_, idle_since_trans w w1 wf h2 h4⟩
    have e1 : (c :: cs).length + 2 + fuel = (cs.length + 2 + fuel) + 1 := by
      simp only [List.length_cons]; omega
    have e2 : cs.length + 2 + fuel = cs.length + fuel + 2 := by omega
    rw [e1]
    unfold script
    rw [e2] at h3 ⊢
    rcases h1 with h1 | h1 <;> rw [h1] <;> exact h3

/-- C6. In a stopped scheduler each of `run`, `run_one`, `wait_one`, `poll` and
`poll_one` returns 0 whatever the queues hold and whatever the handlers would
do, leaves the scheduler stopped, and adds nothing to the history (no
`complete`, no wait on the wake-up event, no `task_->run`) except, when the
drive finds `outstanding_work_ == 0`, the `interrupt` of its own `stop()`.
`stop()` itself sets `stopped_`.  So until the next `restart()`: a driver
making any calls other than `restart` runs to its end with the scheduler still
stopped and with no operation completed, no wait made and no `task_->run`. -/
theorem stopped_drive_returns_zero (e : env) (cmp : world → Nat → outcome) (fuel : Nat)
    (usec : Int) (w : world) (h : w.stopped_ = true) :
    (stop w).stopped_ = true
    ∧ (∀ d ∈ [run e cmp (fuel + 2) w, run_one e cmp (fuel + 1) w, wait_one e cmp w usec,
              poll e cmp (fuel + 1) w, poll_one e cmp w],
        ∃ w1, d = outcome.returned w1 0
          ∧ w1.stopped_ = true
          ∧ (w1.trace = w.trace ∨ w1.trace = event.interrupt :: w.trace))
    ∧ ∀ cs : List call, (∀ c ∈ cs, c ≠ call.restart) →
        ∃ wf, script e (cs.length + 2 + fuel) w cs = outcome.returned wf 0
          ∧ wf.stopped_ = true
          ∧ completions wf.trace = completions w.trace
          ∧ task_runs wf.trace = task_runs w.trace
          ∧ waits wf.trace = waits w.trace :=
  ⟨stop_stopped w, drive_when_stopped e cmp fuel usec w h,
    fun cs hcs => script_when_stopped e cs fuel w hcs h⟩

theorem stopped_drive_returns_zero_witness :
    ∃ w1, run { handlers := fun _ => [], has_threads := true, size_max := 100 }
        (fun w _ => outcome.blocked w) (0 + 2)
        (stop (do_dispatch (scheduler_new 0 true true []) (operation.handler 1)))
        = outcome.returned w1 0
      ∧ w1.stopped_ = true
      ∧ (w1.trace = (stop (do_dispatch (scheduler_new 0 true true [])
            (operation.handler 1))).trace
        ∨ w1.trace = event.interrupt :: (stop (do_dispatch (scheduler_new 0 true true [])
            (operation.handler 1))).trace) :=
  (stopped_drive_returns_zero { handlers := fun _ => [], has_threads := true, size_max := 100 }
    (fun w _ => outcome.blocked w) 0 0
    (stop (do_dispatch (scheduler_new 0 true true []) (operation.handler 1))) (by decide)).2.1 _
    (List.mem_cons_self _ _)

/-! ## `post_immediate_completion` -/

/-- C10, as stated, fails: in a build without `NET_TS_HAS_THREADS` the fast path
is compiled out, so a post made with `one_thread_` set from inside a drive still
goes to the main queue and increments `outstanding_work_`. -/
theorem post_without_threads_takes_slow_path :
    post_immediate_completion { handlers := fun _ => [], has_threads := false, size_max := 1 }
        { one_thread_ := true, task_ := false, task_interrupted_ := true,
          outstanding_work_ := 1, op_queue_ := [], stopped_ := false, shutdown_ := false,
          stack := [fresh_thread], reactor := [], waiters := 0, ec := 0, trace := [] }
        (operation.handler 7) true
      = { one_thread_ := true, task_ := false, task_interrupted_ := true,
          outstanding_work_ := 2, op_queue_ := [operation.handler 7], stopped_ := false,
          shutdown_ := false, stack := [fresh_thread], reactor := [], waiters := 0, ec := 0,
          trace := [event.post (operation.handler 7)] } := by
  decide

/-- C10, amended. In a build with `NET_TS_HAS_THREADS`: if `one_thread_` or
`is_continuation` holds and the thread is inside a drive of this scheduler
(`t` is the innermost `thread_info`), `op` is appended to `t`'s private queue and
`t`'s private work count grows by 1, while `outstanding_work_`, the main queue
and the outer entries are unchanged.  Otherwise, and always in a build without
`NET_TS_HAS_THREADS`, `outstanding_work_` grows by 1, `op` is appended at the
tail of the main queue and the call stack is unchanged. -/
theorem post_immediate_completion_effect (e : env) (w : world) (op : operation) (c : Bool) :
    (∀ t rest, e.has_threads = true → (w.one_thread_ || c) = true → w.stack = t :: rest →
        (post_immediate_completion e w op c).stack =
            { private_op_queue := t.private_op_queue ++ [op]
              private_outstanding_work := t.private_outstanding_work + 1 } :: rest
        ∧ (post_immediate_completion e w op c).outstanding_work_ = w.outstanding_work_
        ∧ (post_immediate_completion e w op c).op_queue_ = w.op_queue_)
    ∧ ((e.has_threads = false ∨ (w.one_thread_ || c) = false ∨ w.stack = []) →
        (post_immediate_completion e w op c).outstanding_work_ = w.outstanding_work_ + 1
        ∧ (post_immediate_completion e w op c).op_queue_ = w.op_queue_ ++ [op]
        ∧ (post_immediate_completion e w op c).stack = w.stack) := by
  constructor
  · intro t rest ht hc hs
    have hc2 : (w.one_thread_ = true ∨ c = true) := by simpa using hc
    simp [post_immediate_completion, ht, record, hs, hc2]
  · intro h
    rcases h with h | h | h
    · simp [post_immediate_completion, h, record, push_and_wake, wake_eq, work_started]
    · have hc2 : ¬ (w.one_thread_ = true ∨ c = true) := by simpa using h
      simp [post_immediate_completion, record, hc2, push_and_wake, wake_eq, work_started]
    · simp only [post_immediate_completion, record, h]
      split <;> simp [push_and_wake, wake_eq, work_started]

theorem post_immediate_completion_effect_witness :
    (post_immediate_completion { handlers := fun _ => [], has_threads := true, size_max := 1 }
        (enter (scheduler_new 0 true true [])) (operation.handler 7) true).stack
      = [{ private_op_queue := [operation.handler 7], private_outstanding_work := 1 }] :=
  ((post_immediate_completion_effect
      { handlers := fun _ => [], has_threads := true, size_max := 1 }
      (enter (scheduler_new 0 true true [])) (operation.handler 7) true).1
    fresh_thread [] rfl rfl rfl).1


/-! ## A continuation posted by a handler -/

/-- C9, as stated, fails: operations 1 and 3 are queued, the handler of 1 posts 2
as a continuation; `run` completes 1, then 3, and 2 only after it. -/
theorem continuation_completes_behind_queue :
    script { handlers := fun id => if id = 1 then [call.post_immediate_completion 2 true] else []
             has_threads := true, size_max := 100 } 20 (scheduler_new 0 true true [])
        [call.do_dispatch 1, call.do_dispatch 3, call.run]
      = outcome.returned
          { one_thread_ := false, task_ := false, task_interrupted_ := true,
            outstanding_work_ := 0, op_queue_ := [], stopped_ := true, shutdown_ := false,
            stack := [], reactor := [], waiters := 0, ec := 0,
            trace := [event.complete 2, event.complete 3, event.post (operation.handler 2),
                      event.complete 1, event.post (operation.handler 3),
                      event.post (operation.handler 1)] } 0 := by
  decide

/-- C9, amended. With threads enabled (and `one_thread_` false or not), let `A`
head the main queue in front of `rest`, and let `A`'s handler do nothing but
`post_immediate_completion(B, true)`.  The step of `run` that completes `A`
returns 1 and leaves the main queue equal to `rest ++ [B]`, with
`outstanding_work_` and the worker's `thread_info` as before: `B` is queued
behind everything that was waiting, and is the next operation exactly when
nothing else was queued. -/
theorem continuation_joins_queue_tail (e : env) (ht : e.has_threads = true) (A B : Nat)
    (hA : e.handlers A = [call.post_immediate_completion B true]) (w : world)
    (rest : List operation) (outer : List thread_info) (hfuel fuel : Nat)
    (hs : w.stopped_ = false)
    (hq : w.op_queue_ = operation.handler A :: rest) (hst : w.stack = fresh_thread :: outer) :
    ∃ w1, do_run_one e (complete e (hfuel + 2)) (fuel + 1) w = outcome.returned w1 1
      ∧ w1.op_queue_ = rest ++ [operation.handler B]
      ∧ w1.outstanding_work_ = w.outstanding_work_
      ∧ w1.stack = w.stack
      ∧ (rest = [] → w1.op_queue_ = [operation.handler B]) := by
  have key : ∀ w0 : world, w0.op_queue_ = rest →
      w0.stack = fresh_thread :: outer → w0.outstanding_work_ = w.outstanding_work_ →
      ∃ w1, complete e (hfuel + 2) w0 A = outcome.returned w1 0
        ∧ (work_cleanup e w1).op_queue_ = rest ++ [operation.handler B]
        ∧ (work_cleanup e w1).outstanding_work_ = w.outstanding_work_
        ∧ (work_cleanup e w1).stack = w.stack := by
    intro w0 h0q h0s h0w
    have hp : post_immediate_completion e (record w0 (event.complete A)) (operation.handler B) true
        = { record w0 (event.complete A) with
            trace := event.post (operation.handler B) :: (record w0 (event.complete A)).trace
            stack := { private_op_queue := [operation.handler B]
                       private_outstanding_work := 1 } :: outer } := by
      simp [post_immediate_completion, record, ht, h0s, fresh_thread]
    refine ⟨post_immediate_completion e (record w0 (event.complete A))
      (operation.handler B) true, ?_, ?_, ?_, ?_⟩
    · simp only [complete, exec, hA, perform]
    · rw [hp, work_cleanup_eq e _ _ outer rfl]
      simp [settle_work, record, ht, h0q]
    · rw [hp, work_cleanup_eq e _ _ outer rfl]
      simp [settle_work, record, h0w]
    · rw [hp, work_cleanup_eq e _ _ outer rfl]
      simp [settle_work, record, ht, hst, fresh_thread]
  obtain ⟨w1, hw1, hq1, hW1, hs1⟩ :=
    key (before_complete { w with op_queue_ := rest } (!rest.isEmpty))
      (by unfold before_complete; split <;> simp [wake_eq])
      (by unfold before_complete; split <;> simp [wake_eq, hst])
      (by unfold before_complete; split <;> simp [wake_eq])
  refine ⟨work_cleanup e w1, ?_, hq1, hW1, hs1, fun h => by simpa [h] using hq1⟩
  rw [do_run_one_handler e _ fuel w A rest hs hq]
  exact complete_op_returned e _ _ w1 _ A 0 hw1

theorem continuation_joins_queue_tail_witness :
    ∃ w1, do_run_one
        { handlers := fun id => if id = 1 then [call.post_immediate_completion 2 true] else []
          has_threads := true, size_max := 100 }
        (complete { handlers := fun id => if id = 1 then [call.post_immediate_completion 2 true] else []
                    has_threads := true, size_max := 100 } 2) 1
        (enter (do_dispatch (do_dispatch (scheduler_new 0 true true []) (operation.handler 1))
          (operation.handler 3)))
        = outcome.returned w1 1
      ∧ w1.op_queue_ = [operation.handler 3, operation.handler 2] :=
  let ⟨w1, h1, h2, _⟩ :=
    continuation_joins_queue_tail
      { handlers := fun id => if id = 1 then [call.post_immediate_completion 2 true] else []
        has_threads := true, size_max := 100 } rfl 1 2 rfl
      (enter (do_dispatch (do_dispatch (scheduler_new 0 true true []) (operation.handler 1))
          (operation.handler 3)))
      [operation.handler 3] [] 0 0 rfl rfl rfl
  ⟨w1, h1, h2⟩


/-! ## Posting N operations, then `run` -/

theorem wake_idle (w : world) (hw : w.waiters = 0) (ht : w.task_ = false) :
    wake_one_thread_and_unlock w = w := by
  rw [wake_eq]
  cases w
  simp_all

theorem update_this_thread_same (w : world) (f : thread_info → thread_info) (t : thread_info)
    (rest : List thread_info) (h : w.stack = t :: rest) (hf : f t = t) :
    update_this_thread w f = w := by
  cases w
  simp_all [update_this_thread]

theorem work_cleanup_fresh (e : env) (w : world) (rest : List thread_info)
    (h : w.stack = fresh_thread :: rest) : work_cleanup e w = work_finished w := by
  have h2 : (work_finished w).stack = fresh_thread :: rest := by
    rw [work_finished_stack, h]
  rw [work_cleanup_eq e w fresh_thread rest h]
  have hs : settle_work w fresh_thread.private_outstanding_work = work_finished w := by
    simp [settle_work, fresh_thread]
  rw [hs]
  generalize work_finished w = w1 at h2 ⊢
  cases w1
  simp only at h2
  subst h2
  cases e.has_threads <;> simp [fresh_thread]

theorem complete_trivial (e : env) (hf : Nat) (w : world) (id : Nat) (h : e.handlers id = []) :
    complete e (hf + 1) w id = outcome.returned (record w (event.complete id)) 0 := by
  simp [complete, exec, h]

theorem do_run_one_trivial (e : env) (hf fuel : Nat) (w : world) (id : Nat)
    (q : List operation) (hh : e.handlers id = [])
    (hs : w.stopped_ = false) (ht : w.task_ = false) (hw : w.waiters = 0)
    (hst : w.stack = [fresh_thread]) (hq : w.op_queue_ = operation.handler id :: q) :
    do_run_one e (complete e (hf + 1)) (fuel + 1) w =
      outcome.returned
        (work_finished (record { w with op_queue_ := q } (event.complete id))) 1 := by
  rw [do_run_one_handler e _ fuel w id q hs hq]
  have hwk : before_complete { w with op_queue_ := q } (!q.isEmpty)
      = { w with op_queue_ := q } := by
    unfold before_complete
    split
    · exact wake_idle _ hw ht
    · rfl
  rw [complete_op_returned e _ _ (record { w with op_queue_ := q } (event.complete id)) _ id 0
    (by rw [hwk]; exact complete_trivial e hf _ id hh)]
  rw [work_cleanup_fresh e _ [] (by simpa [record] using hst)]

theorem count_up_lt (e : env) (n : Nat) (h : n < e.size_max) : count_up e n = n + 1 := by
  unfold count_up
  have : n ≠ e.size_max := by omega
  simp [this]

theorem run_loop_drains (e : env) (hf : Nat) (ids : List Nat) :
    ∀ (id0 : Nat) (w : world) (n fuel : Nat),
      (∀ id ∈ id0 :: ids, e.handlers id = []) →
      w.stopped_ = false → w.task_ = false → w.waiters = 0 →
      w.stack = [fresh_thread] →
      w.op_queue_ = (id0 :: ids).map operation.handler →
      w.outstanding_work_ = ((ids.length + 1 : Nat) : Int) →
      n + ids.length + 1 ≤ e.size_max →
      ids.length + 3 ≤ fuel →
      run_loop e (complete e (hf + 1)) fuel w n =
        outcome.returned
          { w with
            op_queue_ := []
            outstanding_work_ := 0
            stopped_ := true
            trace := ((id0 :: ids).map event.complete).reverse ++ w.trace }
          (n + ids.length + 1) := by
  induction ids with
  | nil =>
    intro id0 w n fuel hh hs ht hw hst hq hW hn hfuel
    obtain ⟨f, rfl⟩ : ∃ f, fuel = f + 3 := ⟨fuel - 3, by simp at hfuel; omega⟩
    have hcu : count_up e n = n + 1 := count_up_lt e n (by simp at hn; omega)
    rw [run_loop, do_run_one_trivial e hf (f + 1) w id0 [] (hh id0 (by simp)) hs ht hw hst
      (by simpa using hq)]
    simp only [hcu]
    have hwf : work_finished (record { w with op_queue_ := [] } (event.complete id0)) =
        { w with op_queue_ := [], outstanding_work_ := 0, stopped_ := true,
                 trace := event.complete id0 :: w.trace } := by
      cases w
      simp only at hs ht hw hst hq hW
      subst hs ht hw hst hq hW
      simp [work_finished, stop_eq, record]
    rw [hwf, run_loop, do_run_one_stopped _ _ _ _ rfl]
    simp
  | cons id1 ids ih =>
    intro id0 w n fuel hh hs ht hw hst hq hW hn hfuel
    obtain ⟨f, rfl⟩ : ∃ f, fuel = f + 2 := ⟨fuel - 2, by simp at hfuel; omega⟩
    have hcu : count_up e n = n + 1 := count_up_lt e n (by simp at hn; omega)
    rw [run_loop, do_run_one_trivial e hf f w id0 ((id1 :: ids).map operation.handler)
      (hh id0 (by simp)) hs ht hw hst (by simpa using hq)]
    simp only [hcu]
    have hwf : work_finished (record { w with op_queue_ := (id1 :: ids).map operation.handler }
          (event.complete id0)) =
        { w with op_queue_ := (id1 :: ids).map operation.handler,
                 outstanding_work_ := ((ids.length + 1 : Nat) : Int),
                 trace := event.complete id0 :: w.trace } := by
      have hne : ¬ (((ids.length + 1 + 1 : Nat) : Int) - 1 = 0) := by push_cast; omega
      cases w
      simp only at hs ht hw hst hq hW
      subst hs ht hw hst hq hW
      simp only [work_finished, record, List.length_cons]
      rw [if_neg (by simpa using hne)]
      simp
    rw [hwf, if_neg (by decide)]
    have hih := ih id1
      { w with
        op_queue_ := (id1 :: ids).map operation.handler
        outstanding_work_ := ((ids.length + 1 : Nat) : Int)
        trace := event.complete id0 :: w.trace } (n + 1) (f + 1)
      (fun id hid => hh id (by simp at hid ⊢; tauto))
      hs ht hw hst rfl rfl (by simp at hn ⊢; omega) (by simp at hfuel ⊢; omega)
    rw [hih]
    simp
    omega


theorem post_immediate_completion_outside (e : env) (w : world) (op : operation) (c : Bool)
    (hst : w.stack = []) :
    post_immediate_completion e w op c =
      push_and_wake (work_started (record w (event.post op))) [op] := by
  have h : (record w (event.post op)).stack = [] := by simpa [record] using hst
  unfold post_immediate_completion
  simp only []
  split
  · rw [h]
  · rfl

theorem slow_post_idle (w : world) (op : operation) (ht : w.task_ = false)
    (hw : w.waiters = 0) :
    push_and_wake (work_started (record w (event.post op))) [op] =
      { w with
        op_queue_ := w.op_queue_ ++ [op]
        outstanding_work_ := w.outstanding_work_ + 1
        trace := event.post op :: w.trace } := by
  simp only [push_and_wake]
  rw [wake_idle _ (by simpa [work_started, record] using hw)
    (by simpa [work_started, record] using ht)]
  simp [work_started, record]

theorem perform_post_call_outside (e : env) (cmp : world → Nat → outcome) (fuel : Nat)
    (w : world) (p : Nat × Option Bool) (hst : w.stack = []) (ht : w.task_ = false)
    (hw : w.waiters = 0) :
    perform e cmp fuel w (post_call p) =
      outcome.returned
        { w with
          op_queue_ := w.op_queue_ ++ [operation.handler p.1]
          outstanding_work_ := w.outstanding_work_ + 1
          trace := event.post (operation.handler p.1) :: w.trace } 0 := by
  obtain ⟨id, c⟩ := p
  cases c with
  | none =>
    simp only [post_call, perform, do_dispatch]
    rw [slow_post_idle w _ ht hw]
  | some c =>
    simp only [post_call, perform]
    rw [post_immediate_completion_outside e w _ c hst, slow_post_idle w _ ht hw]

theorem script_posts (e : env) (ps : List (Nat × Option Bool)) :
    ∀ (w : world) (fuel : Nat), w.stack = [] → w.task_ = false → w.waiters = 0 →
      ps.length + 1 ≤ fuel →
      script e fuel w (ps.map post_call) =
        outcome.returned
          { w with
            op_queue_ := w.op_queue_ ++ ps.map (fun p => operation.handler p.1)
            outstanding_work_ := w.outstanding_work_ + (ps.length : Int)
            trace := (ps.map (fun p => event.post (operation.handler p.1))).reverse ++ w.trace }
          0 := by
  induction ps with
  | nil =>
    intro w fuel _ _ _ hf
    obtain ⟨f, rfl⟩ : ∃ f, fuel = f + 1 := ⟨fuel - 1, by simp at hf; omega⟩
    simp [script]
  | cons p ps ih =>
    intro w fuel hst ht hw hf
    obtain ⟨f, rfl⟩ : ∃ f, fuel = f + 1 := ⟨fuel - 1, by simp at hf; omega⟩
    simp only [List.map_cons, script]
    rw [perform_post_call_outside e _ _ w p hst ht hw]
    simp only []
    have hih := ih
      { w with
        op_queue_ := w.op_queue_ ++ [operation.handler p.1]
        outstanding_work_ := w.outstanding_work_ + 1
        trace := event.post (operation.handler p.1) :: w.trace } f hst ht hw
      (by simp at hf ⊢; omega)
    rw [hih]
    simp
    omega

theorem run_drains (e : env) (hf : Nat) (ids : List Nat) (w : world) (fuel : Nat)
    (hh : ∀ id ∈ ids, e.handlers id = [])
    (hs : w.stopped_ = false) (ht : w.task_ = false) (hw : w.waiters = 0)
    (hst : w.stack = []) (hq : w.op_queue_ = ids.map operation.handler)
    (hW : w.outstanding_work_ = (ids.length : Int)) (hN : ids.length ≤ e.size_max)
    (hfuel : ids.length + 2 ≤ fuel) :
    run e (complete e (hf + 1)) fuel w =
      outcome.returned
        { w with
          ec := 0
          op_queue_ := []
          outstanding_work_ := 0
          stopped_ := true
          trace := (ids.map event.complete).reverse ++ w.trace } ids.length := by
  cases ids with
  | nil =>
    simp only [run, hW, List.length_nil, Nat.cast_zero, beq_self_eq_true, if_true, stop_eq]
    cases w
    simp_all
  | cons id0 ids =>
    have hne : ¬ (w.outstanding_work_ = 0) := by
      rw [hW]; simp only [List.length_cons]; push_cast; omega
    have hrl := run_loop_drains e hf ids id0 (enter { w with ec := 0 }) 0 fuel hh hs ht hw
      (by simp [enter, hst]) hq (by simpa using hW) (by simpa using hN) (by simpa using hfuel)
    simp only [run]
    rw [if_neg (by simpa using hne), hrl]
    simp [on_exit, leave, enter, hst]

/-- C2. From a freshly constructed scheduler, posting N operations whose
handlers make no call on the scheduler and raise nothing (each posted by
`post_immediate_completion` or `do_dispatch`, in either threading mode and
build) and then calling `run` returns N, invokes
`complete` once on each posted operation, in posting order, and on nothing
else, and leaves the main queue empty.  N is at most `size_t`'s maximum, as any
number of operations held in memory is. -/
theorem run_completes_posted (e : env) (hint : Int) (ls lr : Bool) (r : List reply)
    (ps : List (Nat × Option Bool)) (hh : ∀ p ∈ ps, e.handlers p.1 = [])
    (hN : ps.length ≤ e.size_max) :
    ∃ w1, script e (ps.length + 1) (scheduler_new hint ls lr r) (ps.map post_call)
        = outcome.returned w1 0
      ∧ ∀ hf fuel, ps.length + 2 ≤ fuel →
        ∃ w2, run e (complete e (hf + 1)) fuel w1 = outcome.returned w2 ps.length
          ∧ w2.op_queue_ = []
          ∧ w2.trace = (ps.map (fun p => event.complete p.1)).reverse
              ++ (ps.map (fun p => event.post (operation.handler p.1))).reverse := by
  refine ⟨_, script_posts e ps (scheduler_new hint ls lr r) _ rfl rfl rfl (le_refl _), ?_⟩
  intro hf fuel hfuel
  have hrun := run_drains e hf (ps.map (fun p => p.1))
    { (scheduler_new hint ls lr r) with
      op_queue_ := (scheduler_new hint ls lr r).op_queue_ ++ ps.map (fun p => operation.handler p.1)
      outstanding_work_ := (scheduler_new hint ls lr r).outstanding_work_ + (ps.length : Int)
      trace := (ps.map (fun p => event.post (operation.handler p.1))).reverse
        ++ (scheduler_new hint ls lr r).trace } fuel
    (by
      intro id hid
      simp only [List.mem_map] at hid
      obtain ⟨q, hq, rfl⟩ := hid
      exact hh q hq)
    rfl rfl rfl rfl (by simp [scheduler_new, Function.comp_def]) (by simp [scheduler_new])
    (by simpa using hN) (by simpa using hfuel)
  simp only [List.length_map] at hrun
  exact ⟨_, hrun, rfl, by simp [scheduler_new, Function.comp_def]⟩

theorem run_completes_posted_witness :
    ∃ w1, script { handlers := fun _ => [], has_threads := true, size_max := 100 } 3
          (scheduler_new 0 true true []) [call.do_dispatch 4, call.post_immediate_completion 5 false]
        = outcome.returned w1 0
      ∧ ∀ hf fuel, 4 ≤ fuel →
        ∃ w2, run { handlers := fun _ => [], has_threads := true, size_max := 100 }
            (complete { handlers := fun _ => [], has_threads := true, size_max := 100 } (hf + 1))
            fuel w1 = outcome.returned w2 2
          ∧ w2.op_queue_ = []
          ∧ w2.trace = [event.complete 5, event.complete 4, event.post (operation.handler 5),
                        event.post (operation.handler 4)] :=
  run_completes_posted { handlers := fun _ => [], has_threads := true, size_max := 100 } 0 true true
    [] [(4, none), (5, some false)] (fun _ _ => rfl) (by decide)


/-! ## `task_operation_` stands in the main queue once -/

theorem sentinel_inv_push (w w1 : world) (ops : List operation)
    (hops : operation.task_operation_ ∉ ops) (h1 : w1.stack = w.stack)
    (h2 : w1.op_queue_ = w.op_queue_ ++ ops) (h3 : w1.task_ = w.task_)
    (h4 : task_runs w1.trace = task_runs w.trace) (h : sentinel_inv w) : sentinel_inv w1 := by
  obtain ⟨ha, hb, hc⟩ := h
  refine ⟨by rw [h1]; exact ha, ?_, by rw [h4]; exact hc⟩
  rw [h2, h3, List.count_append, List.count_eq_zero_of_not_mem hops]
  simpa using hb

theorem sentinel_inv_congr (w w1 : world) (h1 : w1.stack = w.stack)
    (h2 : w1.op_queue_ = w.op_queue_) (h3 : w1.task_ = w.task_)
    (h4 : task_runs w1.trace = task_runs w.trace) (h : sentinel_inv w) : sentinel_inv w1 :=
  sentinel_inv_push w w1 [] (by simp) h1 (by simp [h2]) h3 h4 h

theorem sentinel_inv_private (w w1 : world) (t t1 : thread_info) (rest : List thread_info)
    (ops : List operation) (hops : operation.task_operation_ ∉ ops)
    (hst : w.stack = t :: rest) (h1 : w1.stack = t1 :: rest)
    (ht : t1.private_op_queue = t.private_op_queue ++ ops)
    (h2 : w1.op_queue_ = w.op_queue_) (h3 : w1.task_ = w.task_)
    (h4 : task_runs w1.trace = task_runs w.trace) (h : sentinel_inv w) : sentinel_inv w1 := by
  obtain ⟨ha, hb, hc⟩ := h
  refine ⟨?_, by rw [h2, h3]; exact hb, by rw [h4]; exact hc⟩
  intro u hu
  rw [h1] at hu
  rw [hst] at ha
  simp only [List.mem_cons] at hu
  rcases hu with rfl | hu
  · rw [ht]
    simp only [List.mem_append, not_or]
    exact ⟨ha t (by simp), hops⟩
  · exact ha u (by simp [hu])

theorem not_sentinel_handlers (ids : List Nat) :
    operation.task_operation_ ∉ ids.map operation.handler := by
  simp

theorem sentinel_inv_prim (e : env) (cmp : world → Nat → outcome) (fuel : Nat) (w : world)
    (c : call) (hd : is_drive c = false) (h : sentinel_inv w) :
    sat sentinel_inv (perform e cmp fuel w c) := by
  cases c with
  | init_task =>
    simp only [perform, sat]
    unfold init_task
    split
    · rename_i hc
      simp only [Bool.and_eq_true, Bool.not_eq_true'] at hc
      obtain ⟨ha, hb, hcc⟩ := h
      refine ⟨by simpa using ha, ?_, by simpa using hcc⟩
      rw [hc.2] at hb
      simp [List.count_append, hb]
    · exact h
  | shutdown =>
    simp only [perform, sat]
    rw [shutdown_eq]
    obtain ⟨ha, hb, hcc⟩ := h
    exact ⟨ha, by simp, by simpa [task_runs_append, task_runs_reverse] using hcc⟩
  | stop => exact sentinel_inv_congr w _ (by simp) (by simp) (by simp) (by simp) h
  | restart => exact sentinel_inv_congr w _ rfl rfl rfl rfl h
  | run => simp [is_drive] at hd
  | run_one => simp [is_drive] at hd
  | wait_one usec => simp [is_drive] at hd
  | poll => simp [is_drive] at hd
  | poll_one => simp [is_drive] at hd
  | post_immediate_completion id b =>
    simp only [perform, sat]
    rcases post_immediate_completion_cases e w (operation.handler id) b with
      ⟨t, rest, _, hst, heq⟩ | heq
    · rw [heq]
      exact sentinel_inv_private w _ t _ rest [operation.handler id] (by simp) hst rfl rfl rfl rfl
        (by simp [task_runs]) h
    · rw [heq]
      exact sentinel_inv_push w _ [operation.handler id] (by simp) (by simp) (by simp) (by simp)
        (by simp [task_runs]) h
  | post_deferred_completion id =>
    simp only [perform, sat]
    rcases post_deferred_completion_cases e w (operation.handler id) with
      ⟨t, rest, _, hst, heq⟩ | heq
    · rw [heq]
      exact sentinel_inv_private w _ t _ rest [operation.handler id] (by simp) hst rfl rfl rfl rfl
        (by simp [task_runs]) h
    · rw [heq]
      exact sentinel_inv_push w _ [operation.handler id] (by simp) (by simp) (by simp) (by simp)
        (by simp [task_runs]) h
  | post_deferred_completions ids =>
    simp only [perform, sat]
    rcases post_deferred_completions_cases e w (ids.map operation.handler) with
      ⟨heq, _⟩ | ⟨t, rest, _, hst, heq⟩ | heq
    · rw [heq]; exact h
    · rw [heq]
      exact sentinel_inv_private w _ t _ rest (ids.map operation.handler)
        (not_sentinel_handlers ids) hst rfl rfl rfl rfl
        (by simp [task_runs_append, task_runs_reverse]) h
    · rw [heq]
      exact sentinel_inv_push w _ (ids.map operation.handler) (not_sentinel_handlers ids)
        (by simp) (by simp) (by simp) (by simp [task_runs_append, task_runs_reverse]) h
  | do_dispatch id =>
    simp only [perform, sat]
    rw [do_dispatch_eq]
    exact sentinel_inv_push w _ [operation.handler id] (by simp) (by simp) (by simp) (by simp)
      (by simp [task_runs]) h
  | work_started => exact sentinel_inv_congr w _ rfl rfl rfl rfl h
  | work_finished => exact sentinel_inv_congr w _ (by simp) (by simp) (by simp) (by simp) h
  | compensating_work_started =>
    simp only [perform, sat]
    unfold compensating_work_started update_this_thread
    split
    · exact h
    · rename_i t rest hst
      exact sentinel_inv_private w _ t _ rest [] (by simp) hst rfl (by simp) rfl rfl rfl h
  | abandon_operations ids => exact h
  | raise => exact h

theorem sentinel_inv_task_step (w w1 : world) (q : List operation) (usec : Int)
    (h : sentinel_inv w) (hq : w.op_queue_ = operation.task_operation_ :: q)
    (hs : task_step { w with op_queue_ := q } w1 usec) : sentinel_inv w1 := by
  obtain ⟨ha, hb, hc⟩ := h
  obtain ⟨ready, rs, wt, _, rfl⟩ := hs
  rw [hq] at hb
  have htask : w.task_ = true := by
    cases ht : w.task_
    · rw [ht] at hb; simp at hb
    · rfl
  have hq0 : q.count operation.task_operation_ = 0 := by
    rw [htask] at hb
    simpa using hb
  refine ⟨ha, ?_, ?_⟩
  · simp [List.count_append, hq0, htask]
  · intro q1 hq1
    simp only [task_runs, List.mem_cons] at hq1
    rcases hq1 with rfl | hq1
    · exact List.count_eq_zero.mp hq0
    · exact hc q1 hq1

/-- The invariant of `task_operation_` is kept by every step of every
execution. -/
theorem sentinel_inv_preserved (e : env) :
    preserved e (fun _ => True) sentinel_inv sentinel_inv where
  on_prim := fun cmp fuel w c _ hd _ h => sentinel_inv_prim e cmp fuel w c hd h
  on_gate := fun w _ h => sentinel_inv_congr w _ (by simp) (by simp) (by simp) (by simp) h
  on_enter := by
    intro w _ h
    obtain ⟨ha, hb, hc⟩ := h
    refine ⟨?_, hb, hc⟩
    intro t ht
    simp only [enter, List.mem_cons] at ht
    rcases ht with rfl | ht
    · simp [fresh_thread]
    · exact ha t ht
  on_leave := by
    intro w _ h
    obtain ⟨ha, hb, hc⟩ := h
    exact ⟨fun t ht => ha t (List.mem_of_mem_tail ht), hb, hc⟩
  on_splice := by
    intro w _ h
    unfold splice_outer
    split
    · split
      · rename_i t outer rest hst
        obtain ⟨ha, hb, hc⟩ := h
        rw [hst] at ha
        have ho : operation.task_operation_ ∉ outer.private_op_queue := ha outer (by simp)
        refine ⟨?_, ?_, hc⟩
        · intro u hu
          simp only [List.mem_cons] at hu
          rcases hu with rfl | rfl | hu
          · exact ha u (by simp)
          · simp
          · exact ha u (by simp [hu])
        · simp only [List.count_append, List.count_eq_zero_of_not_mem ho]
          simpa using hb
      · exact h
    · exact h
  on_begin := by
    intro w id q _ h hq
    obtain ⟨ha, hb, hc⟩ := h
    refine ⟨by simpa [record] using ha, ?_, by simpa [record, task_runs] using hc⟩
    rw [hq] at hb
    simpa [record] using hb
  on_finish := by
    intro w _ hne h
    cases hst : w.stack with
    | nil => exact absurd hst hne
    | cons t rest =>
      rw [work_cleanup_eq e w t rest hst]
      obtain ⟨ha, hb, hc⟩ := h
      rw [hst] at ha
      have ht : operation.task_operation_ ∉ t.private_op_queue := ha t (by simp)
      refine ⟨?_, ?_, by simpa using hc⟩
      · intro u hu
        simp only [List.mem_cons] at hu
        rcases hu with rfl | hu
        · simp only []
          split
          · simp
          · exact ht
        · exact ha u (by simp [hu])
      · simp only [settle_work_op_queue, settle_work_task, List.count_append]
        rw [hb]
        cases e.has_threads <;> simp [List.count_eq_zero_of_not_mem ht]
  on_task := by
    intro w q more usec hd h hq
    obtain ⟨_, rest, hst⟩ := hd
    have hs := task_step_of_run_task { w with op_queue_ := q } more usec rest hst
    cases hr : run_task { w with op_queue_ := q } more usec with
    | returned w1 n => rw [hr] at hs; exact sentinel_inv_task_step w w1 q usec h hq hs
    | threw w1 => rw [hr] at hs; exact sentinel_inv_task_step w w1 q usec h hq hs
    | blocked w1 => trivial
    | out_of_fuel => trivial
  on_task_poll := by
    intro w q hd h hq
    obtain ⟨_, rest, hst⟩ := hd
    have hs := task_step_of_guarded { w with op_queue_ := q } 0 rest hst
    cases hr : on_exit task_cleanup (task_run { w with op_queue_ := q } 0) with
    | returned w1 n => rw [hr] at hs; exact sentinel_inv_task_step w w1 q 0 h hq hs
    | threw w1 => rw [hr] at hs; exact sentinel_inv_task_step w w1 q 0 h hq hs
    | blocked w1 => trivial
    | out_of_fuel => trivial
  on_timed_wait := fun w usec _ h =>
    sentinel_inv_congr w _ rfl rfl rfl (by simp [record, task_runs]) h
  on_signal := fun w _ h => sentinel_inv_congr w _ (by simp) (by simp) (by simp) (by simp) h


/-- C8. In every world a test driver reaches from the constructor, by any calls
(`init_task`, posts, `stop`, `restart`, drives, with handlers that themselves
make any calls), `task_operation_` stands in the main queue at most once, and
exactly once iff the task handle is non-null; it is in no private queue; and
every `task_->run` ever made found the main queue without `task_operation_`,
that is, was made by the step that had popped it and not yet pushed it back. -/
theorem task_operation_queued_once (e : env) (hint : Int) (ls lr : Bool) (r : List reply)
    (fuel : Nat) (cs : List call) :
    sat (fun w =>
        w.op_queue_.count operation.task_operation_ ≤ 1
        ∧ (w.op_queue_.count operation.task_operation_ = 1 ↔ w.task_ = true)
        ∧ (∀ t ∈ w.stack, operation.task_operation_ ∉ t.private_op_queue)
        ∧ ∀ q ∈ task_runs w.trace, operation.task_operation_ ∉ q)
      (script e fuel (scheduler_new hint ls lr r) cs) := by
  have h0 : sentinel_inv (scheduler_new hint ls lr r) := by
    refine ⟨?_, ?_, ?_⟩ <;> simp [scheduler_new, task_runs]
  have hq : quiet e (scheduler_new hint ls lr r) := by
    intro _ t ht
    simp [scheduler_new] at ht
  have h := script_keeps e (fun _ => True) sentinel_inv sentinel_inv (sentinel_inv_preserved e)
    (fun _ _ _ => trivial) fuel (scheduler_new hint ls lr r) cs (fun _ _ => trivial) hq h0
  have conv : ∀ w : world, sentinel_inv w →
      w.op_queue_.count operation.task_operation_ ≤ 1
      ∧ (w.op_queue_.count operation.task_operation_ = 1 ↔ w.task_ = true)
      ∧ (∀ t ∈ w.stack, operation.task_operation_ ∉ t.private_op_queue)
      ∧ ∀ q ∈ task_runs w.trace, operation.task_operation_ ∉ q := by
    intro w ⟨ha, hb, hc⟩
    refine ⟨?_, ?_, ha, hc⟩
    · rw [hb]; split <;> simp
    · rw [hb]; cases w.task_ <;> simp
  cases hs : script e fuel (scheduler_new hint ls lr r) cs with
  | returned w n => rw [hs] at h; exact conv w h.2.1
  | threw w => rw [hs] at h; exact conv w h.2.1
  | blocked w => trivial
  | out_of_fuel => trivial

/-- An execution covered by `task_operation_queued_once`: the reactor is
installed, one operation is posted and `run` drives the reactor once and then
completes the operation. -/
theorem task_operation_queued_once_example :
    script { handlers := fun _ => [], has_threads := true, size_max := 100 } 20
        (scheduler_new 0 true true []) [call.init_task, call.do_dispatch 1, call.run]
      = outcome.returned
          { one_thread_ := false, task_ := true, task_interrupted_ := true,
            outstanding_work_ := 0, op_queue_ := [operation.task_operation_], stopped_ := true,
            shutdown_ := false, stack := [], reactor := [], waiters := 0, ec := 0,
            trace := [event.complete 1, event.task_run 0 [operation.handler 1],
                      event.post (operation.handler 1)] } 0 := by
  decide


/-! ## Every posted operation is completed or destroyed once -/

theorem count_handler_ids (q : List operation) (x : Nat) :
    (handler_ids q).count x = q.count (operation.handler x) := by
  induction q with
  | nil => rfl
  | cons o q ih =>
    cases o with
    | task_operation_ => simp [handler_ids, ih]
    | handler id =>
      by_cases h : id = x
      · subst h; simp [handler_ids, ih]
      · simp [handler_ids, List.count_cons, ih, h]

theorem count_map_handler (ids : List Nat) (x : Nat) :
    (ids.map operation.handler).count (operation.handler x) = ids.count x := by
  induction ids with
  | nil => rfl
  | cons id ids ih =>
    by_cases h : id = x
    · subst h; simp [ih]
    · simp [List.count_cons, ih, h]

theorem ledger_inv_step (c : Nat → Nat) (w w1 : world) (hr : w1.reactor = w.reactor)
    (h : ∀ x, ledger w1 x + (posted w.trace).count (operation.handler x)
      = ledger w x + (posted w1.trace).count (operation.handler x))
    (hw : ledger_inv c w) : ledger_inv c w1 := by
  intro x
  have h1 := h x
  have h2 := hw x
  rw [hr]
  exact ⟨by omega, h2.2⟩

theorem ledger_congr (w w1 : world) (x : Nat) (h1 : w1.op_queue_ = w.op_queue_)
    (h2 : pending_private x w1.stack = pending_private x w.stack)
    (h3 : w1.reactor = w.reactor) (h4 : completions w1.trace = completions w.trace)
    (h5 : destroyed w1.trace = destroyed w.trace) : ledger w1 x = ledger w x := by
  simp only [ledger, h1, h2, h3, h4, h5]

theorem ledger_inv_congr (c : Nat → Nat) (w w1 : world) (h1 : w1.op_queue_ = w.op_queue_)
    (h2 : w1.stack = w.stack)
    (h3 : w1.reactor = w.reactor) (h4 : completions w1.trace = completions w.trace)
    (h5 : destroyed w1.trace = destroyed w.trace) (h6 : posted w1.trace = posted w.trace)
    (hw : ledger_inv c w) : ledger_inv c w1 := by
  apply ledger_inv_step c w w1 h3 _ hw
  intro x
  rw [ledger_congr w w1 x h1 (by rw [h2]) h3 h4 h5, h6]

theorem count_sentinel_tail (q : List operation) (x : Nat) :
    (q ++ [operation.task_operation_]).count (operation.handler x)
      = q.count (operation.handler x) := by
  simp [List.count_append]

theorem ledger_inv_prim (e : env) (c : Nat → Nat) (cmp : world → Nat → outcome) (fuel : Nat)
    (w : world) (cl : call) (hd : is_drive cl = false) (h : ledger_inv c w) :
    sat (ledger_inv c) (perform e cmp fuel w cl) := by
  cases cl with
  | init_task =>
    simp only [perform, sat]
    unfold init_task
    split
    · apply ledger_inv_step c w _ (by simp [record]) _ h
      intro x
      simp [ledger, List.count_append]
    · exact h
  | shutdown =>
    simp only [perform, sat]
    rw [shutdown_eq]
    apply ledger_inv_step c w _ (by rfl) _ h
    intro x
    simp only [ledger, destroyed_append, completions_append, posted_append, destroyed_reverse,
      completions_reverse, posted_reverse, destroyed_destroys, completions_destroys,
      posted_destroys, List.reverse_nil, List.nil_append, List.count_append, List.count_reverse,
      count_handler_ids, List.count_nil]
    omega
  | stop =>
    exact ledger_inv_congr c w _ (by simp) (by simp) (by simp) (by simp) (by simp)
      (by simp) h
  | restart => exact ledger_inv_congr c w _ rfl rfl rfl rfl rfl rfl h
  | run => simp [is_drive] at hd
  | run_one => simp [is_drive] at hd
  | wait_one usec => simp [is_drive] at hd
  | poll => simp [is_drive] at hd
  | poll_one => simp [is_drive] at hd
  | post_immediate_completion id b =>
    simp only [perform, sat]
    rcases post_immediate_completion_cases e w (operation.handler id) b with
      ⟨t, rest, _, hst, heq⟩ | heq
    · rw [heq]
      apply ledger_inv_step c w _ (by rfl) _ h
      intro x
      simp only [ledger, pending_private, hst, posted, completions, destroyed, List.map_cons,
        List.sum_cons, List.count_append, List.count_cons, List.count_nil]
      omega
    · rw [heq]
      apply ledger_inv_step c w _ (by simp [record]) _ h
      intro x
      simp only [ledger, wake_op_queue, wake_stack, wake_reactor, wake_completions,
        wake_destroyed, wake_posted, posted, completions, destroyed, List.count_append,
        List.count_cons, List.count_nil]
      omega
  | post_deferred_completion id =>
    simp only [perform, sat]
    rcases post_deferred_completion_cases e w (operation.handler id) with
      ⟨t, rest, _, hst, heq⟩ | heq
    · rw [heq]
      apply ledger_inv_step c w _ (by rfl) _ h
      intro x
      simp only [ledger, pending_private, hst, posted, completions, destroyed, List.map_cons,
        List.sum_cons, List.count_append, List.count_cons, List.count_nil]
      omega
    · rw [heq]
      apply ledger_inv_step c w _ (by simp [record]) _ h
      intro x
      simp only [ledger, wake_op_queue, wake_stack, wake_reactor, wake_completions,
        wake_destroyed, wake_posted, posted, completions, destroyed, List.count_append,
        List.count_cons, List.count_nil]
      omega
  | post_deferred_completions ids =>
    simp only [perform, sat]
    rcases post_deferred_completions_cases e w (ids.map operation.handler) with
      ⟨heq, _⟩ | ⟨t, rest, _, hst, heq⟩ | heq
    · rw [heq]; exact h
    · rw [heq]
      apply ledger_inv_step c w _ (by rfl) _ h
      intro x
      simp only [ledger, pending_private, hst, List.map_cons, List.sum_cons, List.count_append,
        posted_append, completions_append, destroyed_append, posted_reverse,
        completions_reverse, destroyed_reverse, posted_posts, completions_posts,
        destroyed_posts, List.count_reverse, List.reverse_nil, List.nil_append]
      omega
    · rw [heq]
      apply ledger_inv_step c w _ (by simp [record]) _ h
      intro x
      simp only [ledger, wake_op_queue, wake_stack, wake_reactor, wake_completions,
        wake_destroyed, wake_posted, List.count_append,
        posted_append, completions_append, destroyed_append, posted_reverse,
        completions_reverse, destroyed_reverse, posted_posts, completions_posts,
        destroyed_posts, List.count_reverse, List.reverse_nil, List.nil_append]
      omega
  | do_dispatch id =>
    simp only [perform, sat]
    rw [do_dispatch_eq]
    apply ledger_inv_step c w _ (by simp [record]) _ h
    intro x
    simp only [ledger, wake_op_queue, wake_stack, wake_reactor, wake_completions,
      wake_destroyed, wake_posted, posted, completions, destroyed, List.count_append,
      List.count_cons, List.count_nil]
    omega
  | work_started => exact ledger_inv_congr c w _ rfl rfl rfl rfl rfl rfl h
  | work_finished =>
    exact ledger_inv_congr c w _ (by simp) (by simp) (by simp) (by simp)
      (by simp) (by simp) h
  | compensating_work_started =>
    simp only [perform, sat]
    unfold compensating_work_started update_this_thread
    split
    · exact h
    · rename_i t rest hst
      apply ledger_inv_step c w _ (by rfl) _ h
      intro x
      simp [ledger, pending_private, hst]
  | abandon_operations ids => exact h
  | raise => exact h

theorem ledger_inv_task_step (c : Nat → Nat) (w w1 : world) (q : List operation) (usec : Int)
    (h : ledger_inv c w) (hq : w.op_queue_ = operation.task_operation_ :: q)
    (hs : task_step { w with op_queue_ := q } w1 usec) : ledger_inv c w1 := by
  obtain ⟨ready, rs, wt, hcase, rfl⟩ := hs
  intro x
  have hx := h x
  simp only [ledger, hq, posted, completions, destroyed, List.count_append, count_map_handler]
    at hx ⊢
  rcases hcase with ⟨h1, h2, h3⟩ | ⟨r, h1, h2⟩
  · simp only at h1
    subst h2 h3
    simp only [h1, pending_reactor, List.map_nil, List.sum_nil] at hx ⊢
    simp at hx ⊢
    omega
  · simp only at h1
    subst h2
    simp only [h1, pending_reactor, List.map_cons, List.sum_cons] at hx ⊢
    simp at hx ⊢
    omega

/-- The ledger is kept by every step of every execution. -/
theorem ledger_inv_preserved (e : env) (c : Nat → Nat) :
    preserved e (fun _ => True) (ledger_inv c) (ledger_inv c) where
  on_prim := fun cmp fuel w cl _ hd _ h => ledger_inv_prim e c cmp fuel w cl hd h
  on_gate := fun w _ h =>
    ledger_inv_congr c w _ (by simp) (by simp) (by simp) (by simp) (by simp) (by simp) h
  on_enter := by
    intro w _ h
    apply ledger_inv_step c w _ (by rfl) _ h
    intro x
    simp [ledger, enter, pending_private, fresh_thread]
  on_leave := by
    intro w hd h
    obtain ⟨_, rest, hst⟩ := hd
    apply ledger_inv_step c w _ (by rfl) _ h
    intro x
    simp [ledger, leave, pending_private, hst, fresh_thread]
  on_splice := by
    intro w _ h
    unfold splice_outer
    split
    · split
      · rename_i t outer rest hst
        apply ledger_inv_step c w _ (by rfl) _ h
        intro x
        simp only [ledger, pending_private, hst, List.map_cons, List.sum_cons,
          List.count_append, List.count_nil]
        omega
      · exact h
    · exact h
  on_begin := by
    intro w id q _ h hq
    apply ledger_inv_step c w _ (by simp [record]) _ h
    intro x
    simp only [ledger, record, hq, before_complete_op_queue, before_complete_stack,
      before_complete_reactor, before_complete_completions, before_complete_destroyed,
      before_complete_posted, completions, destroyed, posted, List.count_cons]
    have : (operation.handler id == operation.handler x) = (id == x) := by
      by_cases hx : id = x
      · subst hx; simp
      · have h2 : ¬ (operation.handler id = operation.handler x) := by
          intro h3; exact hx (operation.handler.inj h3)
        simp [hx, h2]
    rw [this]
    omega
  on_finish := by
    intro w _ hne h
    cases hst : w.stack with
    | nil => exact absurd hst hne
    | cons t rest =>
      rw [work_cleanup_eq e w t rest hst]
      apply ledger_inv_step c w _ (by simp [record]) _ h
      intro x
      simp only [ledger, pending_private, hst, settle_work_op_queue, settle_work_reactor,
        settle_work_completions, settle_work_destroyed, settle_work_posted, List.map_cons,
        List.sum_cons, List.count_append]
      cases e.has_threads
      · simp
      · simp
        omega
  on_task := by
    intro w q more usec hd h hq
    obtain ⟨_, rest, hst⟩ := hd
    have hs := task_step_of_run_task { w with op_queue_ := q } more usec rest hst
    cases hr : run_task { w with op_queue_ := q } more usec with
    | returned w1 n => rw [hr] at hs; exact ledger_inv_task_step c w w1 q usec h hq hs
    | threw w1 => rw [hr] at hs; exact ledger_inv_task_step c w w1 q usec h hq hs
    | blocked w1 => trivial
    | out_of_fuel => trivial
  on_task_poll := by
    intro w q hd h hq
    obtain ⟨_, rest, hst⟩ := hd
    have hs := task_step_of_guarded { w with op_queue_ := q } 0 rest hst
    cases hr : on_exit task_cleanup (task_run { w with op_queue_ := q } 0) with
    | returned w1 n => rw [hr] at hs; exact ledger_inv_task_step c w w1 q 0 h hq hs
    | threw w1 => rw [hr] at hs; exact ledger_inv_task_step c w w1 q 0 h hq hs
    | blocked w1 => trivial
    | out_of_fuel => trivial
  on_timed_wait := fun w usec _ h =>
    ledger_inv_congr c w _ rfl rfl rfl (by simp [record, completions])
      (by simp [record, destroyed]) (by simp [record, posted]) h
  on_signal := fun w _ h =>
    ledger_inv_congr c w _ (by simp) (by simp) (by simp) (by simp) (by simp) (by simp) h


theorem script_ends_with_shutdown (e : env) :
    ∀ (fuel : Nat) (w : world) (cs : List call) (w1 : world) (n : Nat),
      script e fuel w (cs ++ [call.shutdown]) = outcome.returned w1 n → w1.op_queue_ = [] := by
  intro fuel
  induction fuel with
  | zero => intro w cs w1 n h; simp [script] at h
  | succ fuel ih =>
    intro w cs w1 n h
    cases cs with
    | nil =>
      simp only [List.nil_append, script, perform] at h
      cases fuel with
      | zero => simp [script] at h
      | succ f =>
        simp only [script, outcome.returned.injEq] at h
        rw [← h.1, shutdown_eq]
    | cons c cs =>
      simp only [List.cons_append, script] at h
      cases hp : perform e (complete e fuel) fuel w c with
      | returned w2 m => rw [hp] at h; exact ih w2 cs w1 n h
      | threw w2 => rw [hp] at h; exact ih w2 cs w1 n h
      | blocked w2 => rw [hp] at h; simp at h
      | out_of_fuel => rw [hp] at h; simp at h

/-- C1. Let a test driver make any calls on a freshly constructed scheduler
(posts of every kind, `run`, `run_one`, `wait_one`, `poll`, `poll_one`, `stop`,
`restart`, ..., with handlers that themselves make any calls) and end with
`shutdown()`.  If the sequence runs to its end, then for every operation `x` the
invocations of `complete` and of `destroy` on `x` together are as many as the
times `x` was posted, counting with the posts the deliveries the reactor made
of `x`.  So an operation posted once, and never delivered by the reactor, had
`complete` invoked exactly once and `destroy` never, or `destroy` exactly once
and `complete` never. -/
theorem posted_once_completed_or_destroyed_once (e : env) (hint : Int) (ls lr : Bool)
    (r : List reply) (fuel : Nat) (cs : List call) (w : world) (n : Nat)
    (h : script e fuel (scheduler_new hint ls lr r) (cs ++ [call.shutdown])
      = outcome.returned w n) (x : Nat) :
    (completions w.trace).count x + (destroyed w.trace).count x + pending_reactor x w.reactor
        = (posted w.trace).count (operation.handler x) + pending_reactor x r
    ∧ ((posted w.trace).count (operation.handler x) = 1 → pending_reactor x r = 0 →
        ((completions w.trace).count x = 1 ∧ (destroyed w.trace).count x = 0)
        ∨ ((completions w.trace).count x = 0 ∧ (destroyed w.trace).count x = 1)) := by
  have h0 : ledger_inv (fun x => pending_reactor x r) (scheduler_new hint ls lr r) := by
    intro y
    simp [ledger, scheduler_new, pending_private, completions, destroyed, posted]
  have hq : quiet e (scheduler_new hint ls lr r) := by
    intro _ t ht
    simp [scheduler_new] at ht
  have hk := script_keeps e (fun _ => True) _ _
    (ledger_inv_preserved e (fun x => pending_reactor x r))
    (fun _ _ _ => trivial) fuel (scheduler_new hint ls lr r) (cs ++ [call.shutdown])
    (fun _ _ => trivial) hq h0
  rw [h] at hk
  obtain ⟨_, hl, hlen⟩ := hk
  have hst : w.stack = [] := by
    apply List.length_eq_zero.mp
    rw [hlen]
    rfl
  have hqe : w.op_queue_ = [] := script_ends_with_shutdown e fuel _ cs w n h
  obtain ⟨hx, hle⟩ := hl x
  beta_reduce at hx hle
  simp only [ledger, hst, hqe, pending_private, List.count_nil, List.map_nil, List.sum_nil]
    at hx
  constructor
  · omega
  · intro h1 h2
    have h3 : pending_reactor x w.reactor = 0 := by omega
    have h4 : (completions w.trace).count x + (destroyed w.trace).count x = 1 := by omega
    by_cases h5 : (completions w.trace).count x = 0
    · right
      exact ⟨h5, by omega⟩
    · left
      exact ⟨by omega, by omega⟩

theorem posted_once_completed_or_destroyed_once_witness :
    (completions [event.destroy 3, event.complete 2, event.complete 1,
        event.post (operation.handler 3), event.post (operation.handler 2),
        event.post (operation.handler 1)]).count 3
      + (destroyed [event.destroy 3, event.complete 2, event.complete 1,
        event.post (operation.handler 3), event.post (operation.handler 2),
        event.post (operation.handler 1)]).count 3
      + pending_reactor 3 []
      = (posted [event.destroy 3, event.complete 2, event.complete 1,
        event.post (operation.handler 3), event.post (operation.handler 2),
        event.post (operation.handler 1)]).count (operation.handler 3)
        + pending_reactor 3 [] :=
  (posted_once_completed_or_destroyed_once
    { handlers := fun id => if id = 2 then [call.stop] else [], has_threads := true, size_max := 100 }
    0 true true [] 20
    [call.do_dispatch 1, call.post_immediate_completion 2 false, call.do_dispatch 3, call.run]
    { one_thread_ := false, task_ := false, task_interrupted_ := true, outstanding_work_ := 1,
      op_queue_ := [], stopped_ := true, shutdown_ := true, stack := [], reactor := [],
      waiters := 0, ec := 0,
      trace := [event.destroy 3, event.complete 2, event.complete 1,
        event.post (operation.handler 3), event.post (operation.handler 2),
        event.post (operation.handler 1)] } 0 (by decide) 3).1


/-! ## `outstanding_work_` counts the operations not yet completed -/

theorem handler_ids_append (a b : List operation) :
    handler_ids (a ++ b) = handler_ids a ++ handler_ids b := by
  induction a with
  | nil => rfl
  | cons o a ih => cases o <;> simp [handler_ids, ih]

theorem work_inv_slow_post (off : Int) (w : world) (id : Nat) (h : work_inv off w) :
    work_inv off
      (wake_one_thread_and_unlock
        { w with
          trace := event.post (operation.handler id) :: w.trace
          outstanding_work_ := w.outstanding_work_ + 1
          op_queue_ := w.op_queue_ ++ [operation.handler id] }) := by
  obtain ⟨h1, h2, h3, h4⟩ := h
  refine ⟨?_, by simpa using h2, by simpa using h3, ?_⟩
  · simp only [waiting, wake_op_queue, wake_stack, wake_outstanding_work, wake_destroyed,
      destroyed, handler_ids_append, handler_ids, List.length_append, List.length_singleton,
      List.length_nil] at h1 ⊢
    push_cast at h1 ⊢
    omega
  · simp only [waiting, wake_op_queue, wake_stack, wake_completions, wake_destroyed,
      wake_posted, handler_ids_append, handler_ids, List.length_append, List.length_singleton, List.length_nil,
      posted, completions, destroyed, List.length_cons] at h4 ⊢
    omega

theorem work_inv_congr (off : Int) (w w1 : world) (h1 : w1.op_queue_ = w.op_queue_)
    (h2 : w1.stack = w.stack) (h3 : w1.reactor = w.reactor)
    (h4 : w1.outstanding_work_ = w.outstanding_work_)
    (h5 : completions w1.trace = completions w.trace)
    (h6 : destroyed w1.trace = destroyed w.trace) (h7 : posted w1.trace = posted w.trace)
    (h : work_inv off w) : work_inv off w1 := by
  simpa only [work_inv, waiting, h1, h2, h3, h4, h5, h6, h7] using h

theorem work_inv_prim (e : env) (cmp : world → Nat → outcome) (fuel : Nat)
    (w : world) (cl : call) (ha : counted_call cl) (hd : is_drive cl = false)
    (h : work_inv 0 w) : sat (work_inv 0) (perform e cmp fuel w cl) := by
  cases cl with
  | init_task =>
    simp only [perform, sat]
    unfold init_task
    split
    · obtain ⟨h1, h2, h3, h4⟩ := h
      refine ⟨?_, by simpa using h2, by simpa using h3, ?_⟩
      · simpa [waiting, handler_ids_append, handler_ids] using h1
      · simpa [waiting, handler_ids_append, handler_ids] using h4
    · exact h
  | shutdown =>
    simp only [perform, sat]
    rw [shutdown_eq]
    obtain ⟨h1, h2, h3, h4⟩ := h
    refine ⟨?_, h2, h3, ?_⟩
    · simp only [waiting, destroyed_append, destroyed_reverse, destroyed_destroys,
        List.length_append, List.length_reverse, handler_ids, List.length_nil] at h1 ⊢
      push_cast at h1 ⊢
      omega
    · simp only [waiting, destroyed_append, destroyed_reverse, destroyed_destroys,
        completions_append, completions_reverse, completions_destroys, posted_append,
        posted_reverse, posted_destroys, List.length_append, List.length_reverse, handler_ids,
        List.length_nil, List.reverse_nil, List.nil_append] at h4 ⊢
      omega
  | stop =>
    exact work_inv_congr 0 w _ (by simp) (by simp) (by simp) (by simp) (by simp)
      (by simp) (by simp) h
  | restart => exact work_inv_congr 0 w _ rfl rfl rfl rfl rfl rfl rfl h
  | run => simp [is_drive] at hd
  | run_one => simp [is_drive] at hd
  | wait_one usec => simp [is_drive] at hd
  | poll => simp [is_drive] at hd
  | poll_one => simp [is_drive] at hd
  | post_immediate_completion id b =>
    simp only [perform, sat]
    rcases post_immediate_completion_cases e w (operation.handler id) b with
      ⟨t, rest, _, hst, heq⟩ | heq
    · rw [heq]
      obtain ⟨h1, h2, h3, h4⟩ := h
      rw [hst] at h2
      refine ⟨?_, ?_, h3, ?_⟩
      · simp only [waiting, private_work, hst, List.map_cons, List.sum_cons, handler_ids_append,
          handler_ids, List.length_append, List.length_singleton, List.length_nil,
          List.length_cons, destroyed] at h1 ⊢
        push_cast at h1 ⊢
        omega
      · intro u hu
        simp only [List.mem_cons] at hu
        rcases hu with rfl | hu
        · have := h2 t (by simp)
          simp only []
          omega
        · exact h2 u (by simp [hu])
      · simp only [waiting, hst, List.map_cons, List.sum_cons, handler_ids_append,
          handler_ids, List.length_append, List.length_singleton, List.length_nil, posted, completions,
          destroyed, List.length_cons] at h4 ⊢
        omega
    · rw [heq]
      exact work_inv_slow_post 0 w id h
  | post_deferred_completion id => exact absurd ha (by simp [counted_call])
  | post_deferred_completions ids => exact absurd ha (by simp [counted_call])
  | do_dispatch id =>
    simp only [perform, sat]
    rw [do_dispatch_eq]
    exact work_inv_slow_post 0 w id h
  | work_started => exact absurd ha (by simp [counted_call])
  | work_finished => exact absurd ha (by simp [counted_call])
  | compensating_work_started => exact absurd ha (by simp [counted_call])
  | abandon_operations ids => exact h
  | raise => exact h

theorem work_inv_task_step (w w1 : world) (q : List operation) (usec : Int)
    (h : work_inv 1 w) (hq : w.op_queue_ = operation.task_operation_ :: q)
    (hs : task_step { w with op_queue_ := q } w1 usec) : work_inv 1 w1 := by
  obtain ⟨ready, rs, wt, hcase, rfl⟩ := hs
  obtain ⟨h1, h2, h3, h4⟩ := h
  have hready : ready = [] := by
    rcases hcase with ⟨_, h5, _⟩ | ⟨r, h5, h6⟩
    · exact h5
    · simp only at h5
      rw [h6]
      exact h3 r (by rw [h5]; simp)
  have hrs : ∀ a ∈ rs, a.ready = [] := by
    rcases hcase with ⟨_, _, h5⟩ | ⟨r, h5, _⟩
    · rw [h5]; simp
    · simp only at h5
      intro a ha
      exact h3 a (by rw [h5]; simp [ha])
  subst hready
  refine ⟨?_, h2, hrs, ?_⟩
  · simpa [waiting, hq, handler_ids_append, handler_ids, destroyed] using h1
  · simpa [waiting, hq, handler_ids_append, handler_ids, posted, completions, destroyed] using h4

/-- The work count is kept by every step of an execution that posts only through
`post_immediate_completion` and `do_dispatch`. -/
theorem work_inv_preserved (e : env) : preserved e counted_call (work_inv 0) (work_inv 1) where
  on_prim := fun cmp fuel w cl ha hd _ h => work_inv_prim e cmp fuel w cl ha hd h
  on_gate := fun w _ h =>
    work_inv_congr 0 w _ (by simp) (by simp) (by simp) (by simp) (by simp) (by simp)
      (by simp) h
  on_enter := by
    intro w _ h
    obtain ⟨h1, h2, h3, h4⟩ := h
    refine ⟨?_, ?_, h3, ?_⟩
    · simp only [waiting, private_work, enter, fresh_thread, List.map_cons, List.sum_cons,
        handler_ids, List.length_nil, List.length_cons] at h1 ⊢
      push_cast at h1 ⊢
      omega
    · intro u hu
      simp only [enter, List.mem_cons] at hu
      rcases hu with rfl | hu
      · simp [fresh_thread]
      · exact h2 u hu
    · simpa [waiting, enter, fresh_thread, handler_ids] using h4
  on_leave := by
    intro w hd h
    obtain ⟨_, rest, hst⟩ := hd
    obtain ⟨h1, h2, h3, h4⟩ := h
    rw [hst] at h2
    refine ⟨?_, ?_, h3, ?_⟩
    · simp only [waiting, private_work, leave, hst, fresh_thread, List.map_cons, List.sum_cons,
        handler_ids, List.length_nil, List.length_cons, List.tail_cons] at h1 ⊢
      push_cast at h1 ⊢
      omega
    · intro u hu
      simp only [leave, hst, List.tail_cons] at hu
      exact h2 u (by simp [hu])
    · simpa [waiting, leave, hst, fresh_thread, handler_ids] using h4
  on_splice := by
    intro w _ h
    unfold splice_outer
    split
    · split
      · rename_i t outer rest hst
        obtain ⟨h1, h2, h3, h4⟩ := h
        rw [hst] at h2
        refine ⟨?_, ?_, h3, ?_⟩
        · simp only [waiting, private_work, hst, List.map_cons, List.sum_cons,
            handler_ids_append, handler_ids, List.length_append, List.length_nil,
            List.length_cons] at h1 ⊢
          push_cast at h1 ⊢
          omega
        · intro u hu
          simp only [List.mem_cons] at hu
          rcases hu with rfl | rfl | hu
          · exact h2 u (by simp)
          · exact h2 outer (by simp)
          · exact h2 u (by simp [hu])
        · simp only [waiting, hst, List.map_cons, List.sum_cons, handler_ids_append,
            handler_ids, List.length_append, List.length_nil] at h4 ⊢
          omega
      · exact h
    · exact h
  on_begin := by
    intro w id q _ h hq
    obtain ⟨h1, h2, h3, h4⟩ := h
    refine ⟨?_, by simpa [record] using h2, by simpa [record] using h3, ?_⟩
    · simp only [waiting, record, hq, before_complete_op_queue, before_complete_stack,
        before_complete_outstanding_work, before_complete_destroyed, destroyed, handler_ids,
        List.length_cons] at h1 ⊢
      push_cast at h1 ⊢
      omega
    · simp only [waiting, record, hq, before_complete_op_queue, before_complete_stack,
        before_complete_completions, before_complete_destroyed, before_complete_posted,
        handler_ids, List.length_cons, completions, destroyed, posted] at h4 ⊢
      omega
  on_finish := by
    intro w _ hne h
    cases hst : w.stack with
    | nil => exact absurd hst hne
    | cons t rest =>
      rw [work_cleanup_eq e w t rest hst]
      obtain ⟨h1, h2, h3, h4⟩ := h
      rw [hst] at h2
      have ht := h2 t (by simp)
      refine ⟨?_, ?_, by simpa using h3, ?_⟩
      · simp only [waiting, private_work, hst, settle_work_op_queue, settle_work_destroyed,
          settle_work_outstanding_work w _ ht, List.map_cons, List.sum_cons,
          handler_ids_append, List.length_append, List.length_cons] at h1 ⊢
        cases e.has_threads
        · simp only [Bool.false_eq_true, if_false, handler_ids, List.length_nil] at h1 ⊢
          push_cast at h1 ⊢
          omega
        · simp only [if_true, handler_ids, List.length_nil] at h1 ⊢
          push_cast at h1 ⊢
          omega
      · intro u hu
        simp only [List.mem_cons] at hu
        rcases hu with rfl | hu
        · simp
        · exact h2 u (by simp [hu])
      · simp only [waiting, hst, settle_work_op_queue, settle_work_completions,
          settle_work_destroyed, settle_work_posted, List.map_cons, List.sum_cons,
          handler_ids_append, List.length_append] at h4 ⊢
        cases e.has_threads
        · simp only [Bool.false_eq_true, if_false, handler_ids, List.length_nil] at h4 ⊢
          omega
        · simp only [if_true, handler_ids, List.length_nil] at h4 ⊢
          omega
  on_task := by
    intro w q more usec hd h hq
    obtain ⟨_, rest, hst⟩ := hd
    have hs := task_step_of_run_task { w with op_queue_ := q } more usec rest hst
    cases hr : run_task { w with op_queue_ := q } more usec with
    | returned w1 n => rw [hr] at hs; exact work_inv_task_step w w1 q usec h hq hs
    | threw w1 => rw [hr] at hs; exact work_inv_task_step w w1 q usec h hq hs
    | blocked w1 => trivial
    | out_of_fuel => trivial
  on_task_poll := by
    intro w q hd h hq
    obtain ⟨_, rest, hst⟩ := hd
    have hs := task_step_of_guarded { w with op_queue_ := q } 0 rest hst
    cases hr : on_exit task_cleanup (task_run { w with op_queue_ := q } 0) with
    | returned w1 n => rw [hr] at hs; exact work_inv_task_step w w1 q 0 h hq hs
    | threw w1 => rw [hr] at hs; exact work_inv_task_step w w1 q 0 h hq hs
    | blocked w1 => trivial
    | out_of_fuel => trivial
  on_timed_wait := fun w usec _ h =>
    work_inv_congr 1 w _ rfl rfl rfl rfl (by simp [record, completions])
      (by simp [record, destroyed]) (by simp [record, posted]) h
  on_signal := fun w _ h =>
    work_inv_congr 1 w _ (by simp) (by simp) (by simp) (by simp) (by simp) (by simp)
      (by simp) h


/-- C7, as stated, fails.  On a one-thread scheduler operation 1 is posted and
`run` is called; the first equation is that whole run.  The handler of 1 posts 2
and 3 (fast path) and calls `poll_one`; the second equation is the handler body
up to the return of `poll_one`, started in the world in which `run` invokes it.
When the nested `poll_one` returns, `outstanding_work_` is 0 although operation
3, posted and not completed, is still queued (and handler 1 has not returned):
the two fast-path posts are still only in the outer `private_outstanding_work`.
The third equation: operation 1 is posted and destroyed by `shutdown()`; after
`poll_one` returns `outstanding_work_` is still 1, with no operation left that
is neither completed nor destroyed.  The fourth: after `work_started()` and a
`poll_one`, `outstanding_work_` is 1 and nothing was ever posted. -/
theorem nested_poll_one_undercounts :
    script
        { handlers := fun id =>
            if id = 1 then [call.post_immediate_completion 2 false,
              call.post_immediate_completion 3 false, call.poll_one] else []
          has_threads := true, size_max := 100 }
        20 (scheduler_new 1 true true []) [call.do_dispatch 1, call.run]
      = outcome.returned
          { one_thread_ := true, task_ := false, task_interrupted_ := true,
            outstanding_work_ := 1, op_queue_ := [operation.handler 3], stopped_ := true,
            shutdown_ := false, stack := [], reactor := [], waiters := 0, ec := 0,
            trace := [event.complete 2, event.post (operation.handler 3),
              event.post (operation.handler 2), event.complete 1,
              event.post (operation.handler 1)] } 0
    ∧ exec
        { handlers := fun id =>
            if id = 1 then [call.post_immediate_completion 2 false,
              call.post_immediate_completion 3 false, call.poll_one] else []
          has_threads := true, size_max := 100 }
        20
        { one_thread_ := true, task_ := false, task_interrupted_ := true,
          outstanding_work_ := 1, op_queue_ := [], stopped_ := false, shutdown_ := false,
          stack := [fresh_thread], reactor := [], waiters := 0, ec := 0,
          trace := [event.complete 1, event.post (operation.handler 1)] }
        [call.post_immediate_completion 2 false, call.post_immediate_completion 3 false,
          call.poll_one]
      = outcome.returned
          { one_thread_ := true, task_ := false, task_interrupted_ := true,
            outstanding_work_ := 0, op_queue_ := [operation.handler 3], stopped_ := true,
            shutdown_ := false,
            stack := [{ private_op_queue := [], private_outstanding_work := 2 }],
            reactor := [], waiters := 0, ec := 0,
            trace := [event.complete 2, event.post (operation.handler 3),
              event.post (operation.handler 2), event.complete 1,
              event.post (operation.handler 1)] } 0
    ∧ script { handlers := fun _ => [], has_threads := true, size_max := 100 }
        20 (scheduler_new 1 true true []) [call.do_dispatch 1, call.shutdown, call.poll_one]
      = outcome.returned
          { one_thread_ := true, task_ := false, task_interrupted_ := true,
            outstanding_work_ := 1, op_queue_ := [], stopped_ := false, shutdown_ := true,
            stack := [], reactor := [], waiters := 0, ec := 0,
            trace := [event.destroy 1, event.post (operation.handler 1)] } 0
    ∧ script { handlers := fun _ => [], has_threads := true, size_max := 100 }
        20 (scheduler_new 1 true true []) [call.work_started, call.poll_one]
      = outcome.returned
          { one_thread_ := true, task_ := false, task_interrupted_ := true,
            outstanding_work_ := 1, op_queue_ := [], stopped_ := false, shutdown_ := false,
            stack := [], reactor := [], waiters := 0, ec := 0, trace := [] } 0 := by
  decide

/-- C7, amended.  Take any execution from a fresh scheduler in which operations
are posted only through `post_immediate_completion` and `do_dispatch` (by the
driver or by handlers, with drives nested inside handlers; the reactor delivers
none) and no other call counts work.  Whenever the driver is back in control,
in particular after any of its drive calls returns, `outstanding_work_` is not
negative and equals the number of posted operations not yet completed, which is
the number of operations in the main queue plus the number destroyed by
`shutdown()`: a destroyed operation stays counted. -/
theorem outstanding_work_counts_pending (e : env)
    (hh : ∀ id, ∀ c ∈ e.handlers id, counted_call c) (hint : Int) (ls lr : Bool)
    (r : List reply) (hr : ∀ a ∈ r, a.ready = []) (fuel : Nat) (cs : List call)
    (hcs : ∀ c ∈ cs, counted_call c) (w : world) (n : Nat)
    (h : script e fuel (scheduler_new hint ls lr r) cs = outcome.returned w n) :
    0 ≤ w.outstanding_work_
    ∧ w.outstanding_work_ + ((completions w.trace).length : Int)
        = ((posted w.trace).length : Int)
    ∧ w.outstanding_work_
        = ((handler_ids w.op_queue_).length : Int) + ((destroyed w.trace).length : Int) := by
  have h0 : work_inv 0 (scheduler_new hint ls lr r) := by
    refine ⟨?_, ?_, hr, ?_⟩ <;>
      simp [scheduler_new, waiting, private_work, handler_ids, completions, destroyed, posted]
  have hq : quiet e (scheduler_new hint ls lr r) := by
    intro _ t ht
    simp [scheduler_new] at ht
  have hk := script_keeps e counted_call _ _ (work_inv_preserved e) hh fuel
    (scheduler_new hint ls lr r) cs hcs hq h0
  rw [h] at hk
  obtain ⟨_, ⟨h1, _, _, h4⟩, hlen⟩ := hk
  have hst : w.stack = [] := by
    apply List.length_eq_zero.mp
    rw [hlen]
    rfl
  simp only [waiting, private_work, hst, List.map_nil, List.sum_nil, List.length_nil] at h1 h4
  push_cast at h1
  have h5 : ((handler_ids w.op_queue_).length : Int) + ((completions w.trace).length : Int)
      + ((destroyed w.trace).length : Int) = ((posted w.trace).length : Int) := by
    have := congrArg (fun k : Nat => (k : Int)) h4
    simpa using this
  refine ⟨by omega, by omega, by omega⟩

theorem outstanding_work_counts_pending_witness :
    (1 : Int) + (([2, 1] : List Nat).length : Int)
        = (([operation.handler 3, operation.handler 2, operation.handler 1]
            : List operation).length : Int)
    ∧ (1 : Int) = (([3] : List Nat).length : Int) + (([] : List Nat).length : Int) :=
  (outstanding_work_counts_pending
    { handlers := fun id =>
        if id = 1 then [call.post_immediate_completion 2 false,
          call.post_immediate_completion 3 false, call.poll_one] else []
      has_threads := true, size_max := 100 }
    (by
      intro id c hc
      by_cases h1 : id = 1
      · simp only [h1, if_true, List.mem_cons, List.mem_singleton, List.mem_nil_iff, or_false] at hc
        rcases hc with rfl | rfl | rfl <;> trivial
      · simp [h1] at hc)
    1 true true [] (by simp) 20 [call.do_dispatch 1, call.run]
    (by
      intro c hc
      simp only [List.mem_cons, List.mem_singleton, List.mem_nil_iff, or_false] at hc
      rcases hc with rfl | rfl <;> trivial)
    { one_thread_ := true, task_ := false, task_interrupted_ := true,
      outstanding_work_ := 1, op_queue_ := [operation.handler 3], stopped_ := true,
      shutdown_ := false, stack := [], reactor := [], waiters := 0, ec := 0,
      trace := [event.complete 2, event.post (operation.handler 3),
        event.post (operation.handler 2), event.complete 1,
        event.post (operation.handler 1)] } 0 (by decide)).2


/-! ## Operations pushed on the main queue are completed in the order pushed -/

theorem not_posted_before_grow (A B : Nat) (pops pnew : List operation)
    (h : ¬ posted_before A B pnew) : ¬ posted_before A B (pops ++ pnew) := by
  intro hpb
  apply h
  intro l1 l2 heq hB
  exact hpb l1 (pops ++ l2) (by simp [heq]) hB

/-- Operations other than `B` are pushed at the tail of the main queue, and the
posts `pops` recorded with it hold no `B` and hold `A` only if it is pushed. -/
theorem order_inv_push (A B : Nat) (p0 : List operation) (c0 : List Nat) (w w1 : world)
    (ops pops : List operation) (hB : operation.handler B ∉ ops)
    (hBp : operation.handler B ∉ pops)
    (hAp : operation.handler A ∈ pops → operation.handler A ∈ ops)
    (h1 : w1.stack = w.stack) (h2 : w1.op_queue_ = w.op_queue_ ++ ops)
    (h3 : w1.reactor = w.reactor) (h4 : completions w1.trace = completions w.trace)
    (h5 : posted w1.trace = pops ++ posted w.trace)
    (h : order_inv A B p0 c0 w) : order_inv A B p0 c0 w1 := by
  obtain ⟨ha, hb, pnew, cnew, hp, hc, hd⟩ := h
  refine ⟨by rw [h1]; exact ha, by rw [h3]; exact hb, pops ++ pnew, cnew,
    by rw [h5, hp]; simp, by rw [h4]; exact hc, ?_⟩
  rcases hd with ⟨hn1, hn2, hn3, hn4⟩ | hd | ⟨hn, pre, rest, hq, hpre⟩ | hd
  · left
    refine ⟨by simp [hBp, hn1], by rw [h2]; simp [hn2, hB], hn3, ?_⟩
    intro hA
    rw [h2]
    simp only [List.mem_append] at hA ⊢
    rcases hA with hA | hA
    · exact Or.inl (Or.inr (hAp hA))
    · rcases hn4 hA with h6 | h6
      · exact Or.inl (Or.inl h6)
      · exact Or.inr h6
  · right; left
    exact not_posted_before_grow A B pops pnew hd
  · right; right; left
    exact ⟨hn, pre, rest ++ ops, by rw [h2, hq]; simp, hpre⟩
  · right; right; right
    exact hd

theorem order_inv_congr (A B : Nat) (p0 : List operation) (c0 : List Nat) (w w1 : world)
    (h1 : w1.stack = w.stack) (h2 : w1.op_queue_ = w.op_queue_)
    (h3 : w1.reactor = w.reactor) (h4 : completions w1.trace = completions w.trace)
    (h5 : posted w1.trace = posted w.trace)
    (h : order_inv A B p0 c0 w) : order_inv A B p0 c0 w1 :=
  order_inv_push A B p0 c0 w w1 [] [] (by simp) (by simp) (by simp) h1 (by simp [h2]) h3 h4
    (by simp [h5]) h

/-- Operations other than `A` and `B` are pushed on the innermost private
queue. -/
theorem order_inv_private (A B : Nat) (p0 : List operation) (c0 : List Nat) (w w1 : world)
    (t t1 : thread_info) (rest : List thread_info) (ops pops : List operation)
    (hB : operation.handler B ∉ ops) (hBp : operation.handler B ∉ pops)
    (hAp : operation.handler A ∉ pops)
    (hst : w.stack = t :: rest) (h1 : w1.stack = t1 :: rest)
    (ht : t1.private_op_queue = t.private_op_queue ++ ops)
    (h2 : w1.op_queue_ = w.op_queue_) (h3 : w1.reactor = w.reactor)
    (h4 : completions w1.trace = completions w.trace)
    (h5 : posted w1.trace = pops ++ posted w.trace)
    (h : order_inv A B p0 c0 w) : order_inv A B p0 c0 w1 := by
  have hw : order_inv A B p0 c0 { w with trace := w1.trace } :=
    order_inv_push A B p0 c0 w _ [] pops (by simp) hBp (fun h6 => absurd h6 hAp) rfl (by simp)
      rfl h4 h5 h
  obtain ⟨ha, hb, hrest⟩ := hw
  refine ⟨?_, by rw [h3]; exact hb, by rw [h2]; exact hrest⟩
  intro u hu
  rw [h1] at hu
  simp only [hst] at ha
  simp only [List.mem_cons] at hu
  rcases hu with rfl | hu
  · rw [ht]
    simp only [List.mem_append, not_or]
    exact ⟨ha t (by simp), hB⟩
  · exact ha u (by simp [hu])

/-- `B` is pushed at the tail of the main queue and the post is recorded. -/
theorem order_inv_push_B (A B : Nat) (p0 : List operation) (c0 : List Nat) (w w1 : world)
    (h1 : w1.stack = w.stack) (h2 : w1.op_queue_ = w.op_queue_ ++ [operation.handler B])
    (h3 : w1.reactor = w.reactor) (h4 : completions w1.trace = completions w.trace)
    (h5 : posted w1.trace = operation.handler B :: posted w.trace)
    (h : order_inv A B p0 c0 w) : order_inv A B p0 c0 w1 := by
  obtain ⟨ha, hb, pnew, cnew, hp, hc, hd⟩ := h
  refine ⟨by rw [h1]; exact ha, by rw [h3]; exact hb, operation.handler B :: pnew, cnew,
    by rw [h5, hp]; simp, by rw [h4]; exact hc, ?_⟩
  rcases hd with ⟨hn1, hn2, hn3, hn4⟩ | hd | ⟨hn, pre, rest, hq, hpre⟩ | hd
  · by_cases hA : operation.handler A ∈ pnew
    · rcases hn4 hA with h6 | h6
      · right; right; left
        obtain ⟨pre, rest, hq⟩ := List.append_of_mem h6
        refine ⟨hn3, pre, rest ++ [operation.handler B], by rw [h2, hq]; simp, ?_⟩
        intro h7
        exact hn2 (by rw [hq]; simp [h7])
      · right; right; right
        obtain ⟨newer, older, hq⟩ := List.append_of_mem h6
        refine ⟨older, newer, hq, ?_⟩
        intro h7
        exact hn3 (by rw [hq]; simp [h7])
    · right; left
      intro hpb
      exact hA (hpb pnew [] rfl hn1)
  · right; left
    exact not_posted_before_grow A B [operation.handler B] pnew hd
  · right; right; left
    exact ⟨hn, pre, rest ++ [operation.handler B], by rw [h2, hq]; simp, hpre⟩
  · right; right; right
    exact hd

theorem handler_not_mem_map (B : Nat) (ids : List Nat) (h : B ∉ ids) :
    operation.handler B ∉ ids.map operation.handler := by
  simpa using h

theorem order_inv_slow_post (A B : Nat) (hAB : A ≠ B) (p0 : List operation) (c0 : List Nat)
    (w w1 : world) (id : Nat)
    (h1 : w1.stack = w.stack) (h2 : w1.op_queue_ = w.op_queue_ ++ [operation.handler id])
    (h3 : w1.reactor = w.reactor) (h4 : completions w1.trace = completions w.trace)
    (h5 : posted w1.trace = operation.handler id :: posted w.trace)
    (h : order_inv A B p0 c0 w) : order_inv A B p0 c0 w1 := by
  by_cases hid : id = B
  · subst hid
    exact order_inv_push_B A id p0 c0 w w1 h1 h2 h3 h4 h5 h
  · have hne : operation.handler B ∉ [operation.handler id] := by
      simp only [List.mem_singleton, operation.handler.injEq]
      exact fun h6 => hid h6.symm
    exact order_inv_push A B p0 c0 w w1 [operation.handler id] [operation.handler id] hne hne
      (fun h6 => h6) h1 h2 h3 h4 (by simp [h5]) h

theorem order_inv_prim (e : env) (A B : Nat) (hAB : A ≠ B) (p0 : List operation)
    (c0 : List Nat) (cmp : world → Nat → outcome)
    (fuel : Nat) (w : world) (cl : call) (ha : order_call A B cl) (hd : is_drive cl = false)
    (h : order_inv A B p0 c0 w) : sat (order_inv A B p0 c0) (perform e cmp fuel w cl) := by
  obtain ⟨hnb, hna, hns⟩ := ha
  cases cl with
  | init_task =>
    simp only [perform, sat]
    unfold init_task
    split
    · exact order_inv_push A B p0 c0 w _ [operation.task_operation_] [] (by simp) (by simp)
        (by simp) (by simp) (by simp) (by simp) (by simp) (by simp) h
    · exact h
  | shutdown => exact absurd rfl hns
  | stop => exact order_inv_congr A B p0 c0 w _ (by simp) (by simp) (by simp) (by simp) (by simp) h
  | restart => exact order_inv_congr A B p0 c0 w _ rfl rfl rfl rfl rfl h
  | run => simp [is_drive] at hd
  | run_one => simp [is_drive] at hd
  | wait_one usec => simp [is_drive] at hd
  | poll => simp [is_drive] at hd
  | poll_one => simp [is_drive] at hd
  | post_immediate_completion id b =>
    have hidB : operation.handler B ∉ [operation.handler id] := by
      simpa [posts_of] using hnb
    have hidA : operation.handler A ∉ [operation.handler id] := by
      simpa [posts_of] using hna
    simp only [perform, sat]
    rcases post_immediate_completion_cases e w (operation.handler id) b with
      ⟨t, rest, _, hst, heq⟩ | heq
    · rw [heq]
      exact order_inv_private A B p0 c0 w _ t _ rest [operation.handler id]
        [operation.handler id] hidB hidB hidA hst rfl rfl rfl rfl (by simp [completions])
        (by simp [posted]) h
    · rw [heq]
      exact order_inv_push A B p0 c0 w _ [operation.handler id] [operation.handler id] hidB hidB
        (fun h6 => h6) (by simp) (by simp) (by simp) (by simp [completions]) (by simp [posted]) h
  | post_deferred_completion id =>
    have hidB : operation.handler B ∉ [operation.handler id] := by
      simpa [posts_of] using hnb
    have hidA : operation.handler A ∉ [operation.handler id] := by
      simpa [posts_of] using hna
    simp only [perform, sat]
    rcases post_deferred_completion_cases e w (operation.handler id) with
      ⟨t, rest, _, hst, heq⟩ | heq
    · rw [heq]
      exact order_inv_private A B p0 c0 w _ t _ rest [operation.handler id]
        [operation.handler id] hidB hidB hidA hst rfl rfl rfl rfl (by simp [completions])
        (by simp [posted]) h
    · rw [heq]
      exact order_inv_push A B p0 c0 w _ [operation.handler id] [operation.handler id] hidB hidB
        (fun h6 => h6) (by simp) (by simp) (by simp) (by simp [completions]) (by simp [posted]) h
  | post_deferred_completions ids =>
    have hidB : operation.handler B ∉ ids.map operation.handler :=
      handler_not_mem_map B ids (by simpa [posts_of] using hnb)
    have hidA : operation.handler A ∉ ids.map operation.handler :=
      handler_not_mem_map A ids (by simpa [posts_of] using hna)
    have hidBr : operation.handler B ∉ (ids.map operation.handler).reverse := by
      simpa using hidB
    have hidAr : operation.handler A ∉ (ids.map operation.handler).reverse := by
      simpa using hidA
    simp only [perform, sat]
    rcases post_deferred_completions_cases e w (ids.map operation.handler) with
      ⟨heq, _⟩ | ⟨t, rest, _, hst, heq⟩ | heq
    · rw [heq]; exact h
    · rw [heq]
      exact order_inv_private A B p0 c0 w _ t _ rest (ids.map operation.handler)
        (ids.map operation.handler).reverse hidB hidBr hidAr hst rfl rfl rfl rfl
        (by simp [completions_append, completions_reverse])
        (by simp [posted_append, posted_reverse]) h
    · rw [heq]
      exact order_inv_push A B p0 c0 w _ (ids.map operation.handler)
        (ids.map operation.handler).reverse hidB hidBr (fun h6 => absurd h6 hidAr)
        (by simp) (by simp) (by simp)
        (by simp [completions_append, completions_reverse])
        (by simp [posted_append, posted_reverse]) h
  | do_dispatch id =>
    simp only [perform, sat]
    rw [do_dispatch_eq]
    exact order_inv_slow_post A B hAB p0 c0 w _ id (by simp) (by simp) (by simp)
      (by simp [completions]) (by simp [posted]) h
  | work_started => exact order_inv_congr A B p0 c0 w _ rfl rfl rfl rfl rfl h
  | work_finished =>
    exact order_inv_congr A B p0 c0 w _ (by simp) (by simp) (by simp) (by simp) (by simp) h
  | compensating_work_started =>
    simp only [perform, sat]
    unfold compensating_work_started update_this_thread
    split
    · exact h
    · rename_i t rest hst
      exact order_inv_private A B p0 c0 w _ t _ rest [] [] (by simp) (by simp) (by simp) hst rfl
        (by simp) rfl rfl rfl (by simp) h
  | abandon_operations ids => exact h
  | raise => exact h

/-- Popping the head of the main queue, when it is not `A`: `A` keeps its place
with no `B` before it, and the head is not `B`. -/
theorem ahead_pop (A B : Nat) (o : operation) (q : List operation)
    (ho : o ≠ operation.handler A)
    (h : ∃ pre rest, o :: q = pre ++ operation.handler A :: rest ∧ operation.handler B ∉ pre) :
    o ≠ operation.handler B
    ∧ ∃ pre rest, q = pre ++ operation.handler A :: rest ∧ operation.handler B ∉ pre := by
  obtain ⟨pre, rest, hq, hp⟩ := h
  cases pre with
  | nil =>
    simp only [List.nil_append, List.cons.injEq] at hq
    exact absurd hq.1 ho
  | cons p pre =>
    simp only [List.cons_append, List.cons.injEq] at hq
    obtain ⟨rfl, rfl⟩ := hq
    simp only [List.mem_cons, not_or] at hp
    exact ⟨fun h => hp.1 h.symm, pre, rest, rfl, hp.2⟩

/-- The head of the main queue, not `B`, leaves the queue and the operations
`ops`, without `B`, join its tail; nothing is completed or posted. -/
theorem order_inv_rotate (A B : Nat) (p0 : List operation) (c0 : List Nat) (w w1 : world)
    (o : operation) (q ops : List operation) (ho : o ≠ operation.handler A)
    (hB : operation.handler B ∉ ops) (hq : w.op_queue_ = o :: q)
    (h1 : w1.stack = w.stack) (h2 : w1.op_queue_ = q ++ ops)
    (h3 : ∀ a ∈ w1.reactor, B ∉ a.ready) (h4 : completions w1.trace = completions w.trace)
    (h5 : posted w1.trace = posted w.trace)
    (h : order_inv A B p0 c0 w) : order_inv A B p0 c0 w1 := by
  obtain ⟨ha, _, pnew, cnew, hp, hc, hd⟩ := h
  refine ⟨by rw [h1]; exact ha, h3, pnew, cnew, by rw [h5, hp], by rw [h4]; exact hc, ?_⟩
  rcases hd with ⟨hn1, hn2, hn3, hn4⟩ | hd | ⟨hn, hahead⟩ | hd
  · left
    rw [hq] at hn2 hn4
    simp only [List.mem_cons, not_or] at hn2
    refine ⟨hn1, by rw [h2]; simp [hn2.2, hB], hn3, ?_⟩
    intro hA
    rcases hn4 hA with h6 | h6
    · simp only [List.mem_cons] at h6
      rcases h6 with h6 | h6
      · exact absurd h6.symm ho
      · exact Or.inl (by rw [h2]; simp [h6])
    · exact Or.inr h6
  · right; left
    exact hd
  · right; right; left
    rw [hq] at hahead
    obtain ⟨_, pre, rest, hq2, hpre⟩ := ahead_pop A B o q ho hahead
    exact ⟨hn, pre, rest ++ ops, by rw [h2, hq2]; simp, hpre⟩
  · right; right; right
    exact hd

theorem order_inv_task_step (A B : Nat) (p0 : List operation) (c0 : List Nat) (w w1 : world)
    (q : List operation) (usec : Int) (h : order_inv A B p0 c0 w)
    (hq : w.op_queue_ = operation.task_operation_ :: q)
    (hs : task_step { w with op_queue_ := q } w1 usec) : order_inv A B p0 c0 w1 := by
  obtain ⟨ready, rs, wt, hcase, rfl⟩ := hs
  have hb := h.2.1
  have hrs : ∀ a ∈ rs, B ∉ a.ready := by
    rcases hcase with ⟨_, _, h5⟩ | ⟨r, h5, _⟩
    · rw [h5]; simp
    · simp only at h5
      intro a ha
      exact hb a (by rw [h5]; simp [ha])
  have hready : operation.handler B ∉ ready.map operation.handler ++ [operation.task_operation_] := by
    rcases hcase with ⟨_, h5, _⟩ | ⟨r, h5, h6⟩
    · rw [h5]; simp
    · simp only at h5
      rw [h6]
      have := hb r (by rw [h5]; simp)
      simpa using this
  exact order_inv_rotate A B p0 c0 w _ operation.task_operation_ q
    (ready.map operation.handler ++ [operation.task_operation_]) (by simp) hready hq rfl
    (by simp) hrs (by simp [completions]) (by simp [posted]) h

/-- A user operation is popped from the head of the main queue and its
completion is recorded. -/
theorem order_inv_begin (A B : Nat) (p0 : List operation) (c0 : List Nat) (w w1 : world)
    (id : Nat) (q : List operation) (hq : w.op_queue_ = operation.handler id :: q)
    (h1 : w1.stack = w.stack) (h2 : w1.op_queue_ = q) (h3 : w1.reactor = w.reactor)
    (h4 : completions w1.trace = id :: completions w.trace)
    (h5 : posted w1.trace = posted w.trace)
    (h : order_inv A B p0 c0 w) : order_inv A B p0 c0 w1 := by
  obtain ⟨ha, hb, pnew, cnew, hp, hc, hd⟩ := h
  refine ⟨by rw [h1]; exact ha, by rw [h3]; exact hb, pnew, id :: cnew, by rw [h5, hp],
    by rw [h4, hc]; simp, ?_⟩
  rcases hd with ⟨hn1, hn2, hn3, hn4⟩ | hd | ⟨hn, hahead⟩ | ⟨older, newer, hcn, ho⟩
  · left
    rw [hq] at hn2 hn4
    simp only [List.mem_cons, not_or, operation.handler.injEq] at hn2
    refine ⟨hn1, by rw [h2]; exact hn2.2, ?_, ?_⟩
    · simp only [List.mem_cons, not_or]
      exact ⟨hn2.1, hn3⟩
    · intro hA
      rcases hn4 hA with h6 | h6
      · simp only [List.mem_cons, operation.handler.injEq] at h6
        rcases h6 with h6 | h6
        · exact Or.inr (by simp [h6])
        · exact Or.inl (by rw [h2]; exact h6)
      · exact Or.inr (by simp [h6])
  · right; left
    exact hd
  · by_cases hid : id = A
    · right; right; right
      exact ⟨cnew, [], by simp [hid], hn⟩
    · right; right; left
      rw [hq] at hahead
      have hne : operation.handler id ≠ operation.handler A := by
        intro h6; exact hid (operation.handler.inj h6)
      obtain ⟨hnb, hrest⟩ := ahead_pop A B _ q hne hahead
      refine ⟨?_, by rw [h2]; exact hrest⟩
      simp only [List.mem_cons, not_or]
      exact ⟨fun h6 => hnb (by rw [h6]), hn⟩
  · right; right; right
    exact ⟨older, id :: newer, by simp [hcn], ho⟩

/-- The order invariant is kept by every step of an execution in which `A` and
`B` are posted only through `do_dispatch` and the scheduler is not shut down. -/
theorem order_inv_preserved (e : env) (A B : Nat) (hAB : A ≠ B) (p0 : List operation)
    (c0 : List Nat) :
    preserved e (order_call A B) (order_inv A B p0 c0) (order_inv A B p0 c0) where
  on_prim := fun cmp fuel w cl ha hd _ h => order_inv_prim e A B hAB p0 c0 cmp fuel w cl ha hd h
  on_gate := fun w _ h =>
    order_inv_congr A B p0 c0 w _ (by simp) (by simp) (by simp) (by simp) (by simp) h
  on_enter := by
    intro w _ h
    obtain ⟨ha, hb, hc⟩ := h
    refine ⟨?_, hb, hc⟩
    intro t ht
    simp only [enter, List.mem_cons] at ht
    rcases ht with rfl | ht
    · simp [fresh_thread]
    · exact ha t ht
  on_leave := by
    intro w _ h
    obtain ⟨ha, hb, hc⟩ := h
    exact ⟨fun t ht => ha t (List.mem_of_mem_tail ht), hb, hc⟩
  on_splice := by
    intro w _ h
    unfold splice_outer
    split
    · split
      · rename_i t outer rest hst
        have ho : operation.handler B ∉ outer.private_op_queue :=
          h.1 outer (by rw [hst]; simp)
        have h2 : order_inv A B p0 c0
            { w with op_queue_ := w.op_queue_ ++ outer.private_op_queue } :=
          order_inv_push A B p0 c0 w _ outer.private_op_queue [] ho (by simp) (by simp) rfl rfl
            rfl rfl (by simp) h
        obtain ⟨ha, hb, hc⟩ := h2
        refine ⟨?_, hb, hc⟩
        simp only [hst] at ha
        intro u hu
        simp only [List.mem_cons] at hu
        rcases hu with rfl | rfl | hu
        · exact ha u (by simp)
        · simp
        · exact ha u (by simp [hu])
      · exact h
    · exact h
  on_begin := by
    intro w id q _ h hq
    exact order_inv_begin A B p0 c0 w _ id q hq (by simp [record]) (by simp [record])
      (by simp [record]) (by simp [record, completions]) (by simp [record, posted]) h
  on_finish := by
    intro w _ hne h
    cases hst : w.stack with
    | nil => exact absurd hst hne
    | cons t rest =>
      rw [work_cleanup_eq e w t rest hst]
      have ht : operation.handler B ∉ t.private_op_queue := h.1 t (by rw [hst]; simp)
      have hops : operation.handler B ∉ (if e.has_threads = true then t.private_op_queue else []) := by
        split
        · exact ht
        · simp
      have h2 : order_inv A B p0 c0
          { w with op_queue_ := w.op_queue_
            ++ (if e.has_threads = true then t.private_op_queue else []) } :=
        order_inv_push A B p0 c0 w _ _ [] hops (by simp) (by simp) rfl rfl rfl rfl (by simp) h
      obtain ⟨ha, hb, pnew, cnew, hp, hc, hd⟩ := h2
      refine ⟨?_, by simpa using hb, pnew, cnew, by simpa using hp, by simpa using hc,
        by simpa using hd⟩
      simp only [hst] at ha
      intro u hu
      simp only [List.mem_cons] at hu
      rcases hu with rfl | hu
      · simp only []
        split
        · simp
        · exact ht
      · exact ha u (by simp [hu])
  on_task := by
    intro w q more usec hd h hq
    obtain ⟨_, rest, hst⟩ := hd
    have hs := task_step_of_run_task { w with op_queue_ := q } more usec rest hst
    cases hr : run_task { w with op_queue_ := q } more usec with
    | returned w1 n => rw [hr] at hs; exact order_inv_task_step A B p0 c0 w w1 q usec h hq hs
    | threw w1 => rw [hr] at hs; exact order_inv_task_step A B p0 c0 w w1 q usec h hq hs
    | blocked w1 => trivial
    | out_of_fuel => trivial
  on_task_poll := by
    intro w q hd h hq
    obtain ⟨_, rest, hst⟩ := hd
    have hs := task_step_of_guarded { w with op_queue_ := q } 0 rest hst
    cases hr : on_exit task_cleanup (task_run { w with op_queue_ := q } 0) with
    | returned w1 n => rw [hr] at hs; exact order_inv_task_step A B p0 c0 w w1 q 0 h hq hs
    | threw w1 => rw [hr] at hs; exact order_inv_task_step A B p0 c0 w w1 q 0 h hq hs
    | blocked w1 => trivial
    | out_of_fuel => trivial
  on_timed_wait := fun w usec _ h =>
    order_inv_congr A B p0 c0 w _ rfl rfl rfl (by simp [record, completions])
      (by simp [record, posted]) h
  on_signal := fun w _ h =>
    order_inv_congr A B p0 c0 w _ (by simp) (by simp) (by simp) (by simp) (by simp) h


theorem outside_post (e : env) (cmp : world → Nat → outcome) (fuel : Nat) (w : world)
    (id : Nat) (c : call) (hst : w.stack = []) (hc : is_post_of id c) :
    ∃ w1, perform e cmp fuel w c = outcome.returned w1 0
      ∧ w1.op_queue_ = w.op_queue_ ++ [operation.handler id]
      ∧ w1.stack = w.stack
      ∧ w1.reactor = w.reactor
      ∧ completions w1.trace = completions w.trace
      ∧ posted w1.trace = operation.handler id :: posted w.trace := by
  rcases hc with rfl | rfl | ⟨b, rfl⟩
  · refine ⟨_, rfl, ?_, ?_, ?_, ?_, ?_⟩ <;> simp [do_dispatch_eq, completions, posted]
  · rcases post_deferred_completion_cases e w (operation.handler id) with
      ⟨t, rest, _, hst2, _⟩ | heq
    · rw [hst] at hst2; simp at hst2
    · refine ⟨_, rfl, ?_, ?_, ?_, ?_, ?_⟩ <;> simp [heq, completions, posted]
  · rcases post_immediate_completion_cases e w (operation.handler id) b with
      ⟨t, rest, _, hst2, _⟩ | heq
    · rw [hst] at hst2; simp at hst2
    · refine ⟨_, rfl, ?_, ?_, ?_, ?_, ?_⟩ <;> simp [heq, completions, posted]

theorem quiet_of_empty_stack (e : env) (w : world) (h : w.stack = []) : quiet e w := by
  intro _ t ht
  rw [h] at ht
  simp at ht

theorem driver_step_order (e : env) (A B : Nat) (hAB : A ≠ B) (p0 : List operation)
    (c0 : List Nat) (hh : ∀ id, ∀ c ∈ e.handlers id, order_call A B c) (fuel : Nat)
    (w : world) (c : call) (hc : driver_call A B c) (hinv : order_inv A B p0 c0 w)
    (hst : w.stack = []) :
    sat (fun w1 => order_inv A B p0 c0 w1 ∧ w1.stack = [])
      (perform e (complete e fuel) fuel w c) := by
  have hpost : ∀ id, is_post_of id c →
      sat (fun w1 => order_inv A B p0 c0 w1 ∧ w1.stack = [])
        (perform e (complete e fuel) fuel w c) := by
    intro id hid
    obtain ⟨w1, hp, hq1, hst1, hr1, hc1, hp1⟩ := outside_post e (complete e fuel) fuel w id c hst hid
    rw [hp]
    exact ⟨order_inv_slow_post A B hAB p0 c0 w w1 id hst1 hq1 hr1 hc1 hp1 hinv, by rw [hst1, hst]⟩
  rcases hc with hc | hc | hc
  · have hk := perform_keeps e (order_call A B) _ _ (order_inv_preserved e A B hAB p0 c0)
      (complete e fuel)
      (complete_ok e (order_call A B) _ _ (order_inv_preserved e A B hAB p0 c0) hh fuel)
      fuel w c hc (quiet_of_empty_stack e w hst) hinv
    cases hp : perform e (complete e fuel) fuel w c with
    | returned w1 m =>
      rw [hp] at hk
      exact ⟨hk.2.1, List.length_eq_zero.mp (by rw [hk.2.2, hst]; rfl)⟩
    | threw w1 =>
      rw [hp] at hk
      exact ⟨hk.2.1, List.length_eq_zero.mp (by rw [hk.2.2, hst]; rfl)⟩
    | blocked w1 => trivial
    | out_of_fuel => trivial
  · exact hpost A hc
  · exact hpost B hc

theorem script_order (e : env) (A B : Nat) (hAB : A ≠ B) (p0 : List operation)
    (c0 : List Nat) (hh : ∀ id, ∀ c ∈ e.handlers id, order_call A B c) (wf : world) (n : Nat) :
    ∀ (fuel : Nat) (w : world) (cs : List call), (∀ c ∈ cs, driver_call A B c) →
      order_inv A B p0 c0 w → w.stack = [] →
      script e fuel w cs = outcome.returned wf n → order_inv A B p0 c0 wf := by
  intro fuel
  induction fuel with
  | zero => intro w cs _ _ _ h; simp [script] at h
  | succ fuel ih =>
    intro w cs hcs hinv hst h
    cases cs with
    | nil =>
      simp only [script, outcome.returned.injEq] at h
      rw [← h.1]
      exact hinv
    | cons c cs =>
      simp only [script] at h
      have hk := driver_step_order e A B hAB p0 c0 hh fuel w c (hcs c (by simp)) hinv hst
      cases hp : perform e (complete e fuel) fuel w c with
      | returned w1 m =>
        rw [hp] at h hk
        exact ih w1 cs (fun c hc => hcs c (by simp [hc])) hk.1 hk.2 h
      | threw w1 =>
        rw [hp] at h hk
        exact ih w1 cs (fun c hc => hcs c (by simp [hc])) hk.1 hk.2 h
      | blocked w1 => rw [hp] at h; simp at h
      | out_of_fuel => rw [hp] at h; simp at h

/-- C3. Let `A` and `B` be two operations that reach the scheduler only by the
slow path: through `do_dispatch`, called by the test driver or by any handler,
or through `post_immediate_completion` or `post_deferred_completion` called by
the test driver outside a drive.  The driver and the handlers otherwise make
any calls (drives, other posts, `stop`, `restart`, ...) short of `shutdown`, and
`B` is not already queued or held by the reactor.  If the sequence runs to its
end, then with `pnew` the posts and `cnew` the completions it made (newest
first): if a push of `A` precedes the first push of `B`, then whenever `B` was
completed, `A` was completed at a point before which `B` had not been:
`complete` is invoked on `A` strictly before it is on `B`. -/
theorem pushed_first_completed_first (e : env) (A B : Nat) (hAB : A ≠ B)
    (hh : ∀ id, ∀ c ∈ e.handlers id, order_call A B c) (w0 : world) (hst : w0.stack = [])
    (hq0 : operation.handler B ∉ w0.op_queue_) (hr0 : ∀ a ∈ w0.reactor, B ∉ a.ready)
    (cs : List call) (hcs : ∀ c ∈ cs, driver_call A B c) (fuel : Nat) (wf : world) (n : Nat)
    (h : script e fuel w0 cs = outcome.returned wf n) :
    ∃ pnew cnew, posted wf.trace = pnew ++ posted w0.trace
      ∧ completions wf.trace = cnew ++ completions w0.trace
      ∧ (posted_before A B pnew → B ∈ cnew → completed_before A B cnew) := by
  have h0 : order_inv A B (posted w0.trace) (completions w0.trace) w0 := by
    refine ⟨by rw [hst]; simp, hr0, [], [], by simp, by simp, Or.inl ⟨by simp, hq0, by simp, ?_⟩⟩
    intro hA
    simp at hA
  obtain ⟨_, _, pnew, cnew, hp, hc, hd⟩ :=
    script_order e A B hAB _ _ hh wf n fuel w0 cs hcs h0 hst h
  refine ⟨pnew, cnew, hp, hc, ?_⟩
  intro hpb hB
  rcases hd with ⟨_, _, hn, _⟩ | hd | ⟨hn, _⟩ | hd
  · exact absurd hB hn
  · exact absurd hpb hd
  · exact absurd hB hn
  · exact hd

theorem pushed_first_completed_first_witness :
    ∃ pnew cnew,
      posted [event.complete 2, event.post (operation.handler 2), event.complete 1,
          event.post (operation.handler 1)] = pnew ++ posted []
      ∧ completions [event.complete 2, event.post (operation.handler 2), event.complete 1,
          event.post (operation.handler 1)] = cnew ++ completions []
      ∧ (posted_before 1 2 pnew → 2 ∈ cnew → completed_before 1 2 cnew) :=
  pushed_first_completed_first
    { handlers := fun id => if id = 1 then [call.do_dispatch 2] else []
      has_threads := true, size_max := 100 } 1 2 (by decide)
    (by
      intro id c hc
      by_cases h1 : id = 1
      · simp only [h1, if_true, List.mem_singleton] at hc
        subst hc
        exact ⟨Or.inl rfl, Or.inr (by simp [posts_of]), by simp⟩
      · simp [h1] at hc)
    (scheduler_new 0 true true []) rfl (by simp [scheduler_new])
    (by simp [scheduler_new]) [call.post_immediate_completion 1 false, call.run]
    (by
      intro c hc
      simp only [List.mem_cons, List.mem_singleton, List.mem_nil_iff, or_false] at hc
      rcases hc with rfl | rfl
      · exact Or.inr (Or.inl (Or.inr (Or.inr ⟨false, rfl⟩)))
      · exact Or.inl ⟨Or.inr (by simp [posts_of]), Or.inr (by simp [posts_of]), by simp⟩)
    20
    { one_thread_ := false, task_ := false, task_interrupted_ := true,
      outstanding_work_ := 0, op_queue_ := [], stopped_ := true, shutdown_ := false,
      stack := [], reactor := [], waiters := 0, ec := 0,
      trace := [event.complete 2, event.post (operation.handler 2), event.complete 1,
        event.post (operation.handler 1)] } 0 (by decide)

/-! ## `stop` twice, and the wake-up arbitration -/

/-- C16. For every world, `stop(); stop()` leaves exactly the world a single
`stop()` leaves, history included, so the second `stop()` makes no
`task_->interrupt()`.  After `stop()`, `stopped_` is true, `task_interrupted_`
is true if it was or if a task is installed, and the main queue and
`outstanding_work_` are as before. -/
theorem stop_stop_eq_stop (w : world) :
    stop (stop w) = stop w
    ∧ (stop (stop w)).trace = (stop w).trace
    ∧ interrupts (stop (stop w)).trace = interrupts (stop w).trace
    ∧ (stop w).stopped_ = true
    ∧ (stop w).task_interrupted_ = (w.task_interrupted_ || w.task_)
    ∧ (stop w).op_queue_ = w.op_queue_
    ∧ (stop w).outstanding_work_ = w.outstanding_work_ := by
  have h : stop (stop w) = stop w := by
    rw [stop_eq (stop w), stop_eq w]
    cases w with
    | mk ot t ti W q st sh stack reactor waiters ec tr =>
      cases ti <;> cases t <;> simp
  refine ⟨h, by rw [h], by rw [h], ?_, ?_, ?_, ?_⟩ <;> simp [stop_eq]

theorem maybe_signal_woke (w : world) :
    (maybe_unlock_and_signal_one w).2 = decide (0 < w.waiters) := by
  unfold maybe_unlock_and_signal_one
  split <;> simp_all

theorem slow_post_wakes_or_interrupts (w : world) (ops : List operation) :
    (push_and_wake w ops).waiters + 1 = w.waiters
    ∨ (push_and_wake w ops).task_ = false
    ∨ (push_and_wake w ops).task_interrupted_ = true := by
  unfold push_and_wake
  rw [wake_eq]
  cases w with
  | mk ot t ti W q st sh stack reactor waiters ec tr =>
    cases waiters with
    | zero => cases ti <;> cases t <;> simp
    | succ n => left; simp

/-- C14. `wake_one_thread_and_unlock` adds a `task_->interrupt()` to the history
exactly when `maybe_unlock_and_signal_one` woke nobody (no waiter), a task is
installed and `task_interrupted_` is false, and it then sets
`task_interrupted_`.  So after `do_dispatch` and after each of the other three
posting functions, unless the post took the fast path (the main queue is then
as before), a waiter was woken, or no task is installed, or
`task_interrupted_` is true.  With `task_interrupted_` already true, neither
`wake_one_thread_and_unlock` nor `stop_all_threads` calls `interrupt()`. -/
theorem wake_interrupts_iff_nobody_woken (e : env) (w : world) (op : operation) (c : Bool)
    (ops : List operation) :
    (wake_one_thread_and_unlock w).trace =
        (if (maybe_unlock_and_signal_one w).2 = false ∧ w.task_ = true
            ∧ w.task_interrupted_ = false then event.interrupt :: w.trace else w.trace)
    ∧ (wake_one_thread_and_unlock w).task_interrupted_ =
        (w.task_interrupted_ || (!(maybe_unlock_and_signal_one w).2 && w.task_))
    ∧ (∀ p ∈ [do_dispatch w op, post_immediate_completion e w op c,
              post_deferred_completion e w op, post_deferred_completions e w ops],
        p.op_queue_ = w.op_queue_
        ∨ p.waiters + 1 = w.waiters ∨ p.task_ = false ∨ p.task_interrupted_ = true)
    ∧ (w.task_interrupted_ = true →
        (wake_one_thread_and_unlock w).trace = w.trace
        ∧ (stop_all_threads w).trace = w.trace) := by
  refine ⟨?_, ?_, ?_, ?_⟩
  · rw [wake_eq, maybe_signal_woke]
    cases w with
    | mk ot t ti W q st sh stack reactor waiters ec tr =>
      cases waiters <;> cases ti <;> cases t <;> simp
  · rw [wake_eq, maybe_signal_woke]
    cases w with
    | mk ot t ti W q st sh stack reactor waiters ec tr =>
      cases waiters <;> cases ti <;> cases t <;> simp
  · intro p hp
    simp only [List.mem_cons, List.mem_singleton, List.mem_nil_iff, or_false] at hp
    rcases hp with rfl | rfl | rfl | rfl
    · right
      exact slow_post_wakes_or_interrupts (work_started (record w (event.post op))) [op]
    · rcases post_immediate_completion_cases e w op c with ⟨t, rest, _, _, heq⟩ | heq
      · left; rw [heq]
      · right
        rw [heq]
        exact slow_post_wakes_or_interrupts
          { w with trace := event.post op :: w.trace
                   outstanding_work_ := w.outstanding_work_ + 1 } [op]
    · rcases post_deferred_completion_cases e w op with ⟨t, rest, _, _, heq⟩ | heq
      · left; rw [heq]
      · right
        rw [heq]
        exact slow_post_wakes_or_interrupts { w with trace := event.post op :: w.trace } [op]
    · rcases post_deferred_completions_cases e w ops with ⟨heq, _⟩ | ⟨t, rest, _, _, heq⟩ | heq
      · left; rw [heq]
      · left; rw [heq]
      · right
        rw [heq]
        exact slow_post_wakes_or_interrupts
          { w with trace := (ops.map event.post).reverse ++ w.trace } ops
  · intro hti
    constructor
    · rw [wake_eq]
      simp [hti]
    · have := stop_eq w
      unfold stop at this
      rw [this]
      simp [hti]

theorem wake_interrupts_iff_nobody_woken_witness :
    (wake_one_thread_and_unlock (scheduler_new 0 true true [])).trace
        = (scheduler_new 0 true true []).trace
    ∧ (stop_all_threads (scheduler_new 0 true true [])).trace
        = (scheduler_new 0 true true []).trace :=
  (wake_interrupts_iff_nobody_woken { handlers := fun _ => [], has_threads := true, size_max := 1 }
    (scheduler_new 0 true true []) (operation.handler 1) false []).2.2.2 rfl
/-! ## `abandon_operations` -/

/-- C15. `abandon_operations(ops)` leaves `ops` empty and the scheduler as it
was: the history gains no `complete` and no `destroy` (it gains nothing), and
the main queue, `outstanding_work_` and the flags are unchanged.  As a call it
returns in the same world. -/
theorem abandon_operations_detaches (e : env) (cmp : world → Nat → outcome) (fuel : Nat)
    (w : world) (ops : List operation) (ids : List Nat) :
    (abandon_operations w ops).2 = []
    ∧ (abandon_operations w ops).1 = w
    ∧ completions (abandon_operations w ops).1.trace = completions w.trace
    ∧ destroyed (abandon_operations w ops).1.trace = destroyed w.trace
    ∧ perform e cmp fuel w (call.abandon_operations ids) = outcome.returned w 0 :=
  ⟨rfl, rfl, rfl, rfl, rfl⟩

/-! ## The work count folded by `work_cleanup` -/

theorem exec_counts_privately (e : env) (ht : e.has_threads = true) (cs : List call) :
    ∀ (fuel : Nat) (w : world) (t : thread_info) (rest : List thread_info),
      (∀ c ∈ cs, counts_privately w.one_thread_ c) → w.stack = t :: rest →
      cs.length + 1 ≤ fuel →
      ∃ w1, exec e fuel w cs = outcome.returned w1 0
        ∧ w1.stack =
            { private_op_queue := t.private_op_queue ++ (posts_of_all cs).map operation.handler
              private_outstanding_work := t.private_outstanding_work + (cs.length : Int) } :: rest
        ∧ w1.outstanding_work_ = w.outstanding_work_
        ∧ w1.op_queue_ = w.op_queue_
        ∧ completions w1.trace = completions w.trace := by
  induction cs with
  | nil =>
    intro fuel w t rest _ hst hf
    obtain ⟨f, rfl⟩ : ∃ f, fuel = f + 1 := ⟨fuel - 1, by omega⟩
    refine ⟨w, rfl, ?_, rfl, rfl, rfl⟩
    rw [hst]
    simp [posts_of_all]
  | cons c cs ih =>
    intro fuel w t rest hcs hst hf
    obtain ⟨f, rfl⟩ : ∃ f, fuel = f + 1 := ⟨fuel - 1, by omega⟩
    have hc := hcs c (List.mem_cons_self _ _)
    have step : ∃ w0, perform e
          (fun w id => exec e f (record w (event.complete id)) (e.handlers id)) f w c
          = outcome.returned w0 0
        ∧ w0.stack =
            { private_op_queue := t.private_op_queue ++ (posts_of c).map operation.handler
              private_outstanding_work := t.private_outstanding_work + 1 } :: rest
        ∧ w0.outstanding_work_ = w.outstanding_work_
        ∧ w0.op_queue_ = w.op_queue_
        ∧ completions w0.trace = completions w.trace
        ∧ w0.one_thread_ = w.one_thread_ := by
      cases c with
      | post_immediate_completion id b =>
        have hb : (w.one_thread_ = true ∨ b = true) := by simpa [counts_privately] using hc
        refine ⟨_, rfl, ?_, ?_, ?_, ?_, ?_⟩ <;>
          simp [post_immediate_completion, ht, record, hst, hb, posts_of, completions]
      | compensating_work_started =>
        refine ⟨_, rfl, ?_, ?_, ?_, ?_, ?_⟩ <;>
          simp [compensating_work_started, update_this_thread, hst, posts_of]
      | _ => exact absurd hc (by simp [counts_privately])
    obtain ⟨w0, h0, h1, h2, h3, h4, h5⟩ := step
    obtain ⟨w1, g0, g1, g2, g3, g4⟩ := ih f w0 _ rest
      (fun c hc => by rw [h5]; exact hcs c (List.mem_cons_of_mem _ hc)) h1
      (by simp at hf ⊢; omega)
    refine ⟨w1, ?_, ?_, g2.trans h2, g3.trans h3, g4.trans h4⟩
    · simp only [exec, h0]
      exact g0
    · rw [g1]
      simp only [posts_of_all, List.map_append, List.append_assoc, List.length_cons]
      push_cast
      congr 2
      omega
theorem work_cleanup_count (e : env) (w : world) (t : thread_info) (rest : List thread_info)
    (h : w.stack = t :: rest) (hp : 0 ≤ t.private_outstanding_work) :
    (work_cleanup e w).outstanding_work_
        = w.outstanding_work_ + t.private_outstanding_work - 1
    ∧ (this_thread (work_cleanup e w)).private_outstanding_work = 0 := by
  rw [work_cleanup_eq e w t rest h]
  exact ⟨settle_work_outstanding_work w _ hp, rfl⟩

theorem complete_op_counts_privately (e : env) (ht : e.has_threads = true) (w : world)
    (more : Bool) (id : Nat) (outer : List thread_info) (hf : Nat)
    (hb : ∀ c ∈ e.handlers id, counts_privately w.one_thread_ c)
    (hst : w.stack = fresh_thread :: outer) :
    ∃ w1, complete_op e (complete e ((e.handlers id).length + 1 + hf)) w more id
        = outcome.returned w1 1
      ∧ w1.outstanding_work_ = w.outstanding_work_ + ((e.handlers id).length : Int) - 1
      ∧ w1.stack = fresh_thread :: outer
      ∧ w1.op_queue_ = w.op_queue_ ++ (posts_of_all (e.handlers id)).map operation.handler := by
  obtain ⟨w0, h0, h1, h2, h3, _⟩ := exec_counts_privately e ht (e.handlers id)
    ((e.handlers id).length + 1 + hf)
    (record (before_complete w more) (event.complete id))
    fresh_thread outer
    (by simpa [record] using hb) (by simp [record, hst]) (by omega)
  refine ⟨work_cleanup e w0, ?_, ?_, ?_, ?_⟩
  · exact complete_op_returned e _ _ w0 _ id 0 h0
  · rw [(work_cleanup_count e w0 _ outer h1 (by simp [fresh_thread])).1, h2]
    simp [record, fresh_thread]
  · rw [work_cleanup_eq e w0 _ outer h1]
    simp [ht, fresh_thread]
  · rw [work_cleanup_eq e w0 _ outer h1]
    simp [ht, fresh_thread, h3, record]

theorem handler_counts_privately (e : env) (ht : e.has_threads = true) (w : world) (id : Nat)
    (q : List operation) (outer : List thread_info) (hf fuel : Nat)
    (hb : ∀ c ∈ e.handlers id, counts_privately w.one_thread_ c)
    (hs : w.stopped_ = false) (hq : w.op_queue_ = operation.handler id :: q)
    (hst : w.stack = fresh_thread :: outer) :
    ∃ w1, do_run_one e (complete e ((e.handlers id).length + 1 + hf)) (fuel + 1) w
        = outcome.returned w1 1
      ∧ w1.outstanding_work_ = w.outstanding_work_ + ((e.handlers id).length : Int) - 1
      ∧ w1.stack = fresh_thread :: outer
      ∧ w1.op_queue_ = q ++ (posts_of_all (e.handlers id)).map operation.handler := by
  rw [do_run_one_handler e _ fuel w id q hs hq]
  exact complete_op_counts_privately e ht { w with op_queue_ := q } (!q.isEmpty) id outer hf
    hb hst

/-- C18. When a handler finishes with the worker's `private_outstanding_work`
equal to `p >= 0`, the destructor of `work_cleanup` leaves `outstanding_work_`
at its previous value `+ p - 1` and the private count at 0: unchanged for
`p = 1`, one less for `p = 0`.  And `p` is what the claim says: a handler whose
body is made of fast-path `post_immediate_completion` calls and
`compensating_work_started()` calls, run by `do_run_one` on a worker whose
`thread_info` is fresh, ends with `p` equal to the number of these calls, and
the step leaves `outstanding_work_` at its previous value plus that number
less one. -/
theorem work_cleanup_folds_private_work (e : env) (w : world) (t : thread_info)
    (rest : List thread_info) (h : w.stack = t :: rest)
    (hp : 0 ≤ t.private_outstanding_work) :
    (work_cleanup e w).outstanding_work_
        = w.outstanding_work_ + t.private_outstanding_work - 1
    ∧ (this_thread (work_cleanup e w)).private_outstanding_work = 0
    ∧ (t.private_outstanding_work = 1 →
        (work_cleanup e w).outstanding_work_ = w.outstanding_work_)
    ∧ (t.private_outstanding_work = 0 →
        (work_cleanup e w).outstanding_work_ = w.outstanding_work_ - 1)
    ∧ (e.has_threads = true → ∀ (w0 : world) (id : Nat) (q : List operation)
        (outer : List thread_info) (hf fuel : Nat),
        (∀ c ∈ e.handlers id, counts_privately w0.one_thread_ c) →
        w0.stopped_ = false → w0.op_queue_ = operation.handler id :: q →
        w0.stack = fresh_thread :: outer →
        ∃ w1, do_run_one e (complete e ((e.handlers id).length + 1 + hf)) (fuel + 1) w0
            = outcome.returned w1 1
          ∧ w1.outstanding_work_ = w0.outstanding_work_ + ((e.handlers id).length : Int) - 1
          ∧ (this_thread w1).private_outstanding_work = 0) := by
  have hc := work_cleanup_count e w t rest h hp
  refine ⟨hc.1, hc.2, ?_, ?_, ?_⟩
  · intro h1
    rw [hc.1, h1]
    omega
  · intro h0
    rw [hc.1, h0]
    omega
  · intro ht w0 id q outer hf fuel hb hs hq hst
    obtain ⟨w1, g0, g1, g2, _⟩ := handler_counts_privately e ht w0 id q outer hf fuel hb hs hq hst
    exact ⟨w1, g0, g1, by simp [this_thread, g2, fresh_thread]⟩

theorem work_cleanup_folds_private_work_witness :
    (work_cleanup { handlers := fun _ => [], has_threads := true, size_max := 1 }
        { one_thread_ := true, task_ := false, task_interrupted_ := true,
          outstanding_work_ := 1, op_queue_ := [], stopped_ := false, shutdown_ := false,
          stack := [{ private_op_queue := [operation.handler 2, operation.handler 3],
                      private_outstanding_work := 2 }],
          reactor := [], waiters := 0, ec := 0, trace := [] }).outstanding_work_
      = 1 + 2 - 1 :=
  (work_cleanup_folds_private_work { handlers := fun _ => [], has_threads := true, size_max := 1 }
    { one_thread_ := true, task_ := false, task_interrupted_ := true,
      outstanding_work_ := 1, op_queue_ := [], stopped_ := false, shutdown_ := false,
      stack := [{ private_op_queue := [operation.handler 2, operation.handler 3],
                  private_outstanding_work := 2 }],
      reactor := [], waiters := 0, ec := 0, trace := [] }
    { private_op_queue := [operation.handler 2, operation.handler 3],
      private_outstanding_work := 2 } [] rfl (by decide)).1
/-! ## Driving the reactor -/

/-- The guarded reactor call for any `thread_info` `t` of the worker: what the
reactor delivers goes behind what `t` already held, and `task_operation_`
behind that. -/
theorem guarded_task_run_any (w : world) (usec : Int) (t : thread_info)
    (rest : List thread_info) (h : w.stack = t :: rest) :
    on_exit task_cleanup (task_run w usec) =
      match w.reactor with
      | [] =>
        if usec < 0 then outcome.blocked (record w (event.task_run usec w.op_queue_))
        else
          outcome.returned
            { w with
              trace := event.task_run usec w.op_queue_ :: w.trace
              task_interrupted_ := true
              outstanding_work_ := if 0 < t.private_outstanding_work then
                w.outstanding_work_ + t.private_outstanding_work else w.outstanding_work_
              op_queue_ := w.op_queue_ ++ t.private_op_queue ++ [operation.task_operation_]
              stack := fresh_thread :: rest } 0
      | r :: rs =>
        if r.raises then
          outcome.threw
            { w with
              trace := event.task_run usec w.op_queue_ :: w.trace
              reactor := rs
              task_interrupted_ := true
              outstanding_work_ := if 0 < t.private_outstanding_work then
                w.outstanding_work_ + t.private_outstanding_work else w.outstanding_work_
              op_queue_ := w.op_queue_ ++ (t.private_op_queue ++ r.ready.map operation.handler)
                ++ [operation.task_operation_]
              stack := fresh_thread :: rest }
        else
          outcome.returned
            { w with
              trace := event.task_run usec w.op_queue_ :: w.trace
              reactor := rs
              task_interrupted_ := true
              outstanding_work_ := if 0 < t.private_outstanding_work then
                w.outstanding_work_ + t.private_outstanding_work else w.outstanding_work_
              op_queue_ := w.op_queue_ ++ (t.private_op_queue ++ r.ready.map operation.handler)
                ++ [operation.task_operation_]
              stack := fresh_thread :: rest } 0 := by
  rw [task_run_eq w usec t rest h]
  cases w with
  | mk ot tk ti W q st sh stack reactor waiters ec tr =>
    simp only at h
    subst h
    cases reactor with
    | nil =>
      simp only []
      split
      · rfl
      · simp only [on_exit]
        rw [task_cleanup_eq _ t rest rfl]
        simp [record]
    | cons r rs =>
      simp only []
      split
      · simp only [on_exit]
        rw [task_cleanup_eq _ _ rest rfl]
      · simp only [on_exit]
        rw [task_cleanup_eq _ _ rest rfl]

/-- The world in which `do_run_one` and `do_wait_one` enter the reactor after
popping `task_operation_` off `task_operation_ :: rest`. -/
theorem run_task_eq (w : world) (more : Bool) (usec : Int) :
    ∃ w0 : world, run_task w more usec = on_exit task_cleanup (task_run w0 usec)
      ∧ w0.task_interrupted_ = more ∧ w0.op_queue_ = w.op_queue_ ∧ w0.stack = w.stack
      ∧ w0.reactor = w.reactor ∧ w0.trace = w.trace
      ∧ w0.outstanding_work_ = w.outstanding_work_ ∧ w0.one_thread_ = w.one_thread_
      ∧ w0.stopped_ = w.stopped_ ∧ w0.task_ = w.task_ := by
  refine ⟨if (more && !w.one_thread_) = true then
      unlock_and_signal_one { w with task_interrupted_ := more }
    else { w with task_interrupted_ := more }, rfl, ?_⟩
  split <;> simp [unlock_and_signal_one]

theorem update_this_thread_trace (w : world) (f : thread_info → thread_info) :
    (update_this_thread w f).trace = w.trace := by
  unfold update_this_thread
  split <;> rfl

theorem task_cleanup_trace (w : world) : (task_cleanup w).trace = w.trace := by
  cases hst : w.stack with
  | nil =>
    cases w
    simp only at hst
    subst hst
    simp [task_cleanup, update_this_thread, this_thread, fresh_thread]
  | cons t rest => rw [task_cleanup_eq w t rest hst]

theorem task_run_trace (w : world) (usec : Int) :
    along (fun w1 => w1.trace = event.task_run usec w.op_queue_ :: w.trace)
      (task_run w usec) := by
  unfold task_run
  cases hr : w.reactor with
  | nil =>
    simp only [record, hr]
    split <;> simp [along]
  | cons r rs =>
    simp only [record, hr]
    split <;> simp [along, update_this_thread_trace]

theorem task_run_records (w : world) (usec : Int) :
    along (fun w1 => w1.trace = event.task_run usec w.op_queue_ :: w.trace)
      (on_exit task_cleanup (task_run w usec)) := by
  have h := task_run_trace w usec
  cases ho : task_run w usec with
  | returned w1 n => rw [ho] at h; simpa [on_exit, along, task_cleanup_trace] using h
  | threw w1 => rw [ho] at h; simpa [on_exit, along, task_cleanup_trace] using h
  | blocked w1 => rw [ho] at h; simpa [on_exit, along] using h
  | out_of_fuel => trivial
/-- C17. Let `do_run_one` find `task_operation_ :: rest` in the main queue, on a
worker whose `thread_info` is `t`, and let `usec` be 0 when `rest` is not empty
and -1 when it is.  The step enters the reactor in a world `w0` with
`task_interrupted_` equal to "`rest` is not empty" and the main queue `rest`;
the call made is `task_->run(usec, ...)`, recorded with the queue `rest`, so a
negative block time comes only with an empty `rest`.  When the reactor returns
the completions `cs` (its next answer, or nothing when it has no answer and was
polled), the step goes round the loop in a world whose main queue is
`rest ++ t.private_op_queue ++ cs ++ [task_operation_]`, that is
`rest ++ cs ++ [task_operation_]` for the empty private queue a worker has at
this point, with `task_interrupted_` true and the private queue empty. -/
theorem popped_sentinel_drives_reactor (e : env) (cmp : world → Nat → outcome) (fuel : Nat)
    (w : world) (rest : List operation) (t : thread_info) (outer : List thread_info)
    (usec : Int) (hu : usec = if rest.isEmpty then -1 else 0)
    (hs : w.stopped_ = false) (hq : w.op_queue_ = operation.task_operation_ :: rest)
    (hst : w.stack = t :: outer) :
    ∃ w0 : world,
      w0.task_interrupted_ = !rest.isEmpty
      ∧ w0.op_queue_ = rest
      ∧ do_run_one e cmp (fuel + 1) w =
          (match on_exit task_cleanup (task_run w0 usec) with
            | outcome.returned w1 _ => do_run_one e cmp fuel w1
            | o => o)
      ∧ along (fun w1 => w1.trace = event.task_run usec rest :: w.trace)
          (on_exit task_cleanup (task_run w0 usec))
      ∧ (usec < 0 → rest = [])
      ∧ ∀ cs : List Nat,
          ((∃ r rs, w.reactor = r :: rs ∧ r.raises = false ∧ cs = r.ready)
            ∨ (w.reactor = [] ∧ rest ≠ [] ∧ cs = [])) →
          ∃ w1, on_exit task_cleanup (task_run w0 usec) = outcome.returned w1 0
            ∧ do_run_one e cmp (fuel + 1) w = do_run_one e cmp fuel w1
            ∧ w1.op_queue_ = rest ++ t.private_op_queue ++ cs.map operation.handler
                ++ [operation.task_operation_]
            ∧ (t.private_op_queue = [] →
                w1.op_queue_ = rest ++ cs.map operation.handler ++ [operation.task_operation_])
            ∧ w1.task_interrupted_ = true
            ∧ (this_thread w1).private_op_queue = [] := by
  obtain ⟨w0, h0, h1, h2, h3, h4, h5, _⟩ :=
    run_task_eq { w with op_queue_ := rest } (!rest.isEmpty) usec
  simp only [] at h2 h3 h4 h5
  have hstep : do_run_one e cmp (fuel + 1) w =
      (match on_exit task_cleanup (task_run w0 usec) with
        | outcome.returned w1 _ => do_run_one e cmp fuel w1
        | o => o) := by
    rw [do_run_one_task e cmp fuel w rest hs hq, ← h0, hu]
    cases rest <;> rfl
  have hrec := task_run_records w0 usec
  rw [h2, h5] at hrec
  refine ⟨w0, h1, h2, hstep, hrec, ?_, ?_⟩
  · intro hneg
    rw [hu] at hneg
    cases rest with
    | nil => rfl
    | cons o os => simp at hneg
  · intro cs hcs
    have hg := guarded_task_run_any w0 usec t outer (by rw [h3]; exact hst)
    rcases hcs with ⟨r, rs, hr, hx, rfl⟩ | ⟨hr, hne, rfl⟩
    · rw [h4] at hg
      simp only [hr, hx, Bool.false_eq_true, if_false] at hg
      refine ⟨_, hg, by rw [hstep, hg], ?_, ?_, rfl, ?_⟩
      · simp [h2]
      · intro hp
        simp [h2, hp]
      · simp [this_thread, fresh_thread]
    · have hnn : ¬ usec < 0 := by
        rw [hu]
        cases rest with
        | nil => exact absurd rfl hne
        | cons o os => simp
      rw [h4] at hg
      simp only [hr, hnn, if_false] at hg
      refine ⟨_, hg, by rw [hstep, hg], ?_, ?_, rfl, ?_⟩
      · simp [h2]
      · intro hp
        simp [h2, hp]
      · simp [this_thread, fresh_thread]

theorem popped_sentinel_drives_reactor_witness :
    ∃ w0 : world,
      w0.task_interrupted_ = !([operation.handler 1] : List operation).isEmpty
      ∧ w0.op_queue_ = [operation.handler 1] :=
  let ⟨w0, h1, h2, _⟩ :=
    popped_sentinel_drives_reactor { handlers := fun _ => [], has_threads := true, size_max := 1 }
      (fun w _ => outcome.returned w 0) 0
      (enter (do_dispatch (init_task (scheduler_new 0 true true [])) (operation.handler 1)))
      [operation.handler 1] fresh_thread [] 0 rfl rfl rfl rfl
  ⟨w0, h1, h2⟩
/-! ## Exceptions leaving a handler or the reactor -/

theorem complete_op_raised (e : env) (cmp1 cmp2 : world → Nat → outcome)
    (h : ∀ w id, raised_instead (cmp1 w id) (cmp2 w id)) (w : world) (more : Bool) (id : Nat) :
    raised_instead (complete_op e cmp1 w more id) (complete_op e cmp2 w more id) := by
  unfold complete_op
  rcases h (before_complete w more) id with heq | ⟨w1, n, h1, h2⟩
  · rw [heq]
    exact Or.inl rfl
  · rw [h1, h2]
    exact Or.inr ⟨work_cleanup e w1, 1, rfl, rfl⟩

theorem complete_front_raised (e : env) (cmp1 cmp2 : world → Nat → outcome)
    (h : ∀ w id, raised_instead (cmp1 w id) (cmp2 w id)) (w : world) :
    raised_instead (complete_front e cmp1 w) (complete_front e cmp2 w) := by
  unfold complete_front
  split
  · exact Or.inl rfl
  · exact Or.inl rfl
  · exact complete_op_raised e cmp1 cmp2 h _ _ _

theorem do_run_one_raised (e : env) (cmp1 cmp2 : world → Nat → outcome)
    (h : ∀ w id, raised_instead (cmp1 w id) (cmp2 w id)) :
    ∀ (fuel : Nat) (w : world),
      raised_instead (do_run_one e cmp1 fuel w) (do_run_one e cmp2 fuel w) := by
  intro fuel
  induction fuel with
  | zero => intro w; exact Or.inl rfl
  | succ fuel ih =>
    intro w
    cases hs : w.stopped_ with
    | true =>
      rw [do_run_one_stopped e cmp1 fuel w hs, do_run_one_stopped e cmp2 fuel w hs]
      exact Or.inl rfl
    | false =>
      cases hq : w.op_queue_ with
      | nil =>
        rw [do_run_one_empty e cmp1 fuel w hs hq, do_run_one_empty e cmp2 fuel w hs hq]
        exact Or.inl rfl
      | cons o q =>
        cases o with
        | task_operation_ =>
          rw [do_run_one_task e cmp1 fuel w q hs hq, do_run_one_task e cmp2 fuel w q hs hq]
          cases run_task { w with op_queue_ := q } (!q.isEmpty) (if !q.isEmpty then 0 else -1) with
          | returned w1 n => exact ih w1
          | threw w1 => exact Or.inl rfl
          | blocked w1 => exact Or.inl rfl
          | out_of_fuel => exact Or.inl rfl
        | handler id =>
          rw [do_run_one_handler e cmp1 fuel w id q hs hq,
            do_run_one_handler e cmp2 fuel w id q hs hq]
          exact complete_op_raised e cmp1 cmp2 h _ _ _

theorem do_wait_one_raised (e : env) (cmp1 cmp2 : world → Nat → outcome)
    (h : ∀ w id, raised_instead (cmp1 w id) (cmp2 w id)) (w : world) (usec : Int) :
    raised_instead (do_wait_one e cmp1 w usec) (do_wait_one e cmp2 w usec) := by
  cases hs : w.stopped_ with
  | true =>
    rw [do_wait_one_stopped e cmp1 w usec hs, do_wait_one_stopped e cmp2 w usec hs]
    exact Or.inl rfl
  | false =>
    cases hq : w.op_queue_ with
    | nil =>
      rw [do_wait_one_empty e cmp1 w usec hs hq, do_wait_one_empty e cmp2 w usec hs hq]
      exact Or.inl rfl
    | cons o q =>
      cases o with
      | task_operation_ =>
        rw [do_wait_one_task e cmp1 w usec q hs hq, do_wait_one_task e cmp2 w usec q hs hq]
        cases run_task { w with op_queue_ := q } (!q.isEmpty)
            (if !q.isEmpty then 0 else usec) with
        | returned w1 n =>
          simp only []
          split
          · exact Or.inl rfl
          · exact complete_front_raised e cmp1 cmp2 h w1
        | threw w1 => exact Or.inl rfl
        | blocked w1 => exact Or.inl rfl
        | out_of_fuel => exact Or.inl rfl
      | handler id =>
        rw [do_wait_one_handler e cmp1 w usec id q hs hq,
          do_wait_one_handler e cmp2 w usec id q hs hq]
        exact complete_op_raised e cmp1 cmp2 h _ _ _

theorem do_poll_one_raised (e : env) (cmp1 cmp2 : world → Nat → outcome)
    (h : ∀ w id, raised_instead (cmp1 w id) (cmp2 w id)) (w : world) :
    raised_instead (do_poll_one e cmp1 w) (do_poll_one e cmp2 w) := by
  cases hs : w.stopped_ with
  | true =>
    rw [do_poll_one_stopped e cmp1 w hs, do_poll_one_stopped e cmp2 w hs]
    exact Or.inl rfl
  | false =>
    cases hq : w.op_queue_ with
    | nil =>
      rw [do_poll_one_empty e cmp1 w hs hq, do_poll_one_empty e cmp2 w hs hq]
      exact Or.inl rfl
    | cons o q =>
      cases o with
      | task_operation_ =>
        rw [do_poll_one_task e cmp1 w q hs hq, do_poll_one_task e cmp2 w q hs hq]
        cases on_exit task_cleanup (task_run { w with op_queue_ := q } 0) with
        | returned w1 n =>
          simp only []
          split
          · exact Or.inl rfl
          · exact complete_front_raised e cmp1 cmp2 h w1
        | threw w1 => exact Or.inl rfl
        | blocked w1 => exact Or.inl rfl
        | out_of_fuel => exact Or.inl rfl
      | handler id =>
        rw [do_poll_one_handler e cmp1 w id q hs hq, do_poll_one_handler e cmp2 w id q hs hq]
        exact complete_op_raised e cmp1 cmp2 h _ _ _
theorem complete_op_threw (e : env) (cmp : world → Nat → outcome) (w w1 : world)
    (more : Bool) (id : Nat) (h : cmp (before_complete w more) id = outcome.threw w1) :
    complete_op e cmp w more id = outcome.threw (work_cleanup e w1) := by
  simp only [complete_op, h, on_exit]

theorem guarded_task_run_raises (w : world) (usec : Int) (t : thread_info)
    (outer : List thread_info) (r : reply) (rs : List reply) (hst : w.stack = t :: outer)
    (hr : w.reactor = r :: rs) (hx : r.raises = true) :
    ∃ w2, on_exit task_cleanup (task_run w usec) = outcome.threw w2
      ∧ w2.op_queue_ = w.op_queue_ ++ (t.private_op_queue ++ r.ready.map operation.handler)
          ++ [operation.task_operation_]
      ∧ w2.stack = fresh_thread :: outer := by
  have hg := guarded_task_run_any w usec t outer hst
  simp only [hr, hx, if_true] at hg
  exact ⟨_, hg, rfl, rfl⟩

theorem run_task_raises (w : world) (more : Bool) (usec : Int) (t : thread_info)
    (outer : List thread_info) (r : reply) (rs : List reply) (hst : w.stack = t :: outer)
    (hr : w.reactor = r :: rs) (hx : r.raises = true) :
    ∃ w2, run_task w more usec = outcome.threw w2
      ∧ w2.op_queue_ = w.op_queue_ ++ (t.private_op_queue ++ r.ready.map operation.handler)
          ++ [operation.task_operation_]
      ∧ w2.stack = fresh_thread :: outer := by
  obtain ⟨w0, h0, _, h2, h3, h4, _⟩ := run_task_eq w more usec
  have hg := guarded_task_run_any w0 usec t outer (by rw [h3]; exact hst)
  rw [h4] at hg
  simp only [hr, hx, if_true] at hg
  exact ⟨_, by rw [h0, hg], by simp [h2], rfl⟩

theorem task_raises_in_step (e : env) (cmp : world → Nat → outcome) (fuel : Nat) (w : world)
    (usec : Int) (rest : List operation) (t : thread_info) (outer : List thread_info)
    (r : reply) (rs : List reply) (hs : w.stopped_ = false)
    (hq : w.op_queue_ = operation.task_operation_ :: rest) (hst : w.stack = t :: outer)
    (hr : w.reactor = r :: rs) (hx : r.raises = true) :
    ∀ o ∈ [do_run_one e cmp (fuel + 1) w, do_wait_one e cmp w usec, do_poll_one e cmp w],
      ∃ w2, o = outcome.threw w2
        ∧ w2.op_queue_ = rest ++ (t.private_op_queue ++ r.ready.map operation.handler)
            ++ [operation.task_operation_]
        ∧ w2.stack = fresh_thread :: outer := by
  intro o ho
  simp only [List.mem_cons, List.mem_singleton, List.mem_nil_iff, or_false] at ho
  rcases ho with rfl | rfl | rfl
  · obtain ⟨w2, h1, h2, h3⟩ := run_task_raises { w with op_queue_ := rest } (!rest.isEmpty)
      (if !rest.isEmpty then 0 else -1) t outer r rs hst hr hx
    exact ⟨w2, by rw [do_run_one_task e cmp fuel w rest hs hq, h1], h2, h3⟩
  · obtain ⟨w2, h1, h2, h3⟩ := run_task_raises { w with op_queue_ := rest } (!rest.isEmpty)
      (if !rest.isEmpty then 0 else usec) t outer r rs hst hr hx
    exact ⟨w2, by rw [do_wait_one_task e cmp w usec rest hs hq, h1], h2, h3⟩
  · obtain ⟨w2, h1, h2, h3⟩ := guarded_task_run_raises { w with op_queue_ := rest } 0 t outer
      r rs hst hr hx
    exact ⟨w2, by rw [do_poll_one_task e cmp w rest hs hq, h1], h2, h3⟩

theorem step_exception_leaves_drive (e : env) (cmp : world → Nat → outcome) (fuel : Nat)
    (w w2 : world) (usec : Int) (n : Nat) (hW : w.outstanding_work_ ≠ 0) :
    (do_run_one e cmp fuel w = outcome.threw w2 →
        run_loop e cmp (fuel + 1) w n = outcome.threw w2)
    ∧ (do_poll_one e cmp w = outcome.threw w2 →
        poll_loop e cmp (fuel + 1) w n = outcome.threw w2)
    ∧ (run_loop e cmp fuel (enter { w with ec := 0 }) 0 = outcome.threw w2 →
        run e cmp fuel w = outcome.threw (leave w2))
    ∧ (do_run_one e cmp fuel (enter { w with ec := 0 }) = outcome.threw w2 →
        run_one e cmp fuel w = outcome.threw (leave w2))
    ∧ (do_wait_one e cmp (enter { w with ec := 0 }) usec = outcome.threw w2 →
        wait_one e cmp w usec = outcome.threw (leave w2))
    ∧ (poll_loop e cmp fuel (splice_outer e (enter { w with ec := 0 })) 0 = outcome.threw w2 →
        poll e cmp fuel w = outcome.threw (leave w2))
    ∧ (do_poll_one e cmp (splice_outer e (enter { w with ec := 0 })) = outcome.threw w2 →
        poll_one e cmp w = outcome.threw (leave w2)) := by
  refine ⟨?_, ?_, ?_, ?_, ?_, ?_, ?_⟩
  · intro h; simp only [run_loop, h]
  · intro h; simp only [poll_loop, h]
  · intro h; simp [run, hW, h, on_exit]
  · intro h; simp [run_one, hW, h, on_exit]
  · intro h; simp [wait_one, hW, h, on_exit]
  · intro h; simp [poll, hW, h, on_exit]
  · intro h; simp [poll_one, hW, h, on_exit]

/-- C13. A handler that raises and a handler that returns, having done the same
to the world (`cmp1` and `cmp2`), are told apart by `do_run_one`, `do_wait_one`
and `do_poll_one` only in how the step ends: by the exception, or with 1; the
world left behind is the same, the one `work_cleanup` makes of the handler's
world `w1`: `outstanding_work_` settled, the private queue spliced behind the
main queue and left empty, the private count 0.  The exception leaves the loop
and the drive method, which unregisters its `thread_info` on the way.  And when
`task_->run` raises, the step ends by that exception with the private queue,
what the reactor delivered included, spliced behind the main queue and
`task_operation_` pushed after it. -/
theorem exception_runs_cleanup (e : env) (cmp1 cmp2 : world → Nat → outcome)
    (h : ∀ w id, raised_instead (cmp1 w id) (cmp2 w id)) (fuel : Nat) (w : world)
    (usec : Int) :
    raised_instead (do_run_one e cmp1 fuel w) (do_run_one e cmp2 fuel w)
    ∧ raised_instead (do_wait_one e cmp1 w usec) (do_wait_one e cmp2 w usec)
    ∧ raised_instead (do_poll_one e cmp1 w) (do_poll_one e cmp2 w)
    ∧ (∀ id q w1, w.stopped_ = false → w.op_queue_ = operation.handler id :: q →
        cmp1 (before_complete { w with op_queue_ := q } (!q.isEmpty)) id = outcome.threw w1 →
        do_run_one e cmp1 (fuel + 1) w = outcome.threw (work_cleanup e w1)
        ∧ do_wait_one e cmp1 w usec = outcome.threw (work_cleanup e w1)
        ∧ do_poll_one e cmp1 w = outcome.threw (work_cleanup e w1))
    ∧ (∀ w1 t rest, w1.stack = t :: rest → 0 ≤ t.private_outstanding_work →
        e.has_threads = true →
        (work_cleanup e w1).outstanding_work_
            = w1.outstanding_work_ + t.private_outstanding_work - 1
        ∧ (work_cleanup e w1).op_queue_ = w1.op_queue_ ++ t.private_op_queue
        ∧ (work_cleanup e w1).stack = fresh_thread :: rest)
    ∧ (∀ w2 n, w.outstanding_work_ ≠ 0 →
        (do_run_one e cmp1 fuel w = outcome.threw w2 →
            run_loop e cmp1 (fuel + 1) w n = outcome.threw w2)
        ∧ (do_poll_one e cmp1 w = outcome.threw w2 →
            poll_loop e cmp1 (fuel + 1) w n = outcome.threw w2)
        ∧ (run_loop e cmp1 fuel (enter { w with ec := 0 }) 0 = outcome.threw w2 →
            run e cmp1 fuel w = outcome.threw (leave w2))
        ∧ (do_run_one e cmp1 fuel (enter { w with ec := 0 }) = outcome.threw w2 →
            run_one e cmp1 fuel w = outcome.threw (leave w2))
        ∧ (do_wait_one e cmp1 (enter { w with ec := 0 }) usec = outcome.threw w2 →
            wait_one e cmp1 w usec = outcome.threw (leave w2))
        ∧ (poll_loop e cmp1 fuel (splice_outer e (enter { w with ec := 0 })) 0
              = outcome.threw w2 →
            poll e cmp1 fuel w = outcome.threw (leave w2))
        ∧ (do_poll_one e cmp1 (splice_outer e (enter { w with ec := 0 })) = outcome.threw w2 →
            poll_one e cmp1 w = outcome.threw (leave w2)))
    ∧ (∀ rest t outer r rs, w.stopped_ = false →
        w.op_queue_ = operation.task_operation_ :: rest → w.stack = t :: outer →
        w.reactor = r :: rs → r.raises = true →
        ∀ o ∈ [do_run_one e cmp1 (fuel + 1) w, do_wait_one e cmp1 w usec, do_poll_one e cmp1 w],
          ∃ w2, o = outcome.threw w2
            ∧ w2.op_queue_ = rest ++ (t.private_op_queue ++ r.ready.map operation.handler)
                ++ [operation.task_operation_]
            ∧ w2.stack = fresh_thread :: outer) := by
  refine ⟨do_run_one_raised e cmp1 cmp2 h fuel w, do_wait_one_raised e cmp1 cmp2 h w usec,
    do_poll_one_raised e cmp1 cmp2 h w, ?_, ?_, ?_, ?_⟩
  · intro id q w1 hs hq hc
    refine ⟨?_, ?_, ?_⟩
    · rw [do_run_one_handler e cmp1 fuel w id q hs hq]
      exact complete_op_threw e cmp1 _ w1 _ id hc
    · rw [do_wait_one_handler e cmp1 w usec id q hs hq]
      exact complete_op_threw e cmp1 _ w1 _ id hc
    · rw [do_poll_one_handler e cmp1 w id q hs hq]
      exact complete_op_threw e cmp1 _ w1 _ id hc
  · intro w1 t rest hst hp ht
    refine ⟨(work_cleanup_count e w1 t rest hst hp).1, ?_, ?_⟩
    · rw [work_cleanup_eq e w1 t rest hst]
      simp [ht]
    · rw [work_cleanup_eq e w1 t rest hst]
      simp [ht, fresh_thread]
  · intro w2 n hW
    exact step_exception_leaves_drive e cmp1 fuel w w2 usec n hW
  · intro rest t outer r rs hs hq hst hr hx
    exact task_raises_in_step e cmp1 fuel w usec rest t outer r rs hs hq hst hr hx
theorem exception_runs_cleanup_witness :
    raised_instead
      (do_run_one { handlers := fun _ => [], has_threads := true, size_max := 1 }
        (complete { handlers := fun _ => [call.post_immediate_completion 2 true, call.raise]
                    has_threads := true, size_max := 1 } 3)
        1 (enter (do_dispatch (scheduler_new 0 true true []) (operation.handler 1))))
      (do_run_one { handlers := fun _ => [], has_threads := true, size_max := 1 }
        (complete { handlers := fun _ => [call.post_immediate_completion 2 true]
                    has_threads := true, size_max := 1 } 3)
        1 (enter (do_dispatch (scheduler_new 0 true true []) (operation.handler 1)))) :=
  (exception_runs_cleanup { handlers := fun _ => [], has_threads := true, size_max := 1 }
    (complete { handlers := fun _ => [call.post_immediate_completion 2 true, call.raise]
                has_threads := true, size_max := 1 } 3)
    (complete { handlers := fun _ => [call.post_immediate_completion 2 true]
                has_threads := true, size_max := 1 } 3)
    (fun w id => Or.inr
      ⟨post_immediate_completion { handlers := fun _ => [], has_threads := true, size_max := 1 }
          (record w (event.complete id)) (operation.handler 2) true, 0,
        by simp [complete, exec, perform, post_immediate_completion],
        by simp [complete, exec, perform, post_immediate_completion]⟩)
    1 (enter (do_dispatch (scheduler_new 0 true true []) (operation.handler 1))) 0).1
/-! ## The private queue after a worker step -/

theorem sat_true (o : outcome) : sat (fun _ => True) o := by
  cases o <;> trivial

theorem preserved_true (e : env) :
    preserved e (fun _ => True) (fun _ => True) (fun _ => True) where
  on_prim := fun _ _ _ _ _ _ _ _ => sat_true _
  on_gate := fun _ _ _ => trivial
  on_enter := fun _ _ _ => trivial
  on_leave := fun _ _ _ => trivial
  on_splice := fun _ _ _ => trivial
  on_begin := fun _ _ _ _ _ _ => trivial
  on_finish := fun _ _ _ _ => trivial
  on_task := fun _ _ _ _ _ _ _ => sat_true _
  on_task_poll := fun _ _ _ _ _ => sat_true _
  on_timed_wait := fun _ _ _ _ => trivial
  on_signal := fun _ _ _ => trivial

theorem fresh_of_keeps_d (e : env) (w : world) (o : outcome)
    (h : keeps_d e (fun _ => True) w o) :
    sat (fun w1 => (this_thread w1).private_op_queue = []
        ∧ (this_thread w1).private_outstanding_work = 0
        ∧ w1.stack.length = w.stack.length) o := by
  cases o with
  | returned w1 n =>
    obtain ⟨⟨_, rest, hr⟩, _, hl⟩ := h
    exact ⟨by simp [this_thread, hr, fresh_thread], by simp [this_thread, hr, fresh_thread], hl⟩
  | threw w1 =>
    obtain ⟨⟨_, rest, hr⟩, _, hl⟩ := h
    exact ⟨by simp [this_thread, hr, fresh_thread], by simp [this_thread, hr, fresh_thread], hl⟩
  | blocked w1 => trivial
  | out_of_fuel => trivial

/-- Whatever the handlers do (posts, nested drives, exceptions), a worker step
entered with the drive's fresh `thread_info` ends, by return or by exception,
with that `thread_info` fresh again. -/
theorem step_leaves_thread_fresh (e : env) (hf fuel : Nat) (w : world) (usec : Int)
    (rest : List thread_info) (hq : quiet e w) (hst : w.stack = fresh_thread :: rest) :
    ∀ o ∈ [do_run_one e (complete e hf) fuel w, do_wait_one e (complete e hf) w usec,
            do_poll_one e (complete e hf) w],
      sat (fun w1 => (this_thread w1).private_op_queue = []
          ∧ (this_thread w1).private_outstanding_work = 0
          ∧ w1.stack.length = w.stack.length) o := by
  have hc : handler_ok e (fun _ => True) (complete e hf) :=
    complete_ok e (fun _ => True) _ _ (preserved_true e) (fun _ _ _ => trivial) hf
  have hd : at_drive e w := ⟨hq, rest, hst⟩
  intro o ho
  simp only [List.mem_cons, List.mem_singleton, List.mem_nil_iff, or_false] at ho
  rcases ho with rfl | rfl | rfl
  · exact fresh_of_keeps_d e w _
      (do_run_one_keeps e _ _ _ (preserved_true e) _ hc fuel w hd trivial)
  · exact fresh_of_keeps_d e w _
      (do_wait_one_keeps e _ _ _ (preserved_true e) _ hc w usec hd trivial)
  · exact fresh_of_keeps_d e w _
      (do_poll_one_keeps e _ _ _ (preserved_true e) _ hc w hd trivial)

theorem reactor_completions_spliced (w : world) (usec : Int) (rest : List thread_info)
    (r : reply) (rs : List reply) (hst : w.stack = fresh_thread :: rest)
    (hr : w.reactor = r :: rs) :
    along (fun w1 => w1.op_queue_
          = w.op_queue_ ++ r.ready.map operation.handler ++ [operation.task_operation_]
        ∧ w1.stack = fresh_thread :: rest)
      (on_exit task_cleanup (task_run w usec)) := by
  rw [guarded_task_run_eq w usec rest hst]
  simp only [hr]
  split <;> simp [along, hst]

/-- C19. Let `do_run_one`, `do_wait_one` or `do_poll_one` be entered as the
drive methods enter them, with the worker's `thread_info` fresh (empty private
queue, private count 0; in a build without threads no private queue holds
anything).  Whatever the handlers do, when the step returns or is left by an
exception the worker's private queue is empty and its private count 0.  What
was placed on the private queue has gone to the tail of the main queue, in
order and once: the completions the reactor delivers stand behind the main
queue of that moment (and in front of `task_operation_`), and the fast-path
posts of a handler stand, in posting order, behind the main queue that the
handler left. -/
theorem private_queue_spliced_in_order (e : env) (hf fuel : Nat) (w : world) (usec : Int)
    (rest : List thread_info) (hq : quiet e w) (hst : w.stack = fresh_thread :: rest) :
    (∀ o ∈ [do_run_one e (complete e hf) fuel w, do_wait_one e (complete e hf) w usec,
            do_poll_one e (complete e hf) w],
      sat (fun w1 => (this_thread w1).private_op_queue = []
          ∧ (this_thread w1).private_outstanding_work = 0
          ∧ w1.stack.length = w.stack.length) o)
    ∧ (∀ r rs, w.reactor = r :: rs →
        along (fun w1 => w1.op_queue_
              = w.op_queue_ ++ r.ready.map operation.handler ++ [operation.task_operation_]
            ∧ w1.stack = fresh_thread :: rest)
          (on_exit task_cleanup (task_run w usec)))
    ∧ (e.has_threads = true → ∀ id q hf1, w.stopped_ = false →
        w.op_queue_ = operation.handler id :: q →
        (∀ c ∈ e.handlers id, counts_privately w.one_thread_ c) →
        ∀ o ∈ [do_run_one e (complete e ((e.handlers id).length + 1 + hf1)) (fuel + 1) w,
               do_wait_one e (complete e ((e.handlers id).length + 1 + hf1)) w usec,
               do_poll_one e (complete e ((e.handlers id).length + 1 + hf1)) w],
          ∃ w1, o = outcome.returned w1 1
            ∧ w1.op_queue_ = q ++ (posts_of_all (e.handlers id)).map operation.handler
            ∧ w1.stack = fresh_thread :: rest) := by
  refine ⟨step_leaves_thread_fresh e hf fuel w usec rest hq hst, ?_, ?_⟩
  · intro r rs hr
    exact reactor_completions_spliced w usec rest r rs hst hr
  · intro ht id q hf1 hs hqu hb o ho
    obtain ⟨w1, h1, _, h3, h4⟩ := complete_op_counts_privately e ht { w with op_queue_ := q }
      (!q.isEmpty) id rest hf1 hb hst
    simp only [List.mem_cons, List.mem_singleton, List.mem_nil_iff, or_false] at ho
    rcases ho with rfl | rfl | rfl
    · exact ⟨w1, by rw [do_run_one_handler e _ fuel w id q hs hqu]; exact h1, h4, h3⟩
    · exact ⟨w1, by rw [do_wait_one_handler e _ w usec id q hs hqu]; exact h1, h4, h3⟩
    · exact ⟨w1, by rw [do_poll_one_handler e _ w id q hs hqu]; exact h1, h4, h3⟩
theorem private_queue_spliced_in_order_witness :
    ∃ w1, do_run_one
        { handlers := fun id => if id = 1 then [call.post_immediate_completion 2 true] else []
          has_threads := true, size_max := 100 }
        (complete
          { handlers := fun id => if id = 1 then [call.post_immediate_completion 2 true] else []
            has_threads := true, size_max := 100 } (1 + 1 + 0))
        (2 + 1) (enter (do_dispatch (scheduler_new 0 true true []) (operation.handler 1)))
        = outcome.returned w1 1
      ∧ w1.op_queue_ = [] ++ [operation.handler 2]
      ∧ w1.stack = [fresh_thread] :=
  (private_queue_spliced_in_order
    { handlers := fun id => if id = 1 then [call.post_immediate_completion 2 true] else []
      has_threads := true, size_max := 100 }
    3 2 (enter (do_dispatch (scheduler_new 0 true true []) (operation.handler 1))) 0 []
    (fun h => absurd h (by decide)) rfl).2.2 rfl 1 [] 0 rfl rfl
    (by
      intro c hc
      simp only [if_true, List.mem_singleton] at hc
      subst hc
      rfl)
    _ (List.mem_cons_self _ _)
/-! ## `do_wait_one` -/

theorem do_wait_one_among_nil (e : env) (cmp : world → Nat → outcome) (w : world)
    (usec : Int) : do_wait_one_among e cmp [] w usec = do_wait_one e cmp w usec := by
  cases hs : w.stopped_ with
  | true => simp [do_wait_one_among, do_wait_one, hs]
  | false =>
    cases hq : w.op_queue_ with
    | nil =>
      rw [do_wait_one_empty e cmp w usec hs hq]
      cases w
      simp only at hs hq
      subst hs hq
      simp [do_wait_one_among, complete_front, record]
    | cons o q =>
      unfold do_wait_one_among do_wait_one
      simp only [hs, hq, List.isEmpty_cons, Bool.false_eq_true, if_false]

theorem do_wait_one_among_waits (e : env) (cmp : world → Nat → outcome)
    (found : List operation) (w : world) (usec : Int) (hs : w.stopped_ = false)
    (hq : w.op_queue_ = []) :
    do_wait_one_among e cmp found w usec =
      if found.isEmpty then
        outcome.returned { record w (event.wait_for_usec usec) with op_queue_ := found } 0
      else do_wait_one e cmp { record w (event.wait_for_usec usec) with op_queue_ := found } 0 := by
  cases found with
  | nil => simp [do_wait_one_among, hs, hq, complete_front, record]
  | cons o q =>
    unfold do_wait_one_among do_wait_one
    simp only [hs, hq, List.isEmpty_nil, List.isEmpty_cons, Bool.false_eq_true, if_false,
      if_true, record]

theorem do_wait_one_among_ready (e : env) (cmp : world → Nat → outcome)
    (found : List operation) (w : world) (usec : Int)
    (h : w.stopped_ = true ∨ w.op_queue_ ≠ []) :
    do_wait_one_among e cmp found w usec = do_wait_one e cmp w usec := by
  cases hs : w.stopped_ with
  | true => simp [do_wait_one_among, do_wait_one, hs]
  | false =>
    cases hq : w.op_queue_ with
    | nil =>
      rcases h with h | h
      · rw [hs] at h; exact absurd h (by simp)
      · exact absurd hq h
    | cons o q =>
      unfold do_wait_one_among do_wait_one
      simp only [hs, hq, List.isEmpty_cons, Bool.false_eq_true, if_false]

theorem task_run_ends (w : world) (usec : Int) : task_run w usec ≠ outcome.out_of_fuel := by
  unfold task_run
  simp only []
  split <;> split <;> simp

theorem run_task_ends (w : world) (more : Bool) (usec : Int) :
    run_task w more usec ≠ outcome.out_of_fuel := by
  obtain ⟨w0, h0, _⟩ := run_task_eq w more usec
  rw [h0]
  have h := task_run_ends w0 usec
  cases hr : task_run w0 usec with
  | returned w1 n => simp [on_exit]
  | threw w1 => simp [on_exit]
  | blocked w1 => simp [on_exit]
  | out_of_fuel => exact absurd hr h

theorem run_task_trace (w : world) (more : Bool) (usec : Int) :
    along (fun w1 => w1.trace = event.task_run usec w.op_queue_ :: w.trace)
      (run_task w more usec) := by
  obtain ⟨w0, h0, _, h2, _, _, h5, _⟩ := run_task_eq w more usec
  have h := task_run_records w0 usec
  rw [h2, h5, ← h0] at h
  exact h

/-- One `do_wait_one` that finds the main queue not empty: no wait, at most one
`task_->run`, at most one handler. -/
theorem do_wait_one_ready (e : env) (cmp : world → Nat → outcome) (w : world) (usec : Int)
    (hs : w.stopped_ = false) (hne : w.op_queue_ ≠ []) :
    ∃ w1 rl, ends_at e cmp (do_wait_one e cmp w usec) w1
      ∧ w1.trace = rl ++ w.trace
      ∧ (rl = [] ∨ ∃ t q, rl = [event.task_run t q] ∧ (usec = 0 → t = 0)) := by
  cases hq : w.op_queue_ with
  | nil => exact absurd hq hne
  | cons o q =>
    cases o with
    | handler id =>
      refine ⟨{ w with op_queue_ := q }, [], Or.inr (Or.inr (Or.inr ⟨!q.isEmpty, id, ?_⟩)),
        rfl, Or.inl rfl⟩
      exact do_wait_one_handler e cmp w usec id q hs hq
    | task_operation_ =>
      rw [do_wait_one_task e cmp w usec q hs hq]
      have htr := run_task_trace { w with op_queue_ := q } (!q.isEmpty)
        (if !q.isEmpty then 0 else usec)
      have hne2 := run_task_ends { w with op_queue_ := q } (!q.isEmpty)
        (if !q.isEmpty then 0 else usec)
      have ht : usec = 0 → (if (!q.isEmpty) = true then (0 : Int) else usec) = 0 := by
        intro h0
        split
        · rfl
        · exact h0
      cases hr : run_task { w with op_queue_ := q } (!q.isEmpty)
          (if !q.isEmpty then 0 else usec) with
      | returned w' n =>
        rw [hr] at htr
        simp only [along] at htr
        simp only []
        cases hq' : w'.op_queue_ with
        | nil =>
          refine ⟨w', [event.task_run _ q], Or.inl ?_, htr, Or.inr ⟨_, _, rfl, ht⟩⟩
          simp [complete_front, hq']
        | cons o' q' =>
          cases o' with
          | task_operation_ =>
            refine ⟨if !w'.one_thread_ then (maybe_unlock_and_signal_one w').1 else w',
              [event.task_run _ q], Or.inl rfl, ?_, Or.inr ⟨_, _, rfl, ht⟩⟩
            split
            · rw [maybe_signal_trace]; exact htr
            · exact htr
          | handler id' =>
            refine ⟨{ w' with op_queue_ := q' }, [event.task_run _ q],
              Or.inr (Or.inr (Or.inr ⟨!q'.isEmpty, id', ?_⟩)), htr, Or.inr ⟨_, _, rfl, ht⟩⟩
            simp [complete_front, hq']
      | threw w' =>
        rw [hr] at htr
        exact ⟨w', [event.task_run _ q], Or.inr (Or.inl rfl), htr, Or.inr ⟨_, _, rfl, ht⟩⟩
      | blocked w' =>
        rw [hr] at htr
        exact ⟨w', [event.task_run _ q], Or.inr (Or.inr (Or.inl rfl)), htr,
          Or.inr ⟨_, _, rfl, ht⟩⟩
      | out_of_fuel => exact absurd hr hne2

/-- One `do_wait_one`, whatever other threads leave in the main queue during the
wait: at most one wait, then at most one `task_->run`, with block time 0 after
a wait, then at most one handler. -/
theorem do_wait_one_among_once (e : env) (cmp : world → Nat → outcome)
    (found : List operation) (w : world) (usec : Int) :
    ∃ w1 rl wl, ends_at e cmp (do_wait_one_among e cmp found w usec) w1
      ∧ w1.trace = rl ++ wl ++ w.trace
      ∧ (wl = [] ∨ wl = [event.wait_for_usec usec])
      ∧ (rl = [] ∨ ∃ t q, rl = [event.task_run t q] ∧ (wl ≠ [] → t = 0)) := by
  cases hs : w.stopped_ with
  | true =>
    rw [do_wait_one_among_ready e cmp found w usec (Or.inl hs),
      do_wait_one_stopped e cmp w usec hs]
    exact ⟨w, [], [], Or.inl rfl, rfl, Or.inl rfl, Or.inl rfl⟩
  | false =>
    cases hq : w.op_queue_ with
    | nil =>
      rw [do_wait_one_among_waits e cmp found w usec hs hq]
      cases hfd : found with
      | nil =>
        exact ⟨_, [], [event.wait_for_usec usec], Or.inl rfl, rfl, Or.inr rfl, Or.inl rfl⟩
      | cons o q =>
        simp only [List.isEmpty_cons, Bool.false_eq_true, if_false]
        obtain ⟨w1, rl, h1, h2, h3⟩ := do_wait_one_ready e cmp
          { record w (event.wait_for_usec usec) with op_queue_ := o :: q } 0 hs (by simp)
        refine ⟨w1, rl, [event.wait_for_usec usec], h1, ?_, Or.inr rfl, ?_⟩
        · rw [h2]; simp [record]
        · rcases h3 with h3 | ⟨t, q', h3, h4⟩
          · exact Or.inl h3
          · exact Or.inr ⟨t, q', h3, fun _ => h4 rfl⟩
    | cons o q =>
      rw [do_wait_one_among_ready e cmp found w usec (Or.inr (by rw [hq]; simp))]
      obtain ⟨w1, rl, h1, h2, h3⟩ := do_wait_one_ready e cmp w usec hs (by rw [hq]; simp)
      refine ⟨w1, rl, [], h1, by simpa using h2, Or.inl rfl, ?_⟩
      rcases h3 with h3 | ⟨t, q', h3, _⟩
      · exact Or.inl h3
      · exact Or.inr ⟨t, q', h3, fun h => absurd rfl h⟩
theorem do_wait_one_idle_reactor (e : env) (cmp : world → Nat → outcome) (w : world)
    (usec : Int) (t : thread_info) (outer : List thread_info) (hs : w.stopped_ = false)
    (hq : w.op_queue_ = [operation.task_operation_]) (hst : w.stack = t :: outer)
    (ht : t.private_op_queue = [])
    (hr : (w.reactor = [] ∧ 0 ≤ usec)
      ∨ ∃ r rs, w.reactor = r :: rs ∧ r.ready = [] ∧ r.raises = false) :
    ∃ w1, do_wait_one e cmp w usec = outcome.returned w1 0
      ∧ w1.op_queue_ = [operation.task_operation_]
      ∧ w1.trace = event.task_run usec [] :: w.trace := by
  rw [do_wait_one_task e cmp w usec [] hs hq]
  obtain ⟨w0, h0, _, h2, h3, h4, h5, _⟩ :=
    run_task_eq { w with op_queue_ := [] } (!([] : List operation).isEmpty)
      (if !([] : List operation).isEmpty then 0 else usec)
  simp only [List.isEmpty_nil, Bool.not_true, Bool.false_eq_true, if_false] at h0 ⊢
  simp only [] at h2 h3 h4 h5
  have hg := guarded_task_run_any w0 usec t outer (by rw [h3]; exact hst)
  rw [h4] at hg
  rcases hr with ⟨hr, hu⟩ | ⟨r, rs, hr, hrd, hx⟩
  · have hnn : ¬ usec < 0 := by omega
    simp only [hr, hnn, if_false] at hg
    rw [h0, hg]
    simp only [h2, ht, List.nil_append]
    refine ⟨_, rfl, ?_, ?_⟩
    · split <;> simp
    · split <;> simp [h5]
  · simp only [hr, hx, hrd, Bool.false_eq_true, if_false, List.map_nil, List.append_nil] at hg
    rw [h0, hg]
    simp only [h2, ht, List.nil_append]
    refine ⟨_, rfl, ?_, ?_⟩
    · split <;> simp
    · split <;> simp [h5]

/-- C12. One `do_wait_one` (`found` being what the main queue holds when a wait
is over; on a single thread it is what it held before, nothing) ends in one of
these ways: it returns 0, is left by an exception of the reactor or stays in
the reactor, in each case without having invoked a handler, or it completes
exactly one operation.  Up to that point it has added to the history at most
one wait, `wait_for_usec(usec)`, and after it at most one `task_->run`, whose
block time is 0 if the wait was made.  It returns 0 with no handler invoked
when the queue is still empty after the wait, and when `task_operation_` is
all the queue holds and the reactor delivers nothing, so that
`task_operation_` heads the queue again.  So `wait_one(usec)` on an empty queue
with `outstanding_work_` not 0 waits once and returns 0. -/
theorem do_wait_one_at_most_once (e : env) (cmp : world → Nat → outcome)
    (found : List operation) (w : world) (usec : Int) :
    (∃ w1 rl wl, ends_at e cmp (do_wait_one_among e cmp found w usec) w1
      ∧ w1.trace = rl ++ wl ++ w.trace
      ∧ (wl = [] ∨ wl = [event.wait_for_usec usec])
      ∧ (rl = [] ∨ ∃ t q, rl = [event.task_run t q] ∧ (wl ≠ [] → t = 0)))
    ∧ do_wait_one e cmp w usec = do_wait_one_among e cmp [] w usec
    ∧ (w.stopped_ = false → w.op_queue_ = [] →
        do_wait_one_among e cmp [] w usec
          = outcome.returned { record w (event.wait_for_usec usec) with op_queue_ := [] } 0)
    ∧ (∀ t outer, w.stopped_ = false → w.stack = t :: outer → t.private_op_queue = [] →
        ((w.reactor = [] ∧ (w.op_queue_ = [] ∨ 0 ≤ usec))
          ∨ ∃ r rs, w.reactor = r :: rs ∧ r.ready = [] ∧ r.raises = false) →
        (w.op_queue_ = [operation.task_operation_]
          ∨ (w.op_queue_ = [] ∧ found = [operation.task_operation_])) →
        ∃ w1, do_wait_one_among e cmp found w usec = outcome.returned w1 0
          ∧ w1.op_queue_ = [operation.task_operation_]
          ∧ completions w1.trace = completions w.trace)
    ∧ (w.stopped_ = false → w.op_queue_ = [] → w.outstanding_work_ ≠ 0 →
        ∃ w1, wait_one e cmp w usec = outcome.returned w1 0
          ∧ w1.trace = event.wait_for_usec usec :: w.trace
          ∧ w1.op_queue_ = []) := by
  refine ⟨do_wait_one_among_once e cmp found w usec,
    (do_wait_one_among_nil e cmp w usec).symm, ?_, ?_, ?_⟩
  · intro hs hq
    rw [do_wait_one_among_waits e cmp [] w usec hs hq]
    rfl
  · intro t outer hs hst ht hr hq
    rcases hq with hq | ⟨hq, hfd⟩
    · rw [do_wait_one_among_ready e cmp found w usec (Or.inr (by rw [hq]; simp))]
      have hr2 : (w.reactor = [] ∧ 0 ≤ usec)
          ∨ ∃ r rs, w.reactor = r :: rs ∧ r.ready = [] ∧ r.raises = false := by
        rcases hr with ⟨h1, h2⟩ | h
        · rcases h2 with h2 | h2
          · rw [hq] at h2; exact absurd h2 (by simp)
          · exact Or.inl ⟨h1, h2⟩
        · exact Or.inr h
      obtain ⟨w1, h1, h2, h3⟩ := do_wait_one_idle_reactor e cmp w usec t outer hs hq hst ht hr2
      exact ⟨w1, h1, h2, by rw [h3]; simp [completions]⟩
    · rw [do_wait_one_among_waits e cmp found w usec hs hq, hfd]
      simp only [List.isEmpty_cons, Bool.false_eq_true, if_false]
      have hr2 : (w.reactor = [] ∧ (0 : Int) ≤ 0)
          ∨ ∃ r rs, w.reactor = r :: rs ∧ r.ready = [] ∧ r.raises = false := by
        rcases hr with ⟨h1, _⟩ | h
        · exact Or.inl ⟨h1, le_refl _⟩
        · exact Or.inr h
      obtain ⟨w1, h1, h2, h3⟩ := do_wait_one_idle_reactor e cmp
        { record w (event.wait_for_usec usec) with op_queue_ := [operation.task_operation_] }
        0 t outer hs rfl hst ht hr2
      exact ⟨w1, h1, h2, by rw [h3]; simp [completions, record]⟩
  · intro hs hq hW
    refine ⟨leave (record (enter { w with ec := 0 }) (event.wait_for_usec usec)), ?_, ?_, ?_⟩
    · simp only [wait_one]
      rw [if_neg (by simpa using hW),
        do_wait_one_empty e cmp (enter { w with ec := 0 }) usec (by simpa [enter] using hs)
          (by simpa [enter] using hq)]
      rfl
    · simp [leave, record, enter]
    · simp [leave, record, enter, hq]
theorem do_wait_one_at_most_once_witness :
    ∃ w1, wait_one { handlers := fun _ => [], has_threads := true, size_max := 1 }
        (fun w _ => outcome.returned w 0) (work_started (scheduler_new 0 true true [])) 10000
        = outcome.returned w1 0
      ∧ w1.trace = event.wait_for_usec 10000
          :: (work_started (scheduler_new 0 true true [])).trace
      ∧ w1.op_queue_ = [] :=
  (do_wait_one_at_most_once { handlers := fun _ => [], has_threads := true, size_max := 1 }
    (fun w _ => outcome.returned w 0) []
    (work_started (scheduler_new 0 true true [])) 10000).2.2.2.2 rfl rfl (by decide)
/-! ## Polling -/

@[simp]
theorem wake_run_times (w : world) :
    run_times (wake_one_thread_and_unlock w).trace = run_times w.trace := by
  rw [wake_eq]; simp only []; split <;> simp [run_times]

@[simp]
theorem stop_run_times (w : world) :
    run_times (stop w).trace = run_times w.trace := by
  rw [stop_eq]; simp only []; split <;> simp [run_times]

@[simp]
theorem work_finished_run_times (w : world) :
    run_times (work_finished w).trace = run_times w.trace := by
  unfold work_finished; simp only []; split <;> simp

@[simp]
theorem before_complete_run_times (w : world) (more : Bool) :
    run_times (before_complete w more).trace = run_times w.trace := by
  unfold before_complete; split <;> simp

@[simp]
theorem settle_work_run_times (w : world) (p : Int) :
    run_times (settle_work w p).trace = run_times w.trace := by
  unfold settle_work; split
  · rfl
  · split <;> simp

theorem work_cleanup_trace (e : env) (w : world) :
    (work_cleanup e w).trace
      = (settle_work w (this_thread w).private_outstanding_work).trace := by
  unfold work_cleanup
  simp only []
  split <;> simp [update_this_thread_trace]

theorem splice_outer_trace (e : env) (w : world) : (splice_outer e w).trace = w.trace := by
  unfold splice_outer
  split
  · split <;> rfl
  · rfl

theorem polled_refl (w : world) : polled w w :=
  ⟨rfl, 0, by simp⟩

theorem polled_of_eq (w w1 : world) (h1 : waits w1.trace = waits w.trace)
    (h2 : run_times w1.trace = run_times w.trace) : polled w w1 :=
  ⟨h1, 0, by simp [h2]⟩

theorem polled_trans (w w1 w2 : world) (h1 : polled w w1) (h2 : polled w1 w2) :
    polled w w2 := by
  obtain ⟨a1, k1, b1⟩ := h1
  obtain ⟨a2, k2, b2⟩ := h2
  refine ⟨a2.trans a1, k2 + k1, ?_⟩
  rw [b2, b1, ← List.append_assoc, List.append_replicate_replicate]

theorem along_polled_trans (w w1 : world) (o : outcome) (h1 : polled w w1)
    (h2 : along (polled w1) o) : along (polled w) o := by
  cases o with
  | returned w2 n => exact polled_trans w w1 w2 h1 h2
  | threw w2 => exact polled_trans w w1 w2 h1 h2
  | blocked w2 => exact polled_trans w w1 w2 h1 h2
  | out_of_fuel => trivial

theorem complete_op_polled (e : env) (cmp : world → Nat → outcome)
    (hc : ∀ w id, along (polled w) (cmp w id)) (w : world) (more : Bool) (id : Nat) :
    along (polled w) (complete_op e cmp w more id) := by
  have h0 : polled w (before_complete w more) := polled_of_eq _ _ (by simp) (by simp)
  have hw : ∀ w1, polled w1 (work_cleanup e w1) := fun w1 =>
    polled_of_eq _ _ (by rw [work_cleanup_trace]; simp) (by rw [work_cleanup_trace]; simp)
  have h := hc (before_complete w more) id
  unfold complete_op
  cases hr : cmp (before_complete w more) id with
  | returned w1 n =>
    rw [hr] at h
    exact polled_trans _ _ _ h0 (polled_trans _ _ _ h (hw w1))
  | threw w1 =>
    rw [hr] at h
    exact polled_trans _ _ _ h0 (polled_trans _ _ _ h (hw w1))
  | blocked w1 =>
    rw [hr] at h
    exact polled_trans _ _ _ h0 h
  | out_of_fuel => trivial

theorem complete_front_polled (e : env) (cmp : world → Nat → outcome)
    (hc : ∀ w id, along (polled w) (cmp w id)) (w : world) :
    along (polled w) (complete_front e cmp w) := by
  unfold complete_front
  split
  · exact polled_refl w
  · exact polled_refl w
  · exact along_polled_trans w _ _ (polled_of_eq _ _ rfl rfl)
      (complete_op_polled e cmp hc _ _ _)

theorem do_poll_one_polled (e : env) (cmp : world → Nat → outcome)
    (hc : ∀ w id, along (polled w) (cmp w id)) (w : world) :
    along (polled w) (do_poll_one e cmp w) := by
  cases hs : w.stopped_ with
  | true => rw [do_poll_one_stopped e cmp w hs]; exact polled_refl w
  | false =>
    cases hq : w.op_queue_ with
    | nil => rw [do_poll_one_empty e cmp w hs hq]; exact polled_refl w
    | cons o q =>
      cases o with
      | handler id =>
        rw [do_poll_one_handler e cmp w id q hs hq]
        exact along_polled_trans w _ _ (polled_of_eq _ _ rfl rfl)
          (complete_op_polled e cmp hc _ _ _)
      | task_operation_ =>
        rw [do_poll_one_task e cmp w q hs hq]
        have htr := task_run_records { w with op_queue_ := q } 0
        have hp : ∀ w1 : world, w1.trace = event.task_run 0 q :: w.trace → polled w w1 := by
          intro w1 h1
          exact ⟨by rw [h1]; simp [waits], 1, by rw [h1]; simp [run_times]⟩
        cases hr : on_exit task_cleanup (task_run { w with op_queue_ := q } 0) with
        | returned w1 n =>
          rw [hr] at htr
          simp only []
          split
          · exact polled_trans _ _ _ (hp w1 htr) (polled_of_eq _ _ (by simp) (by simp))
          · exact along_polled_trans w w1 _ (hp w1 htr) (complete_front_polled e cmp hc w1)
        | threw w1 => rw [hr] at htr; exact hp w1 htr
        | blocked w1 => rw [hr] at htr; exact hp w1 htr
        | out_of_fuel => trivial

theorem poll_loop_polled (e : env) (cmp : world → Nat → outcome)
    (hc : ∀ w id, along (polled w) (cmp w id)) :
    ∀ (fuel : Nat) (w : world) (n : Nat), along (polled w) (poll_loop e cmp fuel w n) := by
  intro fuel
  induction fuel with
  | zero => intro w n; trivial
  | succ fuel ih =>
    intro w n
    have h := do_poll_one_polled e cmp hc w
    unfold poll_loop
    cases hr : do_poll_one e cmp w with
    | returned w1 r =>
      rw [hr] at h
      simp only []
      split
      · exact h
      · exact along_polled_trans w w1 _ h (ih w1 _)
    | threw w1 => rw [hr] at h; exact h
    | blocked w1 => rw [hr] at h; exact h
    | out_of_fuel => trivial

theorem along_on_exit_leave (w : world) (o : outcome) (h : along (polled w) o) :
    along (polled w) (on_exit leave o) := by
  cases o with
  | returned w1 n => exact h
  | threw w1 => exact h
  | blocked w1 => exact h
  | out_of_fuel => trivial

theorem poll_polled (e : env) (cmp : world → Nat → outcome)
    (hc : ∀ w id, along (polled w) (cmp w id)) (fuel : Nat) (w : world) :
    along (polled w) (poll e cmp fuel w) ∧ along (polled w) (poll_one e cmp w) := by
  have h0 : polled w (splice_outer e (enter { w with ec := 0 })) :=
    polled_of_eq _ _ (by rw [splice_outer_trace]; rfl) (by rw [splice_outer_trace]; rfl)
  have hg : polled w (stop { w with ec := 0 }) := polled_of_eq _ _ (by simp) (by simp)
  constructor
  · unfold poll
    simp only []
    split
    · exact hg
    · exact along_on_exit_leave w _ (along_polled_trans w _ _ h0 (poll_loop_polled e cmp hc _ _ _))
  · unfold poll_one
    simp only []
    split
    · exact hg
    · exact along_on_exit_leave w _ (along_polled_trans w _ _ h0 (do_poll_one_polled e cmp hc _))
theorem complete_op_not_blocked (e : env) (cmp : world → Nat → outcome)
    (hc : ∀ w id w1, cmp w id ≠ outcome.blocked w1) (w : world) (more : Bool) (id : Nat)
    (w1 : world) : complete_op e cmp w more id ≠ outcome.blocked w1 := by
  have h := hc (before_complete w more) id
  unfold complete_op
  cases hr : cmp (before_complete w more) id with
  | returned w2 n => simp [on_exit]
  | threw w2 => simp [on_exit]
  | blocked w2 => exact absurd hr (h w2)
  | out_of_fuel => simp [on_exit]

theorem complete_front_not_blocked (e : env) (cmp : world → Nat → outcome)
    (hc : ∀ w id w1, cmp w id ≠ outcome.blocked w1) (w w1 : world) :
    complete_front e cmp w ≠ outcome.blocked w1 := by
  unfold complete_front
  split
  · simp
  · simp
  · exact complete_op_not_blocked e cmp hc _ _ _ w1

theorem polled_reactor_returns (w : world) (w1 : world) :
    on_exit task_cleanup (task_run w 0) ≠ outcome.blocked w1 := by
  unfold task_run
  simp only [lt_irrefl, if_false]
  split
  · simp [on_exit]
  · split <;> simp [on_exit]

theorem do_poll_one_not_blocked (e : env) (cmp : world → Nat → outcome)
    (hc : ∀ w id w1, cmp w id ≠ outcome.blocked w1) (w w1 : world) :
    do_poll_one e cmp w ≠ outcome.blocked w1 := by
  cases hs : w.stopped_ with
  | true => rw [do_poll_one_stopped e cmp w hs]; simp
  | false =>
    cases hq : w.op_queue_ with
    | nil => rw [do_poll_one_empty e cmp w hs hq]; simp
    | cons o q =>
      cases o with
      | handler id =>
        rw [do_poll_one_handler e cmp w id q hs hq]
        exact complete_op_not_blocked e cmp hc _ _ _ w1
      | task_operation_ =>
        rw [do_poll_one_task e cmp w q hs hq]
        have hb := polled_reactor_returns { w with op_queue_ := q }
        cases hr : on_exit task_cleanup (task_run { w with op_queue_ := q } 0) with
        | returned w2 n =>
          simp only []
          split
          · simp
          · exact complete_front_not_blocked e cmp hc w2 w1
        | threw w2 => simp
        | blocked w2 => exact absurd hr (hb w2)
        | out_of_fuel => simp

theorem poll_loop_not_blocked (e : env) (cmp : world → Nat → outcome)
    (hc : ∀ w id w1, cmp w id ≠ outcome.blocked w1) :
    ∀ (fuel : Nat) (w : world) (n : Nat) (w1 : world),
      poll_loop e cmp fuel w n ≠ outcome.blocked w1 := by
  intro fuel
  induction fuel with
  | zero => intro w n w1; simp [poll_loop]
  | succ fuel ih =>
    intro w n w1
    have h := do_poll_one_not_blocked e cmp hc w
    unfold poll_loop
    cases hr : do_poll_one e cmp w with
    | returned w2 r =>
      simp only []
      split
      · simp
      · exact ih w2 _ w1
    | threw w2 => simp
    | blocked w2 => exact absurd hr (h w2)
    | out_of_fuel => simp

theorem on_exit_not_blocked (f : world → world) (o : outcome)
    (h : ∀ w1, o ≠ outcome.blocked w1) (w1 : world) : on_exit f o ≠ outcome.blocked w1 := by
  cases o with
  | returned w2 n => simp [on_exit]
  | threw w2 => simp [on_exit]
  | blocked w2 => exact absurd rfl (h w2)
  | out_of_fuel => simp [on_exit]

theorem poll_not_blocked (e : env) (cmp : world → Nat → outcome)
    (hc : ∀ w id w1, cmp w id ≠ outcome.blocked w1) (fuel : Nat) (w w1 : world) :
    poll e cmp fuel w ≠ outcome.blocked w1 ∧ poll_one e cmp w ≠ outcome.blocked w1 := by
  constructor
  · unfold poll
    simp only []
    split
    · simp
    · exact on_exit_not_blocked leave _ (poll_loop_not_blocked e cmp hc _ _ _) w1
  · unfold poll_one
    simp only []
    split
    · simp
    · exact on_exit_not_blocked leave _ (do_poll_one_not_blocked e cmp hc _) w1

theorem guarded_poll_nothing (w : world) (rest : List thread_info)
    (hst : w.stack = fresh_thread :: rest)
    (hr : w.reactor = [] ∨ ∃ r rs, w.reactor = r :: rs ∧ r.ready = [] ∧ r.raises = false) :
    ∃ w2, on_exit task_cleanup (task_run w 0) = outcome.returned w2 0
      ∧ w2.op_queue_ = w.op_queue_ ++ [operation.task_operation_]
      ∧ w2.trace = event.task_run 0 w.op_queue_ :: w.trace
      ∧ w2.stack = w.stack := by
  have hg := guarded_task_run_eq w 0 rest hst
  rcases hr with hr | ⟨r, rs, hr, hrd, hx⟩
  · simp only [hr, lt_irrefl, if_false] at hg
    exact ⟨_, hg, rfl, rfl, rfl⟩
  · simp only [hr, hx, hrd, Bool.false_eq_true, if_false, List.map_nil, List.append_nil] at hg
    exact ⟨_, hg, rfl, rfl, rfl⟩

theorem splice_outer_nothing (e : env) (w : world)
    (hn : e.has_threads = false ∨ w.one_thread_ = false ∨ w.stack = []
      ∨ ∃ t rest, w.stack = t :: rest ∧ t.private_op_queue = []) :
    splice_outer e (enter { w with ec := 0 }) = enter { w with ec := 0 } := by
  unfold splice_outer
  rcases hn with h | h | h | ⟨t, rest, h, hp⟩
  · simp [h]
  · simp [enter, h]
  · simp [enter, h]
  · split
    · cases w
      simp only at h
      subst h
      cases t
      simp only at hp
      subst hp
      simp [enter]
    · rfl

/-- `poll` on a queue that holds `task_operation_` alone, a reactor with nothing
to deliver, and nothing to splice from an enclosing drive. -/
theorem poll_idle_reactor (e : env) (fuel : Nat) (w : world)
    (hW : w.outstanding_work_ ≠ 0) (hs : w.stopped_ = false)
    (hq : w.op_queue_ = [operation.task_operation_])
    (hr : w.reactor = [] ∨ ∃ r rs, w.reactor = r :: rs ∧ r.ready = [] ∧ r.raises = false)
    (hn : e.has_threads = false ∨ w.one_thread_ = false ∨ w.stack = []
      ∨ ∃ t rest, w.stack = t :: rest ∧ t.private_op_queue = []) :
    ∃ w1, (∀ cmp : world → Nat → outcome,
        poll e cmp (fuel + 1) w = outcome.returned w1 0
        ∧ poll_one e cmp w = outcome.returned w1 0)
      ∧ w1.op_queue_ = [operation.task_operation_]
      ∧ w1.trace = event.task_run 0 [] :: w.trace
      ∧ w1.stack = w.stack := by
  obtain ⟨w2, g1, g2, g3, g4⟩ :=
    guarded_poll_nothing { enter { w with ec := 0 } with op_queue_ := [] } w.stack rfl hr
  simp only [] at g2 g3 g4
  have hstep : ∀ cmp : world → Nat → outcome,
      do_poll_one e cmp (enter { w with ec := 0 })
        = outcome.returned (maybe_unlock_and_signal_one w2).1 0 := by
    intro cmp
    rw [do_poll_one_task e cmp (enter { w with ec := 0 }) [] (by simpa [enter] using hs)
      (by simpa [enter] using hq), g1]
    simp only [g2, List.nil_append]
  have hsp := splice_outer_nothing e w hn
  refine ⟨leave (maybe_unlock_and_signal_one w2).1, ?_, by simp [leave, g2],
    by simpa [leave, enter] using g3, by simp [leave, g4, enter]⟩
  intro cmp
  constructor
  · simp only [poll]
    rw [if_neg (by simpa using hW), hsp, poll_loop, hstep cmp]
    simp [on_exit]
  · simp only [poll_one]
    rw [if_neg (by simpa using hW), hsp, hstep cmp]
    simp [on_exit]

/-- C11, as stated, fails.  On a one-thread scheduler with the reactor
installed, the handler of operation 1 has posted operation 2 on the fast path
and calls `poll`: `outstanding_work_` is 1, the scheduler is not stopped, the
main queue is exactly `[task_operation_]` and the reactor has nothing to
deliver.  `poll` first splices the private queue of the enclosing drive, so it
finds operation 2 behind `task_operation_`, invokes its handler and returns
1.  The second equation is a whole run that reaches this call. -/
theorem nested_poll_completes_spliced :
    poll
        { handlers := fun id =>
            if id = 1 then [call.post_immediate_completion 2 false, call.poll] else []
          has_threads := true, size_max := 100 }
        (complete
          { handlers := fun id =>
              if id = 1 then [call.post_immediate_completion 2 false, call.poll] else []
            has_threads := true, size_max := 100 } 5)
        5
        { one_thread_ := true, task_ := true, task_interrupted_ := true,
          outstanding_work_ := 1, op_queue_ := [operation.task_operation_], stopped_ := false,
          shutdown_ := false,
          stack := [{ private_op_queue := [operation.handler 2], private_outstanding_work := 1 }],
          reactor := [], waiters := 0, ec := 0,
          trace := [event.post (operation.handler 2), event.complete 1,
            event.task_run 0 [operation.handler 1], event.post (operation.handler 1)] }
      = outcome.returned
          { one_thread_ := true, task_ := true, task_interrupted_ := true,
            outstanding_work_ := 0, op_queue_ := [operation.task_operation_], stopped_ := true,
            shutdown_ := false,
            stack := [{ private_op_queue := [], private_outstanding_work := 1 }],
            reactor := [], waiters := 0, ec := 0,
            trace := [event.complete 2, event.task_run 0 [operation.handler 2],
              event.post (operation.handler 2), event.complete 1,
              event.task_run 0 [operation.handler 1], event.post (operation.handler 1)] } 1
    ∧ script
        { handlers := fun id =>
            if id = 1 then [call.post_immediate_completion 2 false, call.poll] else []
          has_threads := true, size_max := 100 }
        20 (scheduler_new 1 true true []) [call.init_task, call.do_dispatch 1, call.run_one]
      = outcome.returned
          { one_thread_ := true, task_ := true, task_interrupted_ := true,
            outstanding_work_ := 0, op_queue_ := [operation.task_operation_], stopped_ := true,
            shutdown_ := false, stack := [], reactor := [], waiters := 0, ec := 0,
            trace := [event.complete 2, event.task_run 0 [operation.handler 2],
              event.post (operation.handler 2), event.complete 1,
              event.task_run 0 [operation.handler 1], event.post (operation.handler 1)] } 0 := by
  decide

/-- C11, amended.  Whatever the state, `poll` and `poll_one` never wait on the
wake-up event and call `task_->run` only with block time 0: if the handlers
they invoke add no wait and no other `task_->run` to the history, neither do
they, however they end, and they stay blocked only if a handler does.  When
`outstanding_work_` is not 0, the scheduler is not stopped, the main queue is
exactly `[task_operation_]`, the reactor has nothing to deliver and no
enclosing drive of this thread holds operations to splice (there is none, or
its private queue is empty, or `one_thread_` is false), `poll` and `poll_one`
call `task_->run(0)` exactly once, invoke no handler (the result is the same
for every handler), return 0 and leave the main queue equal to
`[task_operation_]`. -/
theorem poll_never_waits (e : env) (cmp : world → Nat → outcome) (fuel : Nat) (w : world) :
    ((∀ w0 id, along (polled w0) (cmp w0 id)) →
        along (polled w) (poll e cmp fuel w) ∧ along (polled w) (poll_one e cmp w))
    ∧ ((∀ w0 id w1, cmp w0 id ≠ outcome.blocked w1) →
        ∀ w1, poll e cmp fuel w ≠ outcome.blocked w1 ∧ poll_one e cmp w ≠ outcome.blocked w1)
    ∧ (w.outstanding_work_ ≠ 0 → w.stopped_ = false →
        w.op_queue_ = [operation.task_operation_] →
        (w.reactor = [] ∨ ∃ r rs, w.reactor = r :: rs ∧ r.ready = [] ∧ r.raises = false) →
        (e.has_threads = false ∨ w.one_thread_ = false ∨ w.stack = []
          ∨ ∃ t rest, w.stack = t :: rest ∧ t.private_op_queue = []) →
        ∃ w1, (∀ cmp1 : world → Nat → outcome,
            poll e cmp1 (fuel + 1) w = outcome.returned w1 0
            ∧ poll_one e cmp1 w = outcome.returned w1 0)
          ∧ w1.op_queue_ = [operation.task_operation_]
          ∧ w1.trace = event.task_run 0 [] :: w.trace) := by
  refine ⟨fun hc => poll_polled e cmp hc fuel w, fun hc w1 => poll_not_blocked e cmp hc fuel w w1,
    ?_⟩
  intro hW hs hq hr hn
  obtain ⟨w1, h1, h2, h3, _⟩ := poll_idle_reactor e fuel w hW hs hq hr hn
  exact ⟨w1, h1, h2, h3⟩

theorem poll_never_waits_witness :
    ∃ w1, (∀ cmp1 : world → Nat → outcome,
        poll { handlers := fun _ => [], has_threads := true, size_max := 1 } cmp1 (0 + 1)
            (work_started (init_task (scheduler_new 0 true true []))) = outcome.returned w1 0
        ∧ poll_one { handlers := fun _ => [], has_threads := true, size_max := 1 } cmp1
            (work_started (init_task (scheduler_new 0 true true []))) = outcome.returned w1 0)
      ∧ w1.op_queue_ = [operation.task_operation_]
      ∧ w1.trace = event.task_run 0 []
          :: (work_started (init_task (scheduler_new 0 true true []))).trace :=
  (poll_never_waits { handlers := fun _ => [], has_threads := true, size_max := 1 }
    (fun w _ => outcome.returned w 0) 0
    (work_started (init_task (scheduler_new 0 true true [])))).2.2
    (by decide) rfl rfl (Or.inl rfl) (Or.inr (Or.inr (Or.inl rfl)))
/-! ## A nested `poll` -/

theorem work_finished_stopped (w : world) :
    (work_finished w).stopped_ = (w.stopped_ || decide (w.outstanding_work_ - 1 = 0)) := by
  unfold work_finished
  simp only []
  split
  · rename_i h
    have h1 : w.outstanding_work_ - 1 = 0 := by simpa using h
    simp [stop_eq, h1]
  · rename_i h
    have h1 : ¬ w.outstanding_work_ - 1 = 0 := by simpa using h
    simp [h1]

theorem do_poll_one_trivial (e : env) (hf : Nat) (w : world) (id : Nat)
    (q : List operation) (rest : List thread_info) (hh : e.handlers id = [])
    (hs : w.stopped_ = false) (h1 : w.one_thread_ = true)
    (hst : w.stack = fresh_thread :: rest) (hq : w.op_queue_ = operation.handler id :: q) :
    do_poll_one e (complete e (hf + 1)) w =
      outcome.returned
        (work_finished (record { w with op_queue_ := q } (event.complete id))) 1 := by
  rw [do_poll_one_handler e _ w id q hs hq]
  have hwk : before_complete { w with op_queue_ := q } (!q.isEmpty)
      = { w with op_queue_ := q } := by
    unfold before_complete
    simp [h1]
  rw [complete_op_returned e _ _ (record { w with op_queue_ := q } (event.complete id)) _ id 0
    (by rw [hwk]; exact complete_trivial e hf _ id hh)]
  rw [work_cleanup_fresh e _ rest (by simpa [record] using hst)]

theorem poll_loop_drains (e : env) (hf : Nat) (ids : List Nat) :
    ∀ (k : Nat) (w : world) (n fuel : Nat) (rest : List thread_info),
      (∀ id ∈ ids, e.handlers id = []) →
      w.one_thread_ = true → w.stopped_ = false →
      w.stack = fresh_thread :: rest →
      w.op_queue_ = ids.map operation.handler →
      w.outstanding_work_ = ((k + 1 : Nat) : Int) →
      n + ids.length ≤ e.size_max →
      ids.length + 2 ≤ fuel →
      ∃ w1, poll_loop e (complete e (hf + 1)) fuel w n
          = outcome.returned w1 (n + min (k + 1) ids.length)
        ∧ w1.op_queue_ = (ids.drop (k + 1)).map operation.handler
        ∧ completions w1.trace = (ids.take (k + 1)).reverse ++ completions w.trace
        ∧ w1.outstanding_work_ = ((k + 1 - min (k + 1) ids.length : Nat) : Int)
        ∧ w1.stack = w.stack
        ∧ w1.stopped_ = decide (k + 1 ≤ ids.length) := by
  induction ids with
  | nil =>
    intro k w n fuel rest _ _ hs _ hq hW _ hfuel
    obtain ⟨f, rfl⟩ : ∃ f, fuel = f + 1 := ⟨fuel - 1, by simp at hfuel; omega⟩
    refine ⟨w, ?_, by simpa using hq, by simp, by simpa using hW, rfl, by simpa using hs⟩
    rw [poll_loop, do_poll_one_empty e _ w hs (by simpa using hq)]
    simp
  | cons id ids ih =>
    intro k w n fuel rest hh h1 hs hst hq hW hn hfuel
    obtain ⟨f, rfl⟩ : ∃ f, fuel = f + 2 := ⟨fuel - 2, by simp at hfuel; omega⟩
    have hcu : count_up e n = n + 1 := count_up_lt e n (by simp at hn; omega)
    have hstep := do_poll_one_trivial e hf w id (ids.map operation.handler) rest
      (hh id (by simp)) hs h1 hst (by simpa using hq)
    have hW2 : (work_finished (record { w with op_queue_ := ids.map operation.handler }
        (event.complete id))).outstanding_work_ = (k : Int) := by
      rw [work_finished_outstanding_work]
      simp only [record, hW]
      push_cast
      omega
    have hst2 : (work_finished (record { w with op_queue_ := ids.map operation.handler }
        (event.complete id))).stopped_ = decide (k = 0) := by
      rw [work_finished_stopped]
      simp only [record, hs, hW, Bool.false_or]
      congr 1
      apply propext
      push_cast
      constructor <;> intro h <;> omega
    have hq2 : (work_finished (record { w with op_queue_ := ids.map operation.handler }
        (event.complete id))).op_queue_ = ids.map operation.handler := by
      simp [record]
    have hc2 : completions (work_finished (record { w with op_queue_ := ids.map operation.handler }
        (event.complete id))).trace = id :: completions w.trace := by
      simp [record, completions]
    have hk2 : (work_finished (record { w with op_queue_ := ids.map operation.handler }
        (event.complete id))).stack = w.stack := by
      simp [record]
    have h12 : (work_finished (record { w with op_queue_ := ids.map operation.handler }
        (event.complete id))).one_thread_ = true := by
      simpa [record] using h1
    generalize work_finished (record { w with op_queue_ := ids.map operation.handler }
        (event.complete id)) = w2 at hstep hW2 hst2 hq2 hc2 hk2 h12
    rw [poll_loop, hstep]
    simp only [hcu, if_neg (show ¬ (1 = 0) by decide)]
    cases k with
    | zero =>
      refine ⟨w2, ?_, by simpa using hq2, by simpa using hc2, ?_, hk2, by simpa using hst2⟩
      · rw [poll_loop, do_poll_one_stopped e _ w2 (by simpa using hst2)]
        simp
      · rw [hW2]
        simp
    | succ k =>
      obtain ⟨w1, g1, g2, g3, g4, g5, g6⟩ := ih k w2 (n + 1) (f + 1) rest
        (fun id hid => hh id (by simp [hid])) h12
        (by simpa using hst2) (by rw [hk2, hst]) hq2
        (by rw [hW2]) (by simp at hn ⊢; omega) (by simp at hfuel ⊢; omega)
      refine ⟨w1, ?_, ?_, ?_, ?_, ?_, ?_⟩
      · rw [g1]
        simp only [List.length_cons]
        congr 1
        omega
      · simpa using g2
      · rw [g3, hc2]
        simp
      · rw [g4]
        simp only [List.length_cons]
        congr 1
        omega
      · rw [g5, hk2]
      · rw [g6]
        simp

theorem splice_outer_nested (e : env) (w : world) (outer : thread_info)
    (rest : List thread_info) (ht : e.has_threads = true) (h1 : w.one_thread_ = true)
    (hst : w.stack = outer :: rest) :
    splice_outer e (enter { w with ec := 0 }) =
      { w with
        ec := 0
        op_queue_ := w.op_queue_ ++ outer.private_op_queue
        stack := fresh_thread :: { outer with private_op_queue := [] } :: rest } := by
  simp [splice_outer, enter, ht, h1, hst]

theorem splice_outer_untouched (e : env) (w : world)
    (h : e.has_threads = false ∨ w.one_thread_ = false) :
    splice_outer e (enter { w with ec := 0 }) =
      { w with ec := 0, stack := fresh_thread :: w.stack } := by
  rcases h with h | h <;> simp [splice_outer, enter, h]

theorem nested_poll_drains (e : env) (hf : Nat) (ms ps : List Nat) (k : Nat) (w : world)
    (fuel : Nat) (outer : thread_info) (rest : List thread_info)
    (ht : e.has_threads = true) (h1 : w.one_thread_ = true) (hs : w.stopped_ = false)
    (hst : w.stack = outer :: rest) (hp : outer.private_op_queue = ps.map operation.handler)
    (hq : w.op_queue_ = ms.map operation.handler)
    (hh : ∀ id ∈ ms ++ ps, e.handlers id = [])
    (hW : w.outstanding_work_ = ((k + 1 : Nat) : Int))
    (hn : (ms ++ ps).length ≤ e.size_max) (hfuel : (ms ++ ps).length + 2 ≤ fuel) :
    ∃ w1, poll e (complete e (hf + 1)) fuel w
        = outcome.returned w1 (min (k + 1) (ms ++ ps).length)
      ∧ completions w1.trace = ((ms ++ ps).take (k + 1)).reverse ++ completions w.trace
      ∧ w1.op_queue_ = ((ms ++ ps).drop (k + 1)).map operation.handler
      ∧ w1.stack = { outer with private_op_queue := [] } :: rest
      ∧ w1.stopped_ = decide (k + 1 ≤ (ms ++ ps).length) := by
  have hW0 : ¬ (w.outstanding_work_ = 0) := by rw [hW]; push_cast; omega
  obtain ⟨w1, g1, g2, g3, _, g5, g6⟩ := poll_loop_drains e hf (ms ++ ps) k
    { w with
      ec := 0
      op_queue_ := w.op_queue_ ++ outer.private_op_queue
      stack := fresh_thread :: { outer with private_op_queue := [] } :: rest }
    0 fuel ({ outer with private_op_queue := [] } :: rest) hh h1 hs rfl
    (by simp [hq, hp]) hW (by simpa using hn) hfuel
  refine ⟨leave w1, ?_, by simpa [leave] using g3, by simpa [leave] using g2,
    by simp [leave, g5], by simpa [leave] using g6⟩
  simp only [poll]
  rw [if_neg (by simpa using hW0), splice_outer_nested e w outer rest ht h1 hst, g1]
  simp [on_exit]

theorem do_poll_one_first (e : env) (hf : Nat) (ids : List Nat) (w : world)
    (rest : List thread_info) (h1 : w.one_thread_ = true) (hs : w.stopped_ = false)
    (hst : w.stack = fresh_thread :: rest) (hq : w.op_queue_ = ids.map operation.handler)
    (hh : ∀ id ∈ ids, e.handlers id = []) :
    ∃ w1, do_poll_one e (complete e (hf + 1)) w = outcome.returned w1 (min 1 ids.length)
      ∧ completions w1.trace = (ids.take 1).reverse ++ completions w.trace
      ∧ w1.op_queue_ = (ids.drop 1).map operation.handler
      ∧ w1.stack = w.stack := by
  cases ids with
  | nil =>
    exact ⟨w, do_poll_one_empty e _ w hs (by simpa using hq), by simp, by simpa using hq, rfl⟩
  | cons id q =>
    have hm : min 1 (id :: q).length = 1 := by simp
    rw [hm]
    refine ⟨_, do_poll_one_trivial e hf w id (q.map operation.handler) rest (hh id (by simp))
      hs h1 hst (by simpa using hq), ?_, ?_, ?_⟩
    · simp [record, completions]
    · simp [record]
    · simp [record]

theorem nested_poll_one_first (e : env) (hf : Nat) (ms ps : List Nat) (w : world)
    (outer : thread_info) (rest : List thread_info)
    (ht : e.has_threads = true) (h1 : w.one_thread_ = true) (hs : w.stopped_ = false)
    (hst : w.stack = outer :: rest) (hp : outer.private_op_queue = ps.map operation.handler)
    (hq : w.op_queue_ = ms.map operation.handler)
    (hh : ∀ id ∈ ms ++ ps, e.handlers id = []) (hW : w.outstanding_work_ ≠ 0) :
    ∃ w1, poll_one e (complete e (hf + 1)) w
        = outcome.returned w1 (min 1 (ms ++ ps).length)
      ∧ completions w1.trace = ((ms ++ ps).take 1).reverse ++ completions w.trace
      ∧ w1.op_queue_ = ((ms ++ ps).drop 1).map operation.handler := by
  obtain ⟨w1, g1, g2, g3, _⟩ := do_poll_one_first e hf (ms ++ ps)
    { w with
      ec := 0
      op_queue_ := w.op_queue_ ++ outer.private_op_queue
      stack := fresh_thread :: { outer with private_op_queue := [] } :: rest }
    ({ outer with private_op_queue := [] } :: rest) h1 hs rfl (by simp [hq, hp]) hh
  refine ⟨leave w1, ?_, by simpa [leave] using g2, by simpa [leave] using g3⟩
  simp only [poll_one]
  rw [if_neg (by simpa using hW), splice_outer_nested e w outer rest ht h1 hst, g1]
  simp [on_exit]

/-- C20, as stated, fails.  On a one-thread scheduler the handler of operation 1
posts operations 2 and 3 on the fast path and calls `poll` (first equation: the
call itself; second: a whole run that reaches it).  `poll` splices both onto
the main queue and completes operation 2; that brings `outstanding_work_`,
which does not count the two fast-path posts yet, to 0 and stops the
scheduler, so `poll` returns 1 with operation 3 still queued: it was visible
to the nested `poll` but not completed by it.  Third equation: with operation 4
already in the main queue, a nested `poll_one` completes operation 4 and
returns, and none of the handler's two posts is completed by it. -/
theorem nested_poll_stops_short :
    poll
        { handlers := fun id =>
            if id = 1 then [call.post_immediate_completion 2 false,
              call.post_immediate_completion 3 false, call.poll] else []
          has_threads := true, size_max := 100 }
        (complete
          { handlers := fun id =>
              if id = 1 then [call.post_immediate_completion 2 false,
                call.post_immediate_completion 3 false, call.poll] else []
            has_threads := true, size_max := 100 } 5)
        5
        { one_thread_ := true, task_ := false, task_interrupted_ := true,
          outstanding_work_ := 1, op_queue_ := [], stopped_ := false, shutdown_ := false,
          stack := [{ private_op_queue := [operation.handler 2, operation.handler 3],
                      private_outstanding_work := 2 }],
          reactor := [], waiters := 0, ec := 0,
          trace := [event.post (operation.handler 3), event.post (operation.handler 2),
            event.complete 1, event.post (operation.handler 1)] }
      = outcome.returned
          { one_thread_ := true, task_ := false, task_interrupted_ := true,
            outstanding_work_ := 0, op_queue_ := [operation.handler 3], stopped_ := true,
            shutdown_ := false,
            stack := [{ private_op_queue := [], private_outstanding_work := 2 }],
            reactor := [], waiters := 0, ec := 0,
            trace := [event.complete 2, event.post (operation.handler 3),
              event.post (operation.handler 2), event.complete 1,
              event.post (operation.handler 1)] } 1
    ∧ script
        { handlers := fun id =>
            if id = 1 then [call.post_immediate_completion 2 false,
              call.post_immediate_completion 3 false, call.poll] else []
          has_threads := true, size_max := 100 }
        20 (scheduler_new 1 true true []) [call.do_dispatch 1, call.run]
      = outcome.returned
          { one_thread_ := true, task_ := false, task_interrupted_ := true,
            outstanding_work_ := 1, op_queue_ := [operation.handler 3], stopped_ := true,
            shutdown_ := false, stack := [], reactor := [], waiters := 0, ec := 0,
            trace := [event.complete 2, event.post (operation.handler 3),
              event.post (operation.handler 2), event.complete 1,
              event.post (operation.handler 1)] } 0
    ∧ poll_one
        { handlers := fun _ => [], has_threads := true, size_max := 100 }
        (complete { handlers := fun _ => [], has_threads := true, size_max := 100 } 5)
        { one_thread_ := true, task_ := false, task_interrupted_ := true,
          outstanding_work_ := 2, op_queue_ := [operation.handler 4], stopped_ := false,
          shutdown_ := false,
          stack := [{ private_op_queue := [operation.handler 2, operation.handler 3],
                      private_outstanding_work := 2 }],
          reactor := [], waiters := 0, ec := 0,
          trace := [event.post (operation.handler 3), event.post (operation.handler 2),
            event.complete 1, event.post (operation.handler 4),
            event.post (operation.handler 1)] }
      = outcome.returned
          { one_thread_ := true, task_ := false, task_interrupted_ := true,
            outstanding_work_ := 1,
            op_queue_ := [operation.handler 2, operation.handler 3], stopped_ := false,
            shutdown_ := false,
            stack := [{ private_op_queue := [], private_outstanding_work := 2 }],
            reactor := [], waiters := 0, ec := 0,
            trace := [event.complete 4, event.post (operation.handler 3),
              event.post (operation.handler 2), event.complete 1,
              event.post (operation.handler 4), event.post (operation.handler 1)] } 1 := by
  decide

/-- C20, amended.  Let `poll` or `poll_one` be called with `outstanding_work_`
not 0 from inside a handler, `outer` being the `thread_info` of the enclosing
drive.  With `one_thread_` true, the loop of `poll` (the step of `poll_one`)
starts in the world whose main queue is the main queue followed by `outer`'s
private queue and in which `outer`'s private queue is empty (in a build
without threads nothing is moved, and no private queue holds anything); with
`one_thread_` false nothing is moved and `outer` is untouched.  The nested `poll` then completes
operations from the head of the main queue in queue order, the enclosing
handler's fast-path posts in posting order behind what was queued before, until
the queue is empty or `outstanding_work_`, which does not count those posts
yet, has come down to 0 and stopped the scheduler: with handlers that do
nothing and `outstanding_work_ = k + 1` it completes exactly the first
`min (k + 1) n` of the `n` operations.  A nested `poll_one` completes the
operation at the head of that queue and no other. -/
theorem nested_poll_splices_outer_queue (e : env) (cmp : world → Nat → outcome) (fuel : Nat)
    (w : world) (outer : thread_info) (rest : List thread_info)
    (hW : w.outstanding_work_ ≠ 0) (hst : w.stack = outer :: rest) :
    (w.one_thread_ = true → quiet e w →
        poll e cmp fuel w = on_exit leave (poll_loop e cmp fuel
          { w with
            ec := 0
            op_queue_ := w.op_queue_ ++ outer.private_op_queue
            stack := fresh_thread :: { outer with private_op_queue := [] } :: rest } 0)
        ∧ poll_one e cmp w = on_exit leave (do_poll_one e cmp
          { w with
            ec := 0
            op_queue_ := w.op_queue_ ++ outer.private_op_queue
            stack := fresh_thread :: { outer with private_op_queue := [] } :: rest }))
    ∧ ((e.has_threads = false ∨ w.one_thread_ = false) →
        poll e cmp fuel w = on_exit leave (poll_loop e cmp fuel
          { w with ec := 0, stack := fresh_thread :: outer :: rest } 0)
        ∧ poll_one e cmp w = on_exit leave (do_poll_one e cmp
          { w with ec := 0, stack := fresh_thread :: outer :: rest }))
    ∧ (e.has_threads = true → w.one_thread_ = true → w.stopped_ = false →
        ∀ (hf k : Nat) (ms ps : List Nat),
          outer.private_op_queue = ps.map operation.handler →
          w.op_queue_ = ms.map operation.handler →
          (∀ id ∈ ms ++ ps, e.handlers id = []) →
          w.outstanding_work_ = ((k + 1 : Nat) : Int) →
          (ms ++ ps).length ≤ e.size_max → (ms ++ ps).length + 2 ≤ fuel →
          ∃ w1, poll e (complete e (hf + 1)) fuel w
              = outcome.returned w1 (min (k + 1) (ms ++ ps).length)
            ∧ completions w1.trace
                = ((ms ++ ps).take (k + 1)).reverse ++ completions w.trace
            ∧ w1.op_queue_ = ((ms ++ ps).drop (k + 1)).map operation.handler
            ∧ w1.stack = { outer with private_op_queue := [] } :: rest
            ∧ w1.stopped_ = decide (k + 1 ≤ (ms ++ ps).length))
    ∧ (e.has_threads = true → w.one_thread_ = true → w.stopped_ = false →
        ∀ (hf : Nat) (ms ps : List Nat),
          outer.private_op_queue = ps.map operation.handler →
          w.op_queue_ = ms.map operation.handler →
          (∀ id ∈ ms ++ ps, e.handlers id = []) →
          ∃ w1, poll_one e (complete e (hf + 1)) w
              = outcome.returned w1 (min 1 (ms ++ ps).length)
            ∧ completions w1.trace = ((ms ++ ps).take 1).reverse ++ completions w.trace
            ∧ w1.op_queue_ = ((ms ++ ps).drop 1).map operation.handler) := by
  refine ⟨?_, ?_, ?_, ?_⟩
  · intro h1 hqt
    have hsp : splice_outer e (enter { w with ec := 0 }) =
        { w with
          ec := 0
          op_queue_ := w.op_queue_ ++ outer.private_op_queue
          stack := fresh_thread :: { outer with private_op_queue := [] } :: rest } := by
      cases ht : e.has_threads with
      | true => exact splice_outer_nested e w outer rest ht h1 hst
      | false =>
        have hp : outer.private_op_queue = [] := hqt ht outer (by rw [hst]; simp)
        rw [splice_outer_untouched e w (Or.inl ht), hst]
        cases outer
        simp only at hp
        subst hp
        simp
    constructor
    · simp only [poll]
      rw [if_neg (by simpa using hW), hsp]
    · simp only [poll_one]
      rw [if_neg (by simpa using hW), hsp]
  · intro h
    constructor
    · simp only [poll]
      rw [if_neg (by simpa using hW), splice_outer_untouched e w h, hst]
    · simp only [poll_one]
      rw [if_neg (by simpa using hW), splice_outer_untouched e w h, hst]
  · intro ht h1 hs hf k ms ps hp hq hh hWk hn hfuel
    exact nested_poll_drains e hf ms ps k w fuel outer rest ht h1 hs hst hp hq hh hWk hn hfuel
  · intro ht h1 hs hf ms ps hp hq hh
    exact nested_poll_one_first e hf ms ps w outer rest ht h1 hs hst hp hq hh hW

theorem nested_poll_splices_outer_queue_witness :
    ∃ w1, poll { handlers := fun _ => [], has_threads := true, size_max := 100 }
        (complete { handlers := fun _ => [], has_threads := true, size_max := 100 } (0 + 1)) 4
        { one_thread_ := true, task_ := false, task_interrupted_ := true,
          outstanding_work_ := 1, op_queue_ := [], stopped_ := false, shutdown_ := false,
          stack := [{ private_op_queue := [operation.handler 2, operation.handler 3],
                      private_outstanding_work := 2 }],
          reactor := [], waiters := 0, ec := 0, trace := [] }
        = outcome.returned w1 (min (0 + 1) ([] ++ [2, 3] : List Nat).length)
      ∧ completions w1.trace = ((([] : List Nat) ++ [2, 3]).take (0 + 1)).reverse ++ []
      ∧ w1.op_queue_ = ((([] : List Nat) ++ [2, 3]).drop (0 + 1)).map operation.handler :=
  let ⟨w1, h1, h2, h3, _⟩ :=
    (nested_poll_splices_outer_queue { handlers := fun _ => [], has_threads := true, size_max := 100 }
      (fun w _ => outcome.returned w 0) 4
      { one_thread_ := true, task_ := false, task_interrupted_ := true,
        outstanding_work_ := 1, op_queue_ := [], stopped_ := false, shutdown_ := false,
        stack := [{ private_op_queue := [operation.handler 2, operation.handler 3],
                    private_outstanding_work := 2 }],
        reactor := [], waiters := 0, ec := 0, trace := [] }
      { private_op_queue := [operation.handler 2, operation.handler 3],
        private_outstanding_work := 2 } [] (by decide) rfl).2.2.1 rfl rfl rfl 0 0 [] [2, 3]
      rfl rfl (fun _ _ => rfl) rfl (by decide) (by decide)
  ⟨w1, h1, h2, h3⟩
